import Mathlib

/-!
# MemoryPool: a shallow embedding of `memory_pool.hpp`

The development models `memory_pool::internal::HeapPool<T>` (the arena) and
`memory_pool::MemoryPool<T>` (the pool) as pure state-passing functions.

* The free store is a `Heap`: a finite map from addresses to arena objects,
  together with the number of arena objects allocated so far.
* A byte buffer is a length together with a byte-valued function; every access
  is bounds checked and an access outside the buffer is a `Fault`.
* A pointer into a buffer is the pair of the owning arena object and an offset.
* Machine integers are naturals or integers with explicit wrap-around:
  `unsigned short` is taken modulo `2^16`, `size_t` modulo `2^64` (or `2^32`
  when `sizeof(void*) != 8`), `unsigned long long` modulo `2^64`, and `int`
  is wrapped into `[-2^31, 2^31)`.
* `assert` is modelled as an active check.
* Loops carry a fuel argument; running out of fuel is a `Fault` of its own,
  so that a result is only ever claimed when the loop really finishes.
-/

namespace memory_pool

/-- Ways in which an execution can stop without producing a result. -/
inductive Fault where
  | assertion
  | outOfBounds
  | nullDeref
  | wildPointer
  | outOfFuel
  | misuse
  deriving DecidableEq, Repr

/-- Everything the source leaves to the platform and to the instantiation:
whether `sizeof(void*) == 8`, the value of `sizeof(T)`, the address the free
store hands out for the `k`-th arena object, and the indeterminate initial
content of the `k`-th byte buffer. -/
structure Env where
  is_64bit : Bool
  objSize : Nat
  addr : Nat → Nat
  junk : Nat → Nat → Nat

/-- Modulus of `size_t` arithmetic. -/
def Env.sizeMod (E : Env) : Nat := if E.is_64bit then 2 ^ 64 else 2 ^ 32

/-- Reduction of a natural number to a `size_t` value. -/
def Env.sizeT (E : Env) (x : Nat) : Nat := x % E.sizeMod

/-- Conversion of an integer value to `int` (two's complement, 32 bits). -/
def wrap32 (x : Int) : Int := (x + 2 ^ 31) % 2 ^ 32 - 2 ^ 31

/-- The constant returned by `block_header_size()`. -/
def block_header_size : Nat := 4

/-- The constant returned by `pool_header_size()`. -/
def pool_header_size : Nat := 8

/-- A heap-allocated `unsigned char[]`: its length and its bytes. -/
structure Buffer where
  len : Nat
  bytes : Nat → Nat

/-- Bounds-checked read of `pool[i]` for a signed position `i`. -/
def Buffer.read (b : Buffer) (i : Int) : Except Fault Nat :=
  if 0 ≤ i ∧ i < b.len then .ok (b.bytes i.toNat) else .error .outOfBounds

/-- The buffer `b` with the byte at offset `i` replaced by `v` (as `unsigned char`). -/
def Buffer.set (b : Buffer) (i v : Nat) : Buffer :=
  { len := b.len, bytes := fun j => if j = i then v % 256 else b.bytes j }

/-- Bounds-checked store `pool[i] = v` of an `unsigned char`. -/
def Buffer.write (b : Buffer) (i : Int) (v : Nat) : Except Fault Buffer :=
  if 0 ≤ i ∧ i < b.len then .ok (b.set i.toNat v) else .error .outOfBounds

/-- The data members of `HeapPool<T>` (the mutex carries no sequential state). -/
structure HeapPool where
  pool : Option Buffer
  next : Option Nat
  free : Nat
  capacity : Nat

/-- The free store: arena objects by address, and how many were allocated. -/
structure Heap where
  objs : Nat → Option HeapPool
  count : Nat

/-- The free store before anything is allocated. -/
def Heap.empty : Heap := { objs := fun _ => none, count := 0 }

/-- Replace the arena object stored at address `a`. -/
def Heap.set (h : Heap) (a : Nat) (o : HeapPool) : Heap :=
  { objs := fun x => if x = a then some o else h.objs x, count := h.count }

/-- A pointer into the byte buffer owned by the arena object at `base`. -/
structure Ptr where
  base : Nat
  off : Nat
  deriving DecidableEq, Repr

/-- The body of the `for` loop of `HeapPool::init`, with its loop variable `i`
(a `uint16_t`) and the running `size_t offset`. -/
def initLoop (E : Env) (cap : Nat) : Nat → Nat → Nat → Buffer → Except Fault Buffer
  | 0, _, _, _ => .error .outOfFuel
  | fuel + 1, i, offset, b =>
    if i < cap then do
      let b1 ← b.write offset 0
      let b2 ← b1.write (E.sizeT (offset + 1)) 0
      let b3 ← b2.write (E.sizeT (offset + 2)) ((i >>> 8) &&& 0xff)
      let b4 ← b3.write (E.sizeT (offset + 3)) (i &&& 0xff)
      initLoop E cap fuel ((i + 1) % 65536) (E.sizeT (E.sizeT (offset + 4) + E.objSize)) b4
    else .ok b

/-- The function `HeapPool::init` run on the arena object `o` located at address
`this`; `k` selects the indeterminate initial content of the new buffer. -/
def init (E : Env) (k : Nat) (this : Nat) (o : HeapPool) : Except Fault HeapPool :=
  match o.pool with
  | some _ => .error .assertion
  | none => do
    let n := E.sizeT (pool_header_size + E.sizeT (E.sizeT (block_header_size + E.objSize) * o.capacity))
    let b0 : Buffer := { len := n, bytes := fun j => E.junk k j % 256 }
    let u_this := this % 2 ^ 64
    let b1 ← b0.write 0 (if E.is_64bit then (u_this >>> 56) &&& 0xff else 0)
    let b2 ← b1.write 1 (if E.is_64bit then (u_this >>> 48) &&& 0xff else 0)
    let b3 ← b2.write 2 (if E.is_64bit then (u_this >>> 40) &&& 0xff else 0)
    let b4 ← b3.write 3 (if E.is_64bit then (u_this >>> 32) &&& 0xff else 0)
    let b5 ← b4.write 4 ((u_this >>> 24) &&& 0xff)
    let b6 ← b5.write 5 ((u_this >>> 16) &&& 0xff)
    let b7 ← b6.write 6 ((u_this >>> 8) &&& 0xff)
    let b8 ← b7.write 7 (u_this &&& 0xff)
    let b9 ← initLoop E o.capacity (o.capacity + 1) 0 8 b8
    .ok { pool := some b9, next := o.next, free := o.capacity, capacity := o.capacity }

/-- The allocation half of `new ThisType(c)`: storage for the arena object is
obtained at the next address and the members take their initial values. -/
def HeapPool.alloc (E : Env) (h : Heap) (c : Nat) : Heap × Nat :=
  let a := E.addr h.count
  ({ objs := fun x => if x = a then some { pool := none, next := none, free := 0, capacity := c }
                      else h.objs x,
     count := h.count + 1 }, a)

/-- The constructor body of `HeapPool(unsigned short c)`, run on the freshly
allocated object at address `this`. -/
def HeapPool.ctor (E : Env) (h : Heap) (this : Nat) : Except Fault Heap :=
  match h.objs this with
  | none => .error .wildPointer
  | some o =>
    if o.capacity > 0 then do
      let o1 ← init E (h.count - 1) this o
      .ok (h.set this o1)
    else .error .assertion

/-- The expression `new ThisType(c)`: allocate, then construct. -/
def HeapPool.new (E : Env) (h : Heap) (c : Nat) : Except Fault (Heap × Nat) :=
  let r := HeapPool.alloc E h c
  match HeapPool.ctor E r.1 r.2 with
  | .ok h1 => .ok (h1, r.2)
  | .error e => .error e

/-- The scan loop of `HeapPool::AllocateBlock` with its loop variable `i` and the
`int pos`; the result is the updated buffer and the offset of the block, if any. -/
def allocLoop (E : Env) (cap : Nat) : Nat → Nat → Int → Buffer → Except Fault (Buffer × Option Nat)
  | 0, _, _, _ => .error .outOfFuel
  | fuel + 1, i, pos, b =>
    if i < cap then do
      let flag ← b.read pos
      if flag = 0 then do
        let b1 ← b.write pos 1
        if pos + block_header_size ≤ b.len ∧ pos + block_header_size < 2 ^ 31 then
          .ok (b1, some (pos.toNat + block_header_size))
        else .error .outOfBounds
      else
        allocLoop E cap fuel ((i + 1) % 65536)
          (wrap32 (E.sizeT (E.sizeT (pos.toNat + E.objSize) + block_header_size))) b
    else .ok (b, none)

/-- The function `HeapPool::AllocateBlock` on the arena object `o`. -/
def AllocateBlock (E : Env) (o : HeapPool) : Except Fault (HeapPool × Option Nat) :=
  match o.pool with
  | none => .error .nullDeref
  | some b => do
    let r ← allocLoop E o.capacity (o.capacity + 1) 0 pool_header_size b
    .ok ({ pool := some r.1, next := o.next, free := o.free, capacity := o.capacity }, r.2)

/-- The walk of `HeapPool::Allocate` along the chain: `this` is the arena the
call was made on, `cur` the local variable `pool`. The result is the heap after
the loop and the value of `pool` when the loop is left. -/
def allocateWalk (E : Env) (this : Nat) : Nat → Heap → Option Nat → Except Fault (Heap × Option Nat)
  | 0, _, _ => .error .outOfFuel
  | _ + 1, h, none => .ok (h, none)
  | fuel + 1, h, some a =>
    match h.objs a with
    | none => .error .wildPointer
    | some o =>
      let h1 := h.set a { pool := o.pool, next := o.next, free := (o.free + 65535) % 65536,
                          capacity := o.capacity }
      if o.free > 0 then .ok (h1, some a)
      else
        let o2 : HeapPool := { pool := o.pool, next := o.next, free := ((o.free + 65535) % 65536 + 1) % 65536,
                               capacity := o.capacity }
        let h2 := h1.set a o2
        match o2.next with
        | some n => allocateWalk E this fuel h2 (some n)
        | none =>
          match h2.objs this with
          | none => .error .wildPointer
          | some head =>
            match HeapPool.new E h2 head.capacity with
            | .error e => .error e
            | .ok (h3, n) =>
              match h3.objs a with
              | none => .error .wildPointer
              | some o3 =>
                allocateWalk E this fuel
                  (h3.set a { pool := o3.pool, next := some n, free := o3.free, capacity := o3.capacity })
                  (some n)

/-- The function `HeapPool::Allocate` called on the arena at address `this`; the
result is the new heap and the returned block (`none` for a null pointer). -/
def Allocate (E : Env) (h : Heap) (this : Nat) : Except Fault (Heap × Option Ptr) := do
  let r ← allocateWalk E this (h.count + 2) h (some this)
  match r.2 with
  | none => .error .nullDeref
  | some a =>
    match r.1.objs a with
    | none => .error .wildPointer
    | some o => do
      let q ← AllocateBlock E o
      .ok (r.1.set a q.1, q.2.map (fun off => { base := a, off := off }))

/-- Read of one byte through a pointer into an arena buffer, `delta` bytes past
(or, when negative, before) the pointer. -/
def Heap.load (h : Heap) (p : Ptr) (delta : Int) : Except Fault Nat :=
  match h.objs p.base with
  | none => .error .wildPointer
  | some o =>
    match o.pool with
    | none => .error .nullDeref
    | some b => b.read (p.off + delta)

/-- Store of one byte through a pointer into an arena buffer. -/
def Heap.store (h : Heap) (p : Ptr) (delta : Int) (v : Nat) : Except Fault Heap :=
  match h.objs p.base with
  | none => .error .wildPointer
  | some o =>
    match o.pool with
    | none => .error .nullDeref
    | some b => do
      let b1 ← b.write (p.off + delta) v
      .ok (h.set p.base { pool := some b1, next := o.next, free := o.free, capacity := o.capacity })

/-- The function `HeapPool::GetBlockIndex`. -/
def GetBlockIndex (h : Heap) (block : Ptr) : Except Fault Nat := do
  let b2 ← h.load block (2 - (block_header_size : Int))
  let b3 ← h.load block (3 - (block_header_size : Int))
  .ok (((b2 <<< 8) ||| b3) % 65536)

/-- The decoding loop of `HeapPool::GetBlockPool`, reading `n` bytes from `i` on. -/
def decodeLoop (h : Heap) (current_pool : Ptr) : Nat → Nat → Nat → Except Fault Nat
  | 0, _, u => .ok u
  | n + 1, i, u => do
    let byte ← h.load current_pool i
    decodeLoop h current_pool n (i + 1) (((u <<< 8) % 2 ^ 64 + byte) % 2 ^ 64)

/-- The function `HeapPool::GetBlockPool`: the address of the arena object that
the bytes around `block` designate. -/
def GetBlockPool (E : Env) (h : Heap) (block : Ptr) : Except Fault Nat := do
  let index ← GetBlockIndex h block
  let back := E.sizeT (index * E.sizeT (E.objSize + block_header_size))
  if back + block_header_size + pool_header_size ≤ block.off then do
    let current_pool : Ptr :=
      { base := block.base, off := block.off - back - block_header_size - pool_header_size }
    let u ← decodeLoop h current_pool 8 0 0
    .ok (if E.is_64bit then u else u % 2 ^ 32)
  else .error .outOfBounds

/-- The function `HeapPool::FreeBlock` called on the arena at address `this`. -/
def FreeBlock (h : Heap) (this : Nat) (block : Ptr) : Except Fault Heap := do
  let h1 ← h.store block (0 - (block_header_size : Int)) 0
  match h1.objs this with
  | none => .error .wildPointer
  | some o =>
    .ok (h1.set this { pool := o.pool, next := o.next, free := (o.free + 1) % 65536,
                       capacity := o.capacity })

/-- The function `HeapPool::Free`. -/
def Free (E : Env) (h : Heap) (block : Ptr) : Except Fault Heap := do
  let pool ← GetBlockPool E h block
  FreeBlock h pool block

/-- The destructor `HeapPool::~HeapPool` run by `delete` on the arena at address
`a`: the rest of the chain is deleted first, then the buffer, then the object. -/
def HeapPool.delete : Nat → Heap → Nat → Except Fault Heap
  | 0, _, _ => .error .outOfFuel
  | fuel + 1, h, a =>
    match h.objs a with
    | none => .error .wildPointer
    | some o => do
      let h1 ← match o.next with
        | some n => HeapPool.delete fuel h n
        | none => .ok h
      .ok { objs := fun x => if x = a then none else h1.objs x, count := h1.count }

/-- The data member of `MemoryPool<T>` together with the free store it lives in. -/
structure MemoryPool where
  heap : Heap
  pool_allocator_ : Nat

/-- The constructor `MemoryPool(unsigned short count)` on an empty free store. -/
def MemoryPool.ctor (E : Env) (count : Nat) : Except Fault MemoryPool := do
  let r ← HeapPool.new E Heap.empty count
  .ok { heap := r.1, pool_allocator_ := r.2 }

/-- The destructor `~MemoryPool()`, whose body is empty: the free store is left
as it is. -/
def MemoryPool.dtor (m : MemoryPool) : Heap := m.heap

/-- The function `MemoryPool::Create`, up to the placement of the object: the
block obtained from `Allocate`, which must not be null for the object to be
constructed in it. -/
def MemoryPool.Create (E : Env) (m : MemoryPool) : Except Fault (MemoryPool × Ptr) := do
  let r ← Allocate E m.heap m.pool_allocator_
  match r.2 with
  | none => .error .nullDeref
  | some block => .ok ({ heap := r.1, pool_allocator_ := m.pool_allocator_ }, block)

/-- The function `MemoryPool::Destroy`, from the release of the block on. -/
def MemoryPool.Destroy (E : Env) (m : MemoryPool) (ptr : Ptr) : Except Fault MemoryPool := do
  let h ← Free E m.heap ptr
  .ok { heap := h, pool_allocator_ := m.pool_allocator_ }

/-! ## Sequential histories -/

/-- One call made by the owner of a pool: `create`, `destroy` of a handle, or a
store of the byte `v` at offset `j` of the object a live handle refers to. -/
inductive Op where
  | create
  | destroy (p : Ptr)
  | poke (p : Ptr) (j v : Nat)
  deriving DecidableEq, Repr

/-- A pool together with the handles that `create` returned and `destroy` has
not yet been given (the list is bookkeeping of the history, not program state). -/
structure Sys where
  mp : MemoryPool
  live : List Ptr

/-- Valid use: a handle passed to `destroy` or written through is live, and a
write stays inside the object. -/
def Op.allowed (E : Env) (S : Sys) : Op → Prop
  | .create => True
  | .destroy p => p ∈ S.live
  | .poke p j _ => p ∈ S.live ∧ j < E.objSize

instance (E : Env) (S : Sys) (op : Op) : Decidable (op.allowed E S) := by
  cases op <;> unfold Op.allowed <;> infer_instance

/-- Effect of one call on a pool. -/
def step (E : Env) (S : Sys) : Op → Except Fault Sys
  | .create => do
    let r ← S.mp.Create E
    .ok { mp := r.1, live := r.2 :: S.live }
  | .destroy p => do
    let m ← S.mp.Destroy E p
    .ok { mp := m, live := S.live.erase p }
  | .poke p j v => do
    let h ← S.mp.heap.store p j v
    .ok { mp := { heap := h, pool_allocator_ := S.mp.pool_allocator_ }, live := S.live }

/-- Run a history from a given state; a call that is not valid use stops the
run with `Fault.misuse`. -/
def run (E : Env) : Sys → List Op → Except Fault Sys
  | S, [] => .ok S
  | S, op :: ops =>
    if op.allowed E S then
      match step E S op with
      | .ok S1 => run E S1 ops
      | .error e => .error e
    else .error .misuse

/-- A freshly constructed pool with capacity `c`. -/
def boot (E : Env) (c : Nat) : Except Fault Sys :=
  match MemoryPool.ctor E c with
  | .ok m => .ok { mp := m, live := [] }
  | .error e => .error e

/-- Construct a pool with capacity `c`, then run a history on it. -/
def exec (E : Env) (c : Nat) (ops : List Op) : Except Fault Sys :=
  match boot E c with
  | .ok S => run E S ops
  | .error e => .error e

/-- Whether a run was stopped by a call that is not valid use. -/
def isMisuse : Except Fault Sys → Bool
  | .error .misuse => true
  | _ => false

/-- A history is valid when no call in it violates valid use. -/
def Valid (E : Env) (c : Nat) (ops : List Op) : Prop := isMisuse (exec E c ops) = false

instance (E : Env) (c : Nat) (ops : List Op) : Decidable (Valid E c ops) := by
  unfold Valid; infer_instance

/-- The history that consists of `n` calls of `create`. -/
def creates (n : Nat) : List Op := List.replicate n Op.create

/-! ## Concrete platforms used for evaluation -/

deriving instance DecidableEq for Except

/-- A 64-bit platform, `sizeof(T) = 12` as for the class `Test` of `main.cc`,
arena objects 1024 bytes apart from address 4096 on, fresh memory filled with
the byte `0xaa`. -/
def demoEnv : Env :=
  { is_64bit := true, objSize := 12, addr := fun k => 4096 + 1024 * k, junk := fun _ _ => 170 }

/-- A 64-bit platform with `sizeof(T) = 2^32 - 4`, so that one slot record is
exactly `2^32` bytes long; fresh memory is zero filled. -/
def wrapEnv : Env :=
  { is_64bit := true, objSize := 2 ^ 32 - 4, addr := fun k => 4096 + 1024 * k, junk := fun _ _ => 0 }

/-- A 64-bit platform with `sizeof(T) = 2^32`, so that one slot record is
`2^32 + 4` bytes long; fresh memory is zero filled. -/
def hugeEnv : Env :=
  { is_64bit := true, objSize := 2 ^ 32, addr := fun k => 4096 + 1024 * k, junk := fun _ _ => 0 }

/-- A 32-bit platform with `sizeof(T) = 65533`. -/
def narrowEnv : Env :=
  { is_64bit := false, objSize := 65533, addr := fun k => 4096 + 1024 * k, junk := fun _ _ => 0 }

/-- A 64-bit platform with `sizeof(T) = 2^63 - 4`. -/
def giantEnv : Env :=
  { is_64bit := true, objSize := 2 ^ 63 - 4, addr := fun k => 4096 + 1024 * k, junk := fun _ _ => 0 }

/-- A history on `demoEnv`: twelve creates, then the first handle is destroyed
and one byte is stored into the object of the last handle. -/
def demoHistory : List Op :=
  creates 12 ++ [Op.destroy { base := 4096, off := 12 }, Op.poke { base := 5120, off := 28 } 3 7]

/-! ## Layout vocabulary -/

/-- Offset of the record of slot `i` in an arena buffer. -/
def slotPos (E : Env) (i : Nat) : Nat := pool_header_size + i * (E.objSize + block_header_size)

/-- The handle of slot `i` of the `k`-th arena: the address of its payload. -/
def handle (E : Env) (k i : Nat) : Ptr :=
  { base := E.addr k, off := slotPos E i + block_header_size }

/-- The arena buffer can be addressed by `size_t`. -/
def FitsSize (E : Env) (c : Nat) : Prop := slotPos E c < E.sizeMod

/-- The arena buffer can be addressed by `int`. -/
def Fits (E : Env) (c : Nat) : Prop := slotPos E c ≤ 2 ^ 31 - 1

instance (E : Env) (c : Nat) : Decidable (FitsSize E c) := by
  unfold FitsSize; infer_instance

instance (E : Env) (c : Nat) : Decidable (Fits E c) := by
  unfold Fits; infer_instance

/-- Number of bits of an object pointer. -/
def Env.ptrBits (E : Env) : Nat := if E.is_64bit then 64 else 32

/-- The first `n` addresses handed out for arena objects are pairwise distinct
and are representable as pointers. -/
def AddrOK (E : Env) (n : Nat) : Prop :=
  (∀ i, i < n → E.addr i < 2 ^ E.ptrBits) ∧
  (∀ i, i < n → ∀ j, j < n → E.addr i = E.addr j → i = j)

instance (E : Env) (n : Nat) : Decidable (AddrOK E n) := by
  unfold AddrOK; infer_instance

/-- The byte at offset `j` of the buffer owned by the arena object at `a`
(`0` when there is no such buffer). -/
def Heap.byte (h : Heap) (a j : Nat) : Nat :=
  match h.objs a with
  | some o =>
    match o.pool with
    | some b => b.bytes j
    | none => 0
  | none => 0

/-- Number of slots among the first `n` whose occupancy flag is `0`. -/
def freeSlots (E : Env) (f : Nat → Nat) : Nat → Nat
  | 0 => 0
  | n + 1 => freeSlots E f n + (if f (slotPos E n) = 0 then 1 else 0)

/-- The big-endian byte `j` (of eight) of the value `a`. -/
def beByte (a j : Nat) : Nat := a / 2 ^ (8 * (7 - j)) % 256

/-- The arena object `o` at address `a` is a well-formed arena of capacity `c`
with buffer `b`. -/
structure ArenaOK (E : Env) (c a : Nat) (o : HeapPool) (b : Buffer) : Prop where
  pool_eq : o.pool = some b
  cap_eq : o.capacity = c
  len_eq : b.len = slotPos E c
  hdr : ∀ j, j < 8 → b.bytes j = beByte a j
  flag01 : ∀ i, i < c → b.bytes (slotPos E i) = 0 ∨ b.bytes (slotPos E i) = 1
  idxHi : ∀ i, i < c → b.bytes (slotPos E i + 2) = i / 256
  idxLo : ∀ i, i < c → b.bytes (slotPos E i + 3) = i % 256
  free_eq : o.free = freeSlots E b.bytes c

/-- The chain of a pool state consists of the arenas at `addr 0 .. addr (count-1)`,
linked in this order, each well formed. -/
structure ChainOK (E : Env) (c : Nat) (h : Heap) : Prop where
  pos : 0 < h.count
  arenas : ∀ k, k < h.count → ∃ o b, h.objs (E.addr k) = some o ∧ ArenaOK E c (E.addr k) o b ∧
    o.next = if k + 1 < h.count then some (E.addr (k + 1)) else none

/-- The invariant of pool states: a well-formed chain whose occupied slots are
exactly the live handles. -/
structure Inv (E : Env) (c : Nat) (S : Sys) : Prop where
  head : S.mp.pool_allocator_ = E.addr 0
  chain : ChainOK E c S.mp.heap
  live_iff : ∀ p, p ∈ S.live ↔
    ∃ k i, k < S.mp.heap.count ∧ i < c ∧ p = handle E k i ∧ S.mp.heap.byte (E.addr k) (slotPos E i) = 1
  nodup : S.live.Nodup

/-- The free counter of the arena object at `a` (`0` when there is none). -/
def Heap.freeOf (h : Heap) (a : Nat) : Nat :=
  match h.objs a with
  | some o => o.free
  | none => 0

/-- What a call of `Allocate` on the free store `h` achieves when it returns the
handle of slot `i0` of arena `k0` and leaves the free store `H`. -/
structure AllocPost (E : Env) (c : Nat) (h H : Heap) (k0 i0 : Nat) : Prop where
  slot_lt : i0 < c
  arena_le : k0 ≤ h.count
  arena_lt : k0 < H.count
  frame : ∀ k, k < h.count → ∀ j, (k ≠ k0 ∨ j ≠ slotPos E i0) →
    H.byte (E.addr k) j = h.byte (E.addr k) j
  taken : H.byte (E.addr k0) (slotPos E i0) = 1
  reuse : k0 < h.count → h.byte (E.addr k0) (slotPos E i0) = 0 ∧ H.count = h.count
  grow : k0 = h.count → H.count = h.count + 1 ∧ i0 = 0 ∧
    (∀ i, i < c → i ≠ 0 → H.byte (E.addr k0) (slotPos E i) = 0) ∧ h.freeOf (E.addr (k0 - 1)) = 0
  earlier_full : ∀ k, k < k0 → ∀ i, i < c → h.byte (E.addr k) (slotPos E i) ≠ 0
  lowest : k0 < h.count → ∀ i, i < i0 → h.byte (E.addr k0) (slotPos E i) ≠ 0
  counters : ∀ k, k < h.count → H.freeOf (E.addr k) =
    if k = k0 then (h.freeOf (E.addr k) + 65535) % 65536 else h.freeOf (E.addr k)
  earlier_zero : ∀ k, k < k0 → h.freeOf (E.addr k) = 0
  reuse_pos : k0 < h.count → 0 < h.freeOf (E.addr k0)
  grow_free : k0 = h.count → H.freeOf (E.addr k0) + 1 = c

/-- The arena at address `a` is reachable from `head` along `next` links. -/
inductive InChain (h : Heap) (head : Nat) : Nat → Prop where
  | head : InChain h head head
  | next (a n : Nat) (o : HeapPool) : InChain h head a → h.objs a = some o → o.next = some n →
      InChain h head n

/-! ## The properties the histories are checked against -/

/-- Every live handle is the handle of exactly one slot of exactly one arena of
the chain, that slot has occupancy flag `1`, and no handle is live twice. -/
def LiveSlots (E : Env) (c : Nat) (S : Sys) : Prop :=
  S.live.Nodup ∧
  ∀ p, p ∈ S.live → ∃ k i,
    (k < S.mp.heap.count ∧ i < c ∧ p = handle E k i ∧
      InChain S.mp.heap S.mp.pool_allocator_ (E.addr k) ∧
      S.mp.heap.byte (E.addr k) (slotPos E i) = 1) ∧
    ∀ k1 i1, k1 < S.mp.heap.count → i1 < c → p = handle E k1 i1 → k1 = k ∧ i1 = i

/-- Every live handle is the handle of a slot of an arena of the chain; and for
the handle of every slot of every arena of the chain (live, destroyed or never
handed out), `GetBlockIndex` reads the index of the slot, the base computed by
`GetBlockPool` is offset `0` of the buffer the handle points into, the eight
bytes there decode to the address of the arena that owns the buffer, and this
address is what `GetBlockPool` returns. -/
def ReverseMap (E : Env) (c : Nat) (S : Sys) : Prop :=
  (∀ p, p ∈ S.live → ∃ k i, k < S.mp.heap.count ∧ i < c ∧ p = handle E k i) ∧
  ∀ k i, k < S.mp.heap.count → i < c →
    GetBlockIndex S.mp.heap (handle E k i) = .ok i ∧
    (handle E k i).off - E.sizeT (i * E.sizeT (E.objSize + block_header_size))
      - block_header_size - pool_header_size = 0 ∧
    decodeLoop S.mp.heap { base := (handle E k i).base, off := 0 } 8 0 0 =
      .ok (handle E k i).base ∧
    GetBlockPool E S.mp.heap (handle E k i) = .ok (handle E k i).base

/-- When some slot of some arena of the chain is free, `Allocate` does not grow
the chain and returns the lowest free slot of the first arena that has one. -/
def ReuseLowest (E : Env) (c : Nat) (S : Sys) : Prop :=
  (∃ k i, k < S.mp.heap.count ∧ i < c ∧ S.mp.heap.byte (E.addr k) (slotPos E i) = 0) →
  ∃ k0 i0 H, Allocate E S.mp.heap S.mp.pool_allocator_ = .ok (H, some (handle E k0 i0)) ∧
    H.count = S.mp.heap.count ∧ k0 < S.mp.heap.count ∧ i0 < c ∧
    S.mp.heap.byte (E.addr k0) (slotPos E i0) = 0 ∧
    (∀ k, k < k0 → ∀ i, i < c → S.mp.heap.byte (E.addr k) (slotPos E i) ≠ 0) ∧
    (∀ i, i < i0 → S.mp.heap.byte (E.addr k0) (slotPos E i) ≠ 0)

/-- The state reached by `n` creates on a fresh pool of capacity `c`: the first
`n` slots, counted arena by arena, are occupied, all others are free, and the
live handles are the handles of those `n` slots, most recent first. -/
structure CreatesState (E : Env) (c n : Nat) (S : Sys) : Prop where
  inv : Inv E c S
  upper : n ≤ S.mp.heap.count * c
  lower : (S.mp.heap.count - 1) * c ≤ n
  strict : 0 < n → (S.mp.heap.count - 1) * c < n
  flags : ∀ k, k < S.mp.heap.count → ∀ i, i < c →
    S.mp.heap.byte (E.addr k) (slotPos E i) = if k * c + i < n then 1 else 0
  live_eq : S.live = (List.range n).reverse.map (fun j => handle E (j / c) (j % c))

/-- Growth granularity for `N` creates on a fresh pool of capacity `c`: the chain
consists of exactly `ceil(N / c)` arenas, each of capacity `c`; the handles
returned are those of the first `N` slots counted arena by arena; a create
grows the chain only when every slot of every arena is occupied; and with
capacity 1 all handles lie in pairwise distinct arenas. -/
def GrowthGranular (E : Env) (c N : Nat) : Prop :=
  ∃ S, exec E c (creates N) = .ok S ∧
    S.mp.heap.count = (N + c - 1) / c ∧
    (∀ a, InChain S.mp.heap S.mp.pool_allocator_ a ↔ ∃ k, k < S.mp.heap.count ∧ a = E.addr k) ∧
    (∀ k, k < S.mp.heap.count → ∃ o, S.mp.heap.objs (E.addr k) = some o ∧ o.capacity = c) ∧
    S.live = (List.range N).reverse.map (fun j => handle E (j / c) (j % c)) ∧
    (∀ n, n < N → ∃ Sn Sn1, exec E c (creates n) = .ok Sn ∧
      exec E c (creates (n + 1)) = .ok Sn1 ∧
      (Sn1.mp.heap.count ≠ Sn.mp.heap.count →
        ∀ k, k < Sn.mp.heap.count → ∀ i, i < c →
          Sn.mp.heap.byte (E.addr k) (slotPos E i) = 1)) ∧
    (c = 1 → ∀ j1 j2, j1 < N → j2 < N → j1 ≠ j2 →
      (handle E (j1 / c) (j1 % c)).base ≠ (handle E (j2 / c) (j2 % c)).base)

/-- The pool state `S` reached from `S0` by destroying every live handle: the
chain is the same, every slot of every arena is free, every counter equals the
capacity, and the next `Allocate` returns slot 0 of the head arena without
growing the chain. -/
def Drained (E : Env) (c : Nat) (S0 S : Sys) : Prop :=
  S.mp.heap.count = S0.mp.heap.count ∧
  (∀ a, InChain S.mp.heap S.mp.pool_allocator_ a ↔ InChain S0.mp.heap S0.mp.pool_allocator_ a) ∧
  (∀ k, k < S.mp.heap.count → ∀ i, i < c → S.mp.heap.byte (E.addr k) (slotPos E i) = 0) ∧
  (∀ k, k < S.mp.heap.count → S.mp.heap.freeOf (E.addr k) = c) ∧
  ∃ H, Allocate E S.mp.heap S.mp.pool_allocator_ = .ok (H, some (handle E 0 0)) ∧
    H.count = S.mp.heap.count

/-- After `N` creates on a fresh pool of capacity `c`, which leave `ceil(N / c)`
arenas and `N` distinct live handles, destroying all of them in any order
drains the pool. -/
def DestroyAll (E : Env) (c N : Nat) : Prop :=
  ∃ S0, exec E c (creates N) = .ok S0 ∧ S0.live.length = N ∧ S0.live.Nodup ∧
    S0.mp.heap.count = (N + c - 1) / c ∧
    ∀ l : List Ptr, l.Perm S0.live →
      ∃ S, exec E c (creates N ++ l.map Op.destroy) = .ok S ∧ Drained E c S0 S

/-- The free store `H` has the same arena objects as `h`, with the same `next`
links. -/
def Keeps (h H : Heap) : Prop :=
  H.count = h.count ∧
  ∀ a, (H.objs a).map (fun o => o.next) = (h.objs a).map (fun o => o.next)

/-- The free store `H` has every arena object of `h`, and every `next` link that
is set in `h` is the same in `H`. -/
def Extends (h H : Heap) : Prop :=
  h.count ≤ H.count ∧
  ∀ a o, h.objs a = some o → ∃ o1, H.objs a = some o1 ∧ ∀ n, o.next = some n → o1.next = some n

/-- Every arena object of the free store lives at one of the addresses handed
out so far. -/
def Tidy (E : Env) (h : Heap) : Prop :=
  ∀ a o, h.objs a = some o → ∃ k, k < h.count ∧ a = E.addr k

/-- The chain of `S2` extends the chain of `S`: no arena object is lost, the head
is the same, every arena reachable from the head stays reachable, and every
`next` link that is set in `S` has the same value in `S2`. -/
def AppendOnly (S S2 : Sys) : Prop :=
  S.mp.heap.count ≤ S2.mp.heap.count ∧
  S2.mp.pool_allocator_ = S.mp.pool_allocator_ ∧
  (∀ a, InChain S.mp.heap S.mp.pool_allocator_ a → InChain S2.mp.heap S2.mp.pool_allocator_ a) ∧
  (∀ a o n, S.mp.heap.objs a = some o → o.next = some n →
    ∃ o2, S2.mp.heap.objs a = some o2 ∧ o2.next = some n)

/-- The state a run ends in (an empty pool state when the run faults). -/
def stateOf (r : Except Fault Sys) : Sys :=
  match r with
  | .ok S => S
  | .error _ => { mp := { heap := Heap.empty, pool_allocator_ := 0 }, live := [] }

/-- The next `Allocate` returns a block (not a null pointer), and every arena
whose counter is positive, so that the walk would stop on it, has a slot whose
flag is `0`. -/
def AlwaysServes (E : Env) (c : Nat) (S : Sys) : Prop :=
  (∃ H p, Allocate E S.mp.heap S.mp.pool_allocator_ = .ok (H, some p)) ∧
  ∀ k, k < S.mp.heap.count → 0 < S.mp.heap.freeOf (E.addr k) →
    ∃ i, i < c ∧ S.mp.heap.byte (E.addr k) (slotPos E i) = 0

/-- How the construction of an arena object ends: the object is built and the
free store is `h`; or the assertion in the constructor body fails, `h` being the
free store at the moment of the failure; or a step goes wrong. -/
inductive CtorOutcome where
  | built (h : Heap)
  | rejected (h : Heap)
  | fault (e : Fault)

/-- The result of a construction as the rest of the program sees it. -/
def CtorOutcome.result : CtorOutcome → Except Fault Heap
  | .built h => .ok h
  | .rejected _ => .error .assertion
  | .fault e => .error e

/-- The constructor body `{ assert(capacity > 0); init(); }` of `HeapPool`, run
on the freshly allocated object at address `this`, with the free store it leaves
behind: the assertion comes first and leaves the free store as it finds it. -/
def HeapPool.ctorRun (E : Env) (h : Heap) (this : Nat) : CtorOutcome :=
  match h.objs this with
  | none => .fault .wildPointer
  | some o =>
    if o.capacity > 0 then
      match init E (h.count - 1) this o with
      | .ok o1 => .built (h.set this o1)
      | .error e => .fault e
    else .rejected h

/-- The expression `new ThisType(c)` with the free store it leaves behind:
allocate the object, then run the constructor body. -/
def HeapPool.newRun (E : Env) (h : Heap) (c : Nat) : CtorOutcome :=
  HeapPool.ctorRun E (HeapPool.alloc E h c).1 (HeapPool.alloc E h c).2

/-- The constructor `MemoryPool(unsigned short count)` on an empty free store,
with the free store it leaves behind. -/
def MemoryPool.ctorRun (E : Env) (count : Nat) : CtorOutcome :=
  HeapPool.newRun E Heap.empty count

/-- Construction with capacity 0 is rejected before any arena exists: it fails,
and in the free store at the moment of the failure there is no arena object. -/
def FailsBeforeArena (E : Env) : Prop :=
  ∃ hf, MemoryPool.ctorRun E 0 = .rejected hf ∧ ∀ a, hf.objs a = none

/-- Construction with capacity 0 fails at the assertion of the arena constructor;
in the free store at the moment of the failure the arena object is allocated at
the first address, with its members as initialised and without a byte buffer,
and there is no other arena object, so that no byte buffer exists. -/
def RejectsZero (E : Env) : Prop :=
  MemoryPool.ctor E 0 = .error .assertion ∧
  ∃ hf, MemoryPool.ctorRun E 0 = .rejected hf ∧ hf.count = 1 ∧
    hf.objs (E.addr 0) = some { pool := none, next := none, free := 0, capacity := 0 } ∧
    (∀ a, a ≠ E.addr 0 → hf.objs a = none) ∧
    ∀ a o, hf.objs a = some o → o.pool = none

/-- Construction of a pool with capacity `c` succeeds (the free store of the
model supplies the storage of every object and buffer that is requested). -/
def CtorSucceeds (E : Env) (c : Nat) : Prop := ∃ m, MemoryPool.ctor E c = .ok m

/-- The layout of a freshly constructed arena object `o` of capacity `c` at
address `a`, whose buffer was the `k`-th one obtained from the free store. -/
def FreshLayout (E : Env) (c a k : Nat) (o : HeapPool) : Prop :=
  ∃ b, o.pool = some b ∧ b.len = 8 + c * (E.objSize + 4) ∧
    (∀ j, j < 8 → b.bytes j = a / 2 ^ (8 * (7 - j)) % 256) ∧
    (E.is_64bit = false → (∀ j, j < 4 → b.bytes j = 0) ∧
      ∀ j, 4 ≤ j → j < 8 → b.bytes j = (a % 2 ^ 32) / 2 ^ (8 * (7 - j)) % 256) ∧
    (∀ i, i < c →
      b.bytes (8 + i * (E.objSize + 4)) = 0 ∧
      b.bytes (8 + i * (E.objSize + 4) + 1) = 0 ∧
      b.bytes (8 + i * (E.objSize + 4) + 2) = i >>> 8 ∧
      b.bytes (8 + i * (E.objSize + 4) + 3) = i &&& 0xff ∧
      8 + i * (E.objSize + 4) + 4 + E.objSize ≤ b.len ∧
      ∀ t, t < E.objSize →
        b.bytes (8 + i * (E.objSize + 4) + 4 + t) =
          E.junk k (8 + i * (E.objSize + 4) + 4 + t) % 256) ∧
    o.free = c ∧ o.capacity = c ∧ o.next = none

/-- The expression `new ThisType(c)` on the free store `h` succeeds and leaves a
freshly constructed arena with the layout `FreshLayout`. -/
def FreshArena (E : Env) (c : Nat) (h : Heap) : Prop :=
  ∃ hN o, HeapPool.new E h c = .ok (hN, E.addr h.count) ∧
    hN.objs (E.addr h.count) = some o ∧ FreshLayout E c (E.addr h.count) h.count o

/-- The arena object stored at address `a` (an empty arena object when there is
none). -/
def arenaAt (h : Heap) (a : Nat) : HeapPool :=
  match h.objs a with
  | some o => o
  | none => { pool := none, next := none, free := 0, capacity := 0 }

/-- The buffer of an arena object (an empty buffer when it has none). -/
def bufOf (o : HeapPool) : Buffer :=
  match o.pool with
  | some b => b
  | none => { len := 0, bytes := fun _ => 0 }

/-- The behaviour of `AllocateBlock` on the arena object `o` with buffer `b`: the
first record whose flag is `0`, if any, gets flag `1` and its payload offset is
returned, no other byte and no other member changes; when no record has flag
`0` the result is null and nothing changes; and null is returned only then. -/
def ScanSpec (E : Env) (c : Nat) (o : HeapPool) (b : Buffer) : Prop :=
  (∀ i0, i0 < c → b.bytes (slotPos E i0) = 0 → (∀ i, i < i0 → b.bytes (slotPos E i) ≠ 0) →
    ∃ o1 b1, AllocateBlock E o = .ok (o1, some (8 + i0 * (E.objSize + 4) + 4)) ∧
      o1.pool = some b1 ∧ b1.len = b.len ∧ b1.bytes (slotPos E i0) = 1 ∧
      (∀ j, j ≠ slotPos E i0 → b1.bytes j = b.bytes j) ∧
      o1.next = o.next ∧ o1.free = o.free ∧ o1.capacity = o.capacity) ∧
  ((∀ i, i < c → b.bytes (slotPos E i) ≠ 0) →
    ∃ o1, AllocateBlock E o = .ok (o1, none) ∧ o1.pool = some b ∧
      o1.next = o.next ∧ o1.free = o.free ∧ o1.capacity = o.capacity) ∧
  (∀ o1, AllocateBlock E o = .ok (o1, none) → ∀ i, i < c → b.bytes (slotPos E i) ≠ 0)

/-- The effect of `Free` on the handle of slot `i` of arena `k`, from the free
store `h` to `H`: every other arena object is untouched; in arena `k` the flag of
slot `i` goes from 1 to 0, every other byte of the buffer (header, reserved and
index bytes, payloads, other flags) is unchanged, the counter increases by 1,
and the `next` link and the capacity are unchanged. -/
def FreeFrame (E : Env) (h H : Heap) (k i : Nat) : Prop :=
  H.count = h.count ∧
  (∀ a, a ≠ E.addr k → H.objs a = h.objs a) ∧
  ∃ o o1 b b1, h.objs (E.addr k) = some o ∧ H.objs (E.addr k) = some o1 ∧
    o.pool = some b ∧ o1.pool = some b1 ∧ b1.len = b.len ∧
    b.bytes (slotPos E i) = 1 ∧ b1.bytes (slotPos E i) = 0 ∧
    (∀ j, j ≠ slotPos E i → b1.bytes j = b.bytes j) ∧
    o1.free = o.free + 1 ∧ o1.next = o.next ∧ o1.capacity = o.capacity

/-- `Free` succeeds on every live handle and has the effect `FreeFrame`. -/
def FreeFrames (E : Env) (c : Nat) (S : Sys) : Prop :=
  ∀ p, p ∈ S.live → ∃ k i H, k < S.mp.heap.count ∧ i < c ∧ p = handle E k i ∧
    Free E S.mp.heap p = .ok H ∧ FreeFrame E S.mp.heap H k i

/-- For every arena of the chain the free counter equals the number of slot
records whose occupancy flag is `0`, and every occupancy flag is `0` or `1`. -/
def CounterMatches (E : Env) (c : Nat) (S : Sys) : Prop :=
  ∀ k, k < S.mp.heap.count → ∃ o b, S.mp.heap.objs (E.addr k) = some o ∧ o.pool = some b ∧
    o.free = freeSlots E b.bytes c ∧
    ∀ i, i < c → b.bytes (slotPos E i) = 0 ∨ b.bytes (slotPos E i) = 1

/-- Run a history exactly as the code does, without any check of valid use. -/
def runRaw (E : Env) : Sys → List Op → Except Fault Sys
  | S, [] => .ok S
  | S, op :: ops =>
    match step E S op with
    | .ok S1 => runRaw E S1 ops
    | .error e => .error e

/-- Construct a pool of capacity `c` and run a history on it without any check
of valid use. -/
def execRaw (E : Env) (c : Nat) (ops : List Op) : Except Fault Sys :=
  match boot E c with
  | .ok S => runRaw E S ops
  | .error e => .error e

/-- The update `pos = pos + sizeof(T) + block_header_size()` of the `int`
position in `AllocateBlock`. -/
def nextPos (E : Env) (pos : Int) : Int :=
  wrap32 (E.sizeT (E.sizeT (pos.toNat + E.objSize) + block_header_size))

/-- The value of the `int` position of `AllocateBlock` at iteration `i`. -/
def scanPos (E : Env) : Nat → Int
  | 0 => (pool_header_size : Int)
  | i + 1 => nextPos E (scanPos E i)

/-- Memory safety of the arena code for capacity `c`. No access of `init`,
`AllocateBlock`, `GetBlockIndex`, `GetBlockPool` or `FreeBlock` leaves the
buffer (an access outside it is `Fault.outOfBounds`, so that a result `.ok`
means that every offset read or written was in range), the offsets accessed are
those of the header and of the slot records, the `int` scan position at
iteration `i` is `8 + i * (sizeof(T) + 4)`, and the base computed by
`GetBlockPool` is offset `0`. -/
def SafeOffsets (E : Env) (c : Nat) : Prop :=
  (∀ i, i ≤ c → scanPos E i = ((8 + i * (E.objSize + 4) : Nat) : Int) ∧ scanPos E i < 2 ^ 31) ∧
  (∀ (cap fuel i : Nat) (pos : Int) (b : Buffer) (flag : Nat), i < cap →
    b.read pos = .ok flag → flag ≠ 0 →
    allocLoop E cap (fuel + 1) i pos b =
      allocLoop E cap fuel ((i + 1) % 65536) (nextPos E pos) b) ∧
  (8 ≤ slotPos E c ∧ ∀ i, i < c → slotPos E i + 4 + E.objSize ≤ slotPos E c) ∧
  (∀ h : Heap, E.addr h.count < 2 ^ E.ptrBits →
    ∃ hN o b, HeapPool.new E h c = .ok (hN, E.addr h.count) ∧
      hN.objs (E.addr h.count) = some o ∧ o.pool = some b ∧ b.len = 8 + c * (E.objSize + 4)) ∧
  (∀ (o : HeapPool) (b : Buffer), o.pool = some b → o.capacity = c → b.len = slotPos E c →
    ∃ o1 r, AllocateBlock E o = .ok (o1, r) ∧
      ∀ off, r = some off → ∃ i, i < c ∧ off = slotPos E i + 4 ∧ off + E.objSize ≤ b.len) ∧
  (∀ h : Heap, ChainOK E c h → AddrOK E (h.count + 1) →
    ∃ H k i, Allocate E h (E.addr 0) = .ok (H, some (handle E k i)) ∧ k < H.count ∧ i < c ∧
      GetBlockIndex H (handle E k i) = .ok i ∧
      GetBlockPool E H (handle E k i) = .ok (E.addr k) ∧
      (handle E k i).off - E.sizeT (i * E.sizeT (E.objSize + block_header_size))
        - block_header_size - pool_header_size = 0 ∧
      ∃ H1, FreeBlock H (E.addr k) (handle E k i) = .ok H1)

/-! ## Construction and destruction of the managed objects -/

/-- What the constructor and the destructor of the managed type report when they
run (those of `Test` in `main.cc` each print a line): the address of the object
and, as a record of the state of the pool at this moment, the occupancy flag of
the slot record in front of the object. -/
inductive Event where
  | constructed (p : Ptr) (flag : Nat)
  | destructed (p : Ptr) (flag : Nat)
  deriving DecidableEq, Repr

/-- The object an event is about. -/
def Event.ptr : Event → Ptr
  | .constructed p _ => p
  | .destructed p _ => p

/-- The expression `new (block) T(...)`: the constructor of `T` runs at the
address `block` of the free store `h`, which must not be null, and the value of
the expression is this address. -/
def construct (h : Heap) (log : List Event) (block : Option Ptr) :
    Except Fault (Ptr × List Event) :=
  match block with
  | none => .error .nullDeref
  | some p => .ok (p, log ++ [Event.constructed p (h.byte p.base (p.off - block_header_size))])

/-- The statement `ptr->~T()`: the destructor of `T` runs at the address `ptr` of
the free store `h`. -/
def destruct (h : Heap) (log : List Event) (ptr : Ptr) : List Event :=
  log ++ [Event.destructed ptr (h.byte ptr.base (ptr.off - block_header_size))]

/-- The function `MemoryPool::Create` with the events of the managed type:
`Allocate` yields the block, placement `new` runs the constructor at the block
in the free store that `Allocate` has left, and its value is returned. -/
def MemoryPool.CreateLog (E : Env) (m : MemoryPool) (log : List Event) :
    Except Fault (MemoryPool × Ptr × List Event) := do
  let r ← Allocate E m.heap m.pool_allocator_
  let q ← construct r.1 log r.2
  .ok ({ heap := r.1, pool_allocator_ := m.pool_allocator_ }, q.1, q.2)

/-- The function `MemoryPool::Destroy` with the events of the managed type: the
destructor runs at `ptr` in the free store as `Destroy` finds it, then `Free`
releases the block. -/
def MemoryPool.DestroyLog (E : Env) (m : MemoryPool) (log : List Event) (ptr : Ptr) :
    Except Fault (MemoryPool × List Event) := do
  let log1 := destruct m.heap log ptr
  let h ← Free E m.heap ptr
  .ok ({ heap := h, pool_allocator_ := m.pool_allocator_ }, log1)

/-- Effect of one call on a pool and on the events reported so far. -/
def stepLog (E : Env) (S : Sys) (log : List Event) : Op → Except Fault (Sys × List Event)
  | .create => do
    let r ← S.mp.CreateLog E log
    .ok ({ mp := r.1, live := r.2.1 :: S.live }, r.2.2)
  | .destroy p => do
    let r ← S.mp.DestroyLog E log p
    .ok ({ mp := r.1, live := S.live.erase p }, r.2)
  | .poke p j v => do
    let S1 ← step E S (.poke p j v)
    .ok (S1, log)

/-- Run a history and collect the events of its calls after `log`. -/
def runLog (E : Env) : Sys → List Event → List Op → Except Fault (Sys × List Event)
  | S, log, [] => .ok (S, log)
  | S, log, op :: ops =>
    if op.allowed E S then
      match stepLog E S log op with
      | .ok r => runLog E r.1 r.2 ops
      | .error e => .error e
    else .error .misuse

/-- Construct a pool with capacity `c`, then run a history and collect its events. -/
def execLog (E : Env) (c : Nat) (ops : List Op) : Except Fault (Sys × List Event) :=
  match boot E c with
  | .ok S => runLog E S [] ops
  | .error e => .error e

/-- Whether a block holds an object: none, or one that has been constructed and
not yet destructed. -/
inductive Phase where
  | vacant
  | alive
  deriving DecidableEq, Repr

/-- The only order of events a block may go through: a constructor run on the
vacant block while its slot is reserved (flag 1), then a destructor run on the
object while its slot is still reserved, and again from the start. -/
def Phase.next : Phase → Event → Option Phase
  | .vacant, .constructed _ flag => if flag = 1 then some .alive else none
  | .alive, .destructed _ flag => if flag = 1 then some .vacant else none
  | _, _ => none

/-- Follow the events about the block `p`; `none` when they leave the order of
`Phase.next`. -/
def track (p : Ptr) (s : Option Phase) (e : Event) : Option Phase :=
  if e.ptr = p then s.bind (fun ph => ph.next e) else s

/-- The phase of block `p` after the events of `log`. -/
def phaseOf (p : Ptr) (log : List Event) : Option Phase :=
  log.foldl (track p) (some Phase.vacant)

/-- The life cycle of managed objects in the state `S` reached with the events
`log`. The events about every block alternate between a constructor run and a
destructor run, each while the slot of the block is reserved, and a block holds
a constructed and not yet destructed object exactly when it is a live handle.
The next `create` reports exactly one event, a constructor run at the handle it
returns, which is not live, is the payload of a slot that was free before the
call and is reserved when the constructor runs. The `destroy` of a live handle
reports exactly one event, a destructor run at the handle while its slot is
still reserved, and leaves the flag of the slot `0`. -/
def Lifecycle (E : Env) (c : Nat) (S : Sys) (log : List Event) : Prop :=
  (∀ p, phaseOf p log = some (if p ∈ S.live then Phase.alive else Phase.vacant)) ∧
  (∃ S1 k i, stepLog E S log .create =
      .ok (S1, log ++ [Event.constructed (handle E k i) 1]) ∧
    S1.live = handle E k i :: S.live ∧ handle E k i ∉ S.live ∧ k < S1.mp.heap.count ∧ i < c ∧
    (k < S.mp.heap.count → S.mp.heap.byte (E.addr k) (slotPos E i) = 0) ∧
    S1.mp.heap.byte (E.addr k) (slotPos E i) = 1) ∧
  (∀ p, p ∈ S.live → ∃ S1 k i, stepLog E S log (.destroy p) =
      .ok (S1, log ++ [Event.destructed p 1]) ∧
    p ∉ S1.live ∧ p = handle E k i ∧ k < S1.mp.heap.count ∧ i < c ∧
    S.mp.heap.byte (E.addr k) (slotPos E i) = 1 ∧
    S1.mp.heap.byte (E.addr k) (slotPos E i) = 0)

/-! ## The atomic steps of `Allocate` -/

/-- Where a thread is inside `HeapPool::Allocate`: `enter cur` at the head of
the loop with the local variable `pool` equal to `cur`, the next action being
`pool->free.fetch_sub(1)`; `comp a` after a `fetch_sub` on the arena `a` that
returned `0`, the next action being `fetch_add(1)`; `link a` before the locked
check and creation of `a->next`; `scan a` after the `break`, before the locked
slot scan `a->AllocateBlock()`; `done r` after the return of `r`. -/
inductive TState where
  | enter (cur : Option Nat)
  | comp (a : Nat)
  | link (a : Nat)
  | scan (a : Nat)
  | done (r : Option Ptr)
  deriving DecidableEq, Repr

/-- One atomic step of a thread that runs `Allocate` called on the arena at
address `this`, on the shared free store `h`. -/
def tstep (E : Env) (this : Nat) (h : Heap) : TState → Except Fault (Heap × TState)
  | .enter none => .error .nullDeref
  | .enter (some a) =>
    match h.objs a with
    | none => .error .wildPointer
    | some o =>
      .ok (h.set a { pool := o.pool, next := o.next, free := (o.free + 65535) % 65536,
                     capacity := o.capacity },
        if o.free > 0 then .scan a else .comp a)
  | .comp a =>
    match h.objs a with
    | none => .error .wildPointer
    | some o =>
      .ok (h.set a { pool := o.pool, next := o.next, free := (o.free + 1) % 65536,
                     capacity := o.capacity }, .link a)
  | .link a =>
    match h.objs a with
    | none => .error .wildPointer
    | some o =>
      match o.next with
      | some n => .ok (h, .enter (some n))
      | none =>
        match h.objs this with
        | none => .error .wildPointer
        | some head =>
          match HeapPool.new E h head.capacity with
          | .error e => .error e
          | .ok (h3, n) =>
            match h3.objs a with
            | none => .error .wildPointer
            | some o3 =>
              .ok (h3.set a { pool := o3.pool, next := some n, free := o3.free,
                              capacity := o3.capacity }, .enter (some n))
  | .scan a =>
    match h.objs a with
    | none => .error .wildPointer
    | some o =>
      match AllocateBlock E o with
      | .error e => .error e
      | .ok q => .ok (h.set a q.1, .done (q.2.map (fun off => { base := a, off := off })))
  | .done r => .ok (h, .done r)

/-- The first `n` atomic steps of one thread that runs alone. -/
def iter (E : Env) (this : Nat) : Nat → Heap → TState → Except Fault (Heap × TState)
  | 0, h, st => .ok (h, st)
  | n + 1, h, st =>
    match tstep E this h st with
    | .ok r => iter E this n r.1 r.2
    | .error e => .error e

/-- Threads that run `Allocate` concurrently on one free store: the schedule
names, step by step, the thread that takes the next atomic step. -/
def sched (E : Env) (this : Nat) : List Nat → Heap → List TState →
    Except Fault (Heap × List TState)
  | [], h, ts => .ok (h, ts)
  | t :: rest, h, ts =>
    match ts.get? t with
    | none => .error .misuse
    | some st =>
      match tstep E this h st with
      | .ok r => sched E this rest r.1 (ts.set t r.2)
      | .error e => .error e

/-- The members `free` and `capacity` of every arena object hold values of the
type `unsigned short`. -/
def Shorts (h : Heap) : Prop :=
  ∀ a o, h.objs a = some o → o.free < 65536 ∧ o.capacity < 65536

/-- How `Allocate`, called on the arena at `this` in the free store `h`, uses
the 16-bit counters. The `fetch_sub` on an arena stores the old value minus 1
modulo `2^16` and the arena is admitted (the loop left towards the slot scan)
exactly when the old value is positive; for the old value 0 the stored value is
65535 and the following `fetch_add` restores 0 and the free store as it was.
Every completed call is a run of these atomic steps, it returns a block of one
arena `b` only, every other arena has the counter value it had before the call,
and the counter of `b` is smaller by exactly 1 than before the call (than its
initial value, the capacity, when `b` was created by the call). -/
def CounterProtocol (E : Env) (this : Nat) (h : Heap) : Prop :=
  (∀ a o, h.objs a = some o →
    tstep E this h (.enter (some a)) =
      .ok (h.set a { pool := o.pool, next := o.next, free := (o.free + 65535) % 65536,
                     capacity := o.capacity },
        if o.free > 0 then .scan a else .comp a) ∧
    (h.set a { pool := o.pool, next := o.next, free := (o.free + 65535) % 65536,
               capacity := o.capacity }).freeOf a < 65536 ∧
    (0 < o.free → (o.free + 65535) % 65536 + 1 = o.free) ∧
    (o.free = 0 → (o.free + 65535) % 65536 = 65535 ∧
      tstep E this (h.set a { pool := o.pool, next := o.next, free := 65535,
                              capacity := o.capacity }) (.comp a) = .ok (h, .link a))) ∧
  (∀ H r, Allocate E h this = .ok (H, r) →
    (∃ n, iter E this n h (.enter (some this)) = .ok (H, .done r)) ∧
    ∃ b, (∀ p, r = some p → p.base = b) ∧
      (∀ a o, h.objs a = some o → a ≠ b → H.freeOf a = o.free) ∧
      (∀ o, h.objs b = some o → 0 < o.free ∧ H.freeOf b + 1 = o.free) ∧
      (h.objs b = none →
        0 < (arenaAt h this).capacity ∧ H.freeOf b + 1 = (arenaAt h this).capacity))

/-- The invariant of the atomic steps of one call of `Allocate` on a chain that
had `L` arenas of capacity `c` when the call began: every arena has capacity
`c` and links to an arena of the chain, the counter of every arena is at most
`c`, except that the counter of the arena the thread has just overdrawn (state
`comp`) is 65535, and an arena is added at most once, after which the thread
only enters the new arena and scans. -/
structure TInv (E : Env) (c L : Nat) (h : Heap) (st : TState) : Prop where
  tidy : Tidy E h
  pos : 0 < L
  cnt : h.count = L ∨ (h.count = L + 1 ∧
    ((st = .enter (some (E.addr L)) ∧ 0 < h.freeOf (E.addr L)) ∨ (∃ a, st = .scan a) ∨
      ∃ r, st = .done r))
  arenas : ∀ k, k < h.count → ∃ o, h.objs (E.addr k) = some o ∧ o.capacity = c ∧
    (∀ n, o.next = some n → ∃ k1, k1 < h.count ∧ n = E.addr k1) ∧
    (st = .comp (E.addr k) → o.free = 65535) ∧ (st ≠ .comp (E.addr k) → o.free ≤ c)
  loc : ∀ a, (st = .enter (some a) ∨ st = .comp a ∨ st = .link a ∨ st = .scan a) →
    ∃ k, k < h.count ∧ a = E.addr k

/-- The range of the free counters in the state `S` and during the next call of
`Allocate`: between calls every arena has capacity `c` and a counter in
`0..c`; in every state that the atomic steps of the next `Allocate` reach, the
counter of every arena is in `0..c`, except for the arena whose counter the
thread has just decremented from 0, which holds 65535 until the compensating
increment; the steps do reach the end of the call; and after `destroy` of a live
handle, whose last step is the `fetch_add` of `FreeBlock`, every counter is in
`0..c`. -/
def CounterRange (E : Env) (c : Nat) (S : Sys) : Prop :=
  (∀ k, k < S.mp.heap.count →
    (arenaAt S.mp.heap (E.addr k)).capacity = c ∧ S.mp.heap.freeOf (E.addr k) ≤ c) ∧
  (∀ n h st, iter E S.mp.pool_allocator_ n S.mp.heap (.enter (some S.mp.pool_allocator_)) =
      .ok (h, st) →
    ∀ k, k < h.count → (arenaAt h (E.addr k)).capacity = c ∧
      (h.freeOf (E.addr k) ≤ c ∨ (st = .comp (E.addr k) ∧ h.freeOf (E.addr k) = 65535))) ∧
  (∃ n H p, iter E S.mp.pool_allocator_ n S.mp.heap (.enter (some S.mp.pool_allocator_)) =
    .ok (H, .done (some p))) ∧
  (∀ p, p ∈ S.live → ∃ S1, step E S (.destroy p) = .ok S1 ∧
    ∀ k, k < S1.mp.heap.count → S1.mp.heap.freeOf (E.addr k) ≤ c)

/-- A 64-bit platform with `sizeof(T) = 2^32 + 4`, on which the second arena
object is placed at the address `2^56 + 5120`; fresh memory is zero filled. -/
def aliasEnv : Env :=
  { is_64bit := true, objSize := 2 ^ 32 + 4,
    addr := fun k => if k = 0 then 4096 else 2 ^ 56 + 5120 * k, junk := fun _ _ => 0 }

/-- Three creates, the destroy of the third object, a store into the first
object, and the destroy of the second object. -/
def aliasHistory : List Op :=
  [Op.create, Op.create, Op.create, Op.destroy ⟨2 ^ 56 + 5120, 12⟩, Op.poke ⟨4096, 12⟩ 2 20,
    Op.destroy ⟨4096, 20⟩]

/-! ## The arenas visited by `Allocate` -/

/-- The walk of `HeapPool::Allocate` as in `allocateWalk`, which in addition
records the arenas on which the loop body runs, in this order, and the arenas
that it creates and links. -/
def visitWalk (E : Env) (this : Nat) :
    Nat → Heap → Option Nat → Except Fault (Heap × Option Nat × List Nat × List Nat)
  | 0, _, _ => .error .outOfFuel
  | _ + 1, h, none => .ok (h, none, [], [])
  | fuel + 1, h, some a =>
    match h.objs a with
    | none => .error .wildPointer
    | some o =>
      let h1 := h.set a { pool := o.pool, next := o.next, free := (o.free + 65535) % 65536,
                          capacity := o.capacity }
      if o.free > 0 then .ok (h1, some a, [a], [])
      else
        let o2 : HeapPool := { pool := o.pool, next := o.next, free := ((o.free + 65535) % 65536 + 1) % 65536,
                               capacity := o.capacity }
        let h2 := h1.set a o2
        match o2.next with
        | some n =>
          (visitWalk E this fuel h2 (some n)).map (fun r => (r.1, r.2.1, a :: r.2.2.1, r.2.2.2))
        | none =>
          match h2.objs this with
          | none => .error .wildPointer
          | some head =>
            match HeapPool.new E h2 head.capacity with
            | .error e => .error e
            | .ok (h3, n) =>
              match h3.objs a with
              | none => .error .wildPointer
              | some o3 =>
                (visitWalk E this fuel
                  (h3.set a { pool := o3.pool, next := some n, free := o3.free, capacity := o3.capacity })
                  (some n)).map (fun r => (r.1, r.2.1, a :: r.2.2.1, n :: r.2.2.2))

/-- A 64-bit platform with `sizeof(T) = 2^31 - 4`, so that one slot record is
`2^31` bytes long; fresh memory is zero filled. -/
def edgeEnv : Env :=
  { is_64bit := true, objSize := 2 ^ 31 - 4, addr := fun k => 4096 + 1024 * k, junk := fun _ _ => 0 }

/-- The bound on the walk of the next `Allocate` in the state `S`, whose chain
has `L = count` arenas of capacity `c`: the call returns a block; the loop body
runs on the arenas `addr 0, ..., addr k0` in this order, each once, where
`k0 ≤ L` and the block belongs to arena `k0`, so on at most `L + 1` arenas; it
links a new arena exactly when the counter of every arena of the chain is 0,
then just one, of capacity `c`, behind the last arena, and the call goes on to
it (`k0 = L`); otherwise it links none and the chain keeps its length. -/
def WalkBound (E : Env) (c : Nat) (S : Sys) : Prop :=
  (∀ k, k < S.mp.heap.count → (arenaAt S.mp.heap (E.addr k)).capacity = c) ∧
  ∃ H lnk H1 p k0,
    visitWalk E S.mp.pool_allocator_ (S.mp.heap.count + 2) S.mp.heap
      (some S.mp.pool_allocator_) =
        .ok (H, some (E.addr k0), (List.range (k0 + 1)).map E.addr, lnk) ∧
    Allocate E S.mp.heap S.mp.pool_allocator_ = .ok (H1, some p) ∧ p.base = E.addr k0 ∧
    k0 ≤ S.mp.heap.count ∧ ((List.range (k0 + 1)).map E.addr).Nodup ∧
    ((∀ k, k < S.mp.heap.count → S.mp.heap.freeOf (E.addr k) = 0) →
      lnk = [E.addr S.mp.heap.count] ∧ k0 = S.mp.heap.count ∧
      H1.count = S.mp.heap.count + 1 ∧
      (arenaAt H1 (E.addr S.mp.heap.count)).capacity = c ∧
      (arenaAt H1 (E.addr (S.mp.heap.count - 1))).next = some (E.addr S.mp.heap.count)) ∧
    ((∃ k, k < S.mp.heap.count ∧ 0 < S.mp.heap.freeOf (E.addr k)) →
      lnk = [] ∧ k0 < S.mp.heap.count ∧ H1.count = S.mp.heap.count)

/-! ## Basic facts about machine arithmetic and buffers -/

theorem sizeMod_ge (E : Env) : 2 ^ 32 ≤ E.sizeMod := by
  unfold Env.sizeMod; split <;> norm_num

theorem sizeT_of_lt (E : Env) (x : Nat) (h : x < E.sizeMod) : E.sizeT x = x :=
  Nat.mod_eq_of_lt h

theorem wrap32_of_lt (x : Int) (h0 : 0 ≤ x) (h1 : x < 2 ^ 31) : wrap32 x = x := by
  unfold wrap32; omega

theorem and_ff (n : Nat) : n &&& 0xff = n % 256 :=
  Nat.and_pow_two_sub_one_eq_mod n 8

theorem shr_eq_div (n k : Nat) : n >>> k = n / 2 ^ k := Nat.shiftRight_eq_div_pow n k

theorem write_nat (b : Buffer) (i v : Nat) (h : i < b.len) :
    b.write (i : Int) v = .ok (b.set i v) := by
  unfold Buffer.write
  rw [if_pos (by omega)]
  simp

theorem read_nat (b : Buffer) (i : Nat) (h : i < b.len) :
    b.read (i : Int) = .ok (b.bytes i) := by
  unfold Buffer.read
  rw [if_pos (by omega)]
  simp

@[simp] theorem set_len (b : Buffer) (i v : Nat) : (b.set i v).len = b.len := rfl

theorem set_bytes (b : Buffer) (i v j : Nat) :
    (b.set i v).bytes j = if j = i then v % 256 else b.bytes j := rfl

theorem slotPos_zero (E : Env) : slotPos E 0 = 8 := by
  simp [slotPos, pool_header_size]

theorem slotPos_succ (E : Env) (i : Nat) : slotPos E (i + 1) = slotPos E i + (E.objSize + 4) := by
  simp only [slotPos, pool_header_size, block_header_size]; ring

theorem slotPos_mono (E : Env) {i j : Nat} (h : i ≤ j) : slotPos E i ≤ slotPos E j := by
  simp only [slotPos]
  exact Nat.add_le_add_left (Nat.mul_le_mul_right _ h) _

theorem slotPos_lt (E : Env) {i j : Nat} (h : i < j) :
    slotPos E i + (E.objSize + 4) ≤ slotPos E j := by
  rw [← slotPos_succ]; exact slotPos_mono E h

/-! ## The constructor -/

theorem index_hi (i : Nat) (h : i < 65536) : ((i >>> 8) &&& 0xff) % 256 = i / 256 := by
  rw [and_ff, shr_eq_div]; omega

theorem index_lo (i : Nat) : (i &&& 0xff) % 256 = i % 256 := by
  rw [and_ff]; omega

/-- The loop of `init`, started at slot `i`, writes the records of the slots
`i .. c-1` and nothing else. -/
theorem initLoop_spec (E : Env) (c : Nat) (hc : c < 65536) (hfit : FitsSize E c) :
    ∀ (fuel i : Nat) (b : Buffer), i ≤ c → c - i < fuel → b.len = slotPos E c →
    ∃ b1, initLoop E c fuel i (slotPos E i) b = .ok b1 ∧ b1.len = b.len ∧
      (∀ i1, i ≤ i1 → i1 < c →
        b1.bytes (slotPos E i1) = 0 ∧ b1.bytes (slotPos E i1 + 1) = 0 ∧
        b1.bytes (slotPos E i1 + 2) = i1 / 256 ∧ b1.bytes (slotPos E i1 + 3) = i1 % 256) ∧
      (∀ j, (∀ i1, i ≤ i1 → i1 < c → j < slotPos E i1 ∨ slotPos E i1 + 4 ≤ j) →
        b1.bytes j = b.bytes j) := by
  intro fuel
  induction fuel with
  | zero => intro i b _ h; omega
  | succ fuel ih =>
    intro i b hi hfuel hlen
    unfold initLoop
    by_cases hic : i < c
    · have hs := slotPos_lt E hic
      have hfit1 : slotPos E c < E.sizeMod := hfit
      rw [if_pos hic]
      have e1 : E.sizeT (slotPos E i + 1) = slotPos E i + 1 := sizeT_of_lt E _ (by omega)
      have e2 : E.sizeT (slotPos E i + 2) = slotPos E i + 2 := sizeT_of_lt E _ (by omega)
      have e3 : E.sizeT (slotPos E i + 3) = slotPos E i + 3 := sizeT_of_lt E _ (by omega)
      have e4 : E.sizeT (slotPos E i + 4) = slotPos E i + 4 := sizeT_of_lt E _ (by omega)
      have e5 : E.sizeT (slotPos E i + 4 + E.objSize) = slotPos E (i + 1) := by
        rw [slotPos_succ, sizeT_of_lt E _ (by omega)]; omega
      have e6 : (i + 1) % 65536 = i + 1 := Nat.mod_eq_of_lt (by omega)
      rw [e1, e2, e3, e4, e5, e6]
      simp only [bind, Except.bind]
      rw [write_nat b _ _ (by omega)]
      simp only []
      rw [write_nat _ _ _ (by simp; omega)]
      simp only []
      rw [write_nat _ _ _ (by simp; omega)]
      simp only []
      rw [write_nat _ _ _ (by simp; omega)]
      simp only []
      obtain ⟨b1, hb1, hl1, hrec, hframe⟩ :=
        ih (i + 1) ((((b.set (slotPos E i) 0).set (slotPos E i + 1) 0).set (slotPos E i + 2)
          ((i >>> 8) &&& 0xff)).set (slotPos E i + 3) (i &&& 0xff)) (by omega) (by omega)
          (by simp; exact hlen)
      refine ⟨b1, hb1, by simpa using hl1, ?_, ?_⟩
      · intro i1 h1 h2
        by_cases heq : i1 = i
        · subst heq
          have fr : ∀ t, t < 4 → b1.bytes (slotPos E i1 + t) = _ := fun t ht =>
            hframe (slotPos E i1 + t) (fun i2 h3 _ => by
              have := slotPos_lt E (show i1 < i2 by omega); omega)
          have f0 := fr 0 (by omega)
          have f1 := fr 1 (by omega)
          have f2 := fr 2 (by omega)
          have f3 := fr 3 (by omega)
          simp only [Nat.add_zero] at f0
          rw [f0, f1, f2, f3]
          simp only [set_bytes]
          refine ⟨?_, ?_, ?_, ?_⟩
          · simp
          · simp
          · simp [index_hi i1 (by omega)]
          · simp [index_lo]
        · exact hrec i1 (by omega) h2
      · intro j hj
        rw [hframe j (fun i1 h1 h2 => hj i1 (by omega) h2)]
        have := hj i (Nat.le_refl i) hic
        simp only [set_bytes]
        iterate 4 rw [if_neg (by omega)]
    · rw [if_neg hic]
      refine ⟨b, rfl, rfl, ?_, ?_⟩
      · intro i1 h1 h2; omega
      · intro j _; rfl

theorem freeSlots_congr (E : Env) (f g : Nat → Nat) :
    ∀ n, (∀ i, i < n → f (slotPos E i) = g (slotPos E i)) → freeSlots E f n = freeSlots E g n := by
  intro n
  induction n with
  | zero => intro _; rfl
  | succ n ih =>
    intro h
    simp only [freeSlots]
    rw [ih (fun i hi => h i (by omega)), h n (by omega)]

theorem freeSlots_le (E : Env) (f : Nat → Nat) : ∀ n, freeSlots E f n ≤ n := by
  intro n
  induction n with
  | zero => simp [freeSlots]
  | succ n ih => simp only [freeSlots]; split <;> omega

theorem freeSlots_all_free (E : Env) (f : Nat → Nat) :
    ∀ n, (∀ i, i < n → f (slotPos E i) = 0) → freeSlots E f n = n := by
  intro n
  induction n with
  | zero => intro _; rfl
  | succ n ih =>
    intro h
    simp only [freeSlots]
    rw [ih (fun i hi => h i (by omega)), if_pos (h n (by omega))]

theorem freeSlots_eq_zero (E : Env) (f : Nat → Nat) :
    ∀ n, freeSlots E f n = 0 → ∀ i, i < n → f (slotPos E i) ≠ 0 := by
  intro n
  induction n with
  | zero => intro _ i hi; omega
  | succ n ih =>
    intro h i hi
    simp only [freeSlots] at h
    by_cases hz : f (slotPos E n) = 0
    · rw [if_pos hz] at h; omega
    · rw [if_neg hz] at h
      by_cases hin : i = n
      · subst hin; exact hz
      · exact ih (by omega) i (by omega)

theorem freeSlots_pos (E : Env) (f : Nat → Nat) :
    ∀ n, 0 < freeSlots E f n → ∃ i, i < n ∧ f (slotPos E i) = 0 := by
  intro n
  induction n with
  | zero => intro h; simp [freeSlots] at h
  | succ n ih =>
    intro h
    simp only [freeSlots] at h
    by_cases hz : f (slotPos E n) = 0
    · exact ⟨n, by omega, hz⟩
    · rw [if_neg hz] at h
      obtain ⟨i, hi, hf⟩ := ih (by omega)
      exact ⟨i, by omega, hf⟩

theorem hdr64 (a : Nat) (ha : a < 2 ^ 64) :
    (((a % 2 ^ 64) >>> 56) &&& 0xff) % 256 = beByte a 0 ∧
    (((a % 2 ^ 64) >>> 48) &&& 0xff) % 256 = beByte a 1 ∧
    (((a % 2 ^ 64) >>> 40) &&& 0xff) % 256 = beByte a 2 ∧
    (((a % 2 ^ 64) >>> 32) &&& 0xff) % 256 = beByte a 3 ∧
    (((a % 2 ^ 64) >>> 24) &&& 0xff) % 256 = beByte a 4 ∧
    (((a % 2 ^ 64) >>> 16) &&& 0xff) % 256 = beByte a 5 ∧
    (((a % 2 ^ 64) >>> 8) &&& 0xff) % 256 = beByte a 6 ∧
    ((a % 2 ^ 64) &&& 0xff) % 256 = beByte a 7 := by
  rw [Nat.mod_eq_of_lt ha]
  refine ⟨?_, ?_, ?_, ?_, ?_, ?_, ?_, ?_⟩ <;>
    simp only [and_ff, shr_eq_div, beByte, Nat.reduceSub, Nat.reduceMul, Nat.reducePow] <;> omega

theorem hdr32 (a : Nat) (ha : a < 2 ^ 32) :
    0 % 256 = beByte a 0 ∧ 0 % 256 = beByte a 1 ∧ 0 % 256 = beByte a 2 ∧
    0 % 256 = beByte a 3 := by
  refine ⟨?_, ?_, ?_, ?_⟩ <;>
    simp only [beByte, Nat.reduceSub, Nat.reduceMul, Nat.reducePow] <;> omega

theorem slotPos_ge (E : Env) (i : Nat) : 8 ≤ slotPos E i := by
  have := slotPos_mono E (Nat.zero_le i); rw [slotPos_zero] at this; exact this

theorem init_len (E : Env) (c : Nat) (hfit : FitsSize E c) :
    E.sizeT (pool_header_size + E.sizeT (E.sizeT (block_header_size + E.objSize) * c)) = slotPos E c := by
  have hfit1 : slotPos E c < E.sizeMod := hfit
  have hm := sizeMod_ge E
  by_cases hc : c = 0
  · subst hc
    simp only [Nat.mul_zero, slotPos, Nat.zero_mul, pool_header_size, Env.sizeT]
    rw [Nat.zero_mod, Nat.add_zero, Nat.mod_eq_of_lt (by omega)]
  · have h1 := slotPos_lt E (show 0 < c by omega)
    rw [slotPos_zero] at h1
    have e1 : E.sizeT (block_header_size + E.objSize) = E.objSize + 4 := by
      rw [sizeT_of_lt E _ (by simp only [block_header_size]; omega)]
      simp only [block_header_size]; omega
    have e0 : slotPos E c = 8 + (E.objSize + 4) * c := by
      simp only [slotPos, pool_header_size, block_header_size]; ring
    rw [e1, sizeT_of_lt E ((E.objSize + 4) * c) (by omega), pool_header_size, ← e0,
      sizeT_of_lt E _ hfit1]

/-- The function `init` succeeds on a fresh arena object whenever the buffer
size does not overflow `size_t`, and produces the layout of the source. -/
theorem init_spec (E : Env) (c k a : Nat) (o : HeapPool) (hc : c < 65536)
    (hfit : FitsSize E c) (ha : a < 2 ^ E.ptrBits) (hp : o.pool = none) (hcap : o.capacity = c) :
    ∃ o1 b, init E k a o = .ok o1 ∧ ArenaOK E c a o1 b ∧ o1.next = o.next ∧ o1.free = c ∧
      (∀ i, i < c → b.bytes (slotPos E i) = 0 ∧ b.bytes (slotPos E i + 1) = 0) ∧
      (∀ i, i < c → ∀ t, t < E.objSize →
        b.bytes (slotPos E i + 4 + t) = E.junk k (slotPos E i + 4 + t) % 256) := by
  unfold init
  rw [hp]
  simp only [hcap, init_len E c hfit]
  have hge := slotPos_ge E c
  obtain ⟨b1, hb1, hl1, hrec, hframe⟩ := initLoop_spec E c hc hfit (c + 1) 0
    (Buffer.set (Buffer.set (Buffer.set (Buffer.set (Buffer.set (Buffer.set (Buffer.set (Buffer.set ({ len := slotPos E c, bytes := fun j => E.junk k j % 256 } : Buffer)
      0 (if E.is_64bit then ((a % 2 ^ 64) >>> 56) &&& 0xff else 0))
      1 (if E.is_64bit then ((a % 2 ^ 64) >>> 48) &&& 0xff else 0))
      2 (if E.is_64bit then ((a % 2 ^ 64) >>> 40) &&& 0xff else 0))
      3 (if E.is_64bit then ((a % 2 ^ 64) >>> 32) &&& 0xff else 0))
      4 (((a % 2 ^ 64) >>> 24) &&& 0xff))
      5 (((a % 2 ^ 64) >>> 16) &&& 0xff))
      6 (((a % 2 ^ 64) >>> 8) &&& 0xff))
      7 ((a % 2 ^ 64) &&& 0xff))
    (Nat.zero_le c) (by omega) rfl
  rw [slotPos_zero] at hb1
  simp only [bind, Except.bind]
  rw [show ((0 : Int)) = ((0 : Nat) : Int) from rfl, write_nat _ 0 _ (by simp; omega)]
  simp only []
  rw [show ((1 : Int)) = ((1 : Nat) : Int) from rfl, write_nat _ 1 _ (by simp; omega)]
  simp only []
  rw [show ((2 : Int)) = ((2 : Nat) : Int) from rfl, write_nat _ 2 _ (by simp; omega)]
  simp only []
  rw [show ((3 : Int)) = ((3 : Nat) : Int) from rfl, write_nat _ 3 _ (by simp; omega)]
  simp only []
  rw [show ((4 : Int)) = ((4 : Nat) : Int) from rfl, write_nat _ 4 _ (by simp; omega)]
  simp only []
  rw [show ((5 : Int)) = ((5 : Nat) : Int) from rfl, write_nat _ 5 _ (by simp; omega)]
  simp only []
  rw [show ((6 : Int)) = ((6 : Nat) : Int) from rfl, write_nat _ 6 _ (by simp; omega)]
  simp only []
  rw [show ((7 : Int)) = ((7 : Nat) : Int) from rfl, write_nat _ 7 _ (by simp; omega)]
  simp only []
  rw [show ((8 : Nat)) = 8 from rfl] at hb1
  rw [hb1]
  simp only [set_len] at hl1
  have hhdr : ∀ j, j < 8 → b1.bytes j = beByte a j := by
    intro j hj
    rw [hframe j (fun i1 _ _ => by have := slotPos_ge E i1; omega)]
    simp only [set_bytes]
    cases h64 : E.is_64bit
    · have ha32 : a < 2 ^ 32 := by simpa [Env.ptrBits, h64] using ha
      obtain ⟨q0, q1, q2, q3, q4, q5, q6, q7⟩ := hdr64 a (by omega)
      obtain ⟨p0, p1, p2, p3⟩ := hdr32 a ha32
      interval_cases j <;> simp only [Nat.reduceEqDiff, ↓reduceIte, Bool.false_eq_true] <;>
        first | exact p0 | exact p1 | exact p2 | exact p3 | exact q4 | exact q5 | exact q6 | exact q7
    · have ha64 : a < 2 ^ 64 := by simpa [Env.ptrBits, h64] using ha
      obtain ⟨q0, q1, q2, q3, q4, q5, q6, q7⟩ := hdr64 a ha64
      interval_cases j <;> simp only [Nat.reduceEqDiff, ↓reduceIte] <;>
        first | exact q0 | exact q1 | exact q2 | exact q3 | exact q4 | exact q5 | exact q6 | exact q7
  refine ⟨_, b1, rfl, ⟨rfl, rfl, hl1, hhdr, ?_, ?_, ?_, ?_⟩, rfl, rfl, ?_, ?_⟩
  · intro i hi; exact Or.inl (hrec i (Nat.zero_le i) hi).1
  · intro i hi; exact (hrec i (Nat.zero_le i) hi).2.2.1
  · intro i hi; exact (hrec i (Nat.zero_le i) hi).2.2.2
  · exact (freeSlots_all_free E b1.bytes c (fun i hi => (hrec i (Nat.zero_le i) hi).1)).symm
  · intro i hi; exact ⟨(hrec i (Nat.zero_le i) hi).1, (hrec i (Nat.zero_le i) hi).2.1⟩
  · intro i hi t ht
    rw [hframe _ (fun i1 _ h1 => by
      rcases Nat.lt_trichotomy i1 i with h | h | h
      · have := slotPos_lt E h; omega
      · subst h; omega
      · have := slotPos_lt E h; omega)]
    have := slotPos_ge E i
    simp only [set_bytes]
    iterate 8 rw [if_neg (by omega)]

/-! ## The slot scan -/

theorem fits_size (E : Env) (c : Nat) (h : Fits E c) : FitsSize E c := by
  have := sizeMod_ge E
  have h1 : slotPos E c ≤ 2 ^ 31 - 1 := h
  show slotPos E c < E.sizeMod
  omega

theorem scan_next (E : Env) (c i : Nat) (hfit : Fits E c) (hi : i < c) :
    wrap32 (E.sizeT (E.sizeT ((slotPos E i : Int).toNat + E.objSize) + block_header_size)) =
      (slotPos E (i + 1) : Int) := by
  have h1 : slotPos E c ≤ 2 ^ 31 - 1 := hfit
  have h2 := slotPos_mono E (show i + 1 ≤ c by omega)
  have h3 := slotPos_succ E i
  have hm := sizeMod_ge E
  rw [Int.toNat_ofNat, sizeT_of_lt E (slotPos E i + E.objSize) (by omega), block_header_size,
    sizeT_of_lt E _ (by omega)]
  rw [show slotPos E i + E.objSize + 4 = slotPos E (i + 1) by omega]
  exact wrap32_of_lt _ (by omega) (by omega)

/-- The scan of `AllocateBlock`, started at slot `i`, stops at the first slot
from `i` on whose flag is `0`, marks it and returns its payload offset. -/
theorem allocLoop_found (E : Env) (c : Nat) (hc : c < 65536) (hfit : Fits E c) (b : Buffer)
    (hlen : b.len = slotPos E c) (i0 : Nat) (hi0 : i0 < c) (hfree : b.bytes (slotPos E i0) = 0) :
    ∀ (fuel i : Nat), i ≤ i0 → c - i < fuel →
    (∀ i1, i ≤ i1 → i1 < i0 → b.bytes (slotPos E i1) ≠ 0) →
    allocLoop E c fuel i (slotPos E i : Int) b =
      .ok (b.set (slotPos E i0) 1, some (slotPos E i0 + 4)) := by
  intro fuel
  induction fuel with
  | zero => intro i _ h; omega
  | succ fuel ih =>
    intro i hi hfuel hocc
    have h1 : slotPos E c ≤ 2 ^ 31 - 1 := hfit
    have h2 := slotPos_lt E (show i < c by omega)
    unfold allocLoop
    rw [if_pos (show i < c by omega)]
    simp only [bind, Except.bind]
    rw [read_nat b _ (by omega)]
    simp only []
    by_cases hz : b.bytes (slotPos E i) = 0
    · have heq : i = i0 := by
        by_contra hne
        exact hocc i (Nat.le_refl i) (by omega) hz
      subst heq
      rw [if_pos hz, write_nat b _ _ (by omega)]
      simp only []
      rw [if_pos (by simp only [block_header_size]; omega)]
      simp [block_header_size]
    · rw [if_neg hz]
      have hne : i ≠ i0 := fun h => hz (h ▸ hfree)
      rw [scan_next E c i hfit (by omega), Nat.mod_eq_of_lt (show i + 1 < 65536 by omega)]
      exact ih (i + 1) (by omega) (by omega) (fun i1 h3 h4 => hocc i1 (by omega) h4)

/-- The scan of `AllocateBlock` finds nothing and changes nothing when no slot
from `i` on has flag `0`. -/
theorem allocLoop_none (E : Env) (c : Nat) (hc : c < 65536) (hfit : Fits E c) (b : Buffer)
    (hlen : b.len = slotPos E c) :
    ∀ (fuel i : Nat), i ≤ c → c - i < fuel →
    (∀ i1, i ≤ i1 → i1 < c → b.bytes (slotPos E i1) ≠ 0) →
    allocLoop E c fuel i (slotPos E i : Int) b = .ok (b, none) := by
  intro fuel
  induction fuel with
  | zero => intro i _ h; omega
  | succ fuel ih =>
    intro i hi hfuel hocc
    unfold allocLoop
    by_cases hic : i < c
    · have h1 : slotPos E c ≤ 2 ^ 31 - 1 := hfit
      have h2 := slotPos_lt E hic
      rw [if_pos hic]
      simp only [bind, Except.bind]
      rw [read_nat b _ (by omega)]
      simp only []
      rw [if_neg (hocc i (Nat.le_refl i) hic), scan_next E c i hfit hic,
        Nat.mod_eq_of_lt (show i + 1 < 65536 by omega)]
      exact ih (i + 1) (by omega) (by omega) (fun i1 h3 h4 => hocc i1 (by omega) h4)
    · rw [if_neg hic]

/-- The least slot with flag `0`, when there is one. -/
theorem least_free (E : Env) (f : Nat → Nat) (c : Nat) (h : ∃ i, i < c ∧ f (slotPos E i) = 0) :
    ∃ i0, i0 < c ∧ f (slotPos E i0) = 0 ∧ ∀ i1, i1 < i0 → f (slotPos E i1) ≠ 0 := by
  classical
  refine ⟨Nat.find h, (Nat.find_spec h).1, (Nat.find_spec h).2, ?_⟩
  intro i1 hi1 hz
  exact Nat.find_min h hi1 ⟨by have := (Nat.find_spec h).1; omega, hz⟩

/-! ## Well-formed arenas -/

theorem slotPos_inj (E : Env) {i j : Nat} (h : slotPos E i = slotPos E j) : i = j := by
  rcases Nat.lt_trichotomy i j with h1 | h1 | h1
  · have := slotPos_lt E h1; omega
  · exact h1
  · have := slotPos_lt E h1; omega

/-- A record byte (offset `u < 4` in slot `i`) is never a payload byte. -/
theorem rec_ne_payload (E : Env) (i j u t : Nat) (hu : u < 4) (ht : t < E.objSize) :
    slotPos E i + u ≠ slotPos E j + 4 + t := by
  rcases Nat.lt_trichotomy i j with h1 | h1 | h1
  · have := slotPos_lt E h1; omega
  · subst h1; omega
  · have := slotPos_lt E h1; omega

/-- Record bytes of different slots are different bytes. -/
theorem rec_ne_rec (E : Env) (i j u v : Nat) (hu : u < 4) (hv : v < 4) (hij : i ≠ j) :
    slotPos E i + u ≠ slotPos E j + v := by
  rcases Nat.lt_trichotomy i j with h1 | h1 | h1
  · have := slotPos_lt E h1; omega
  · exact absurd h1 hij
  · have := slotPos_lt E h1; omega

theorem freeSlots_take (E : Env) (f g : Nat → Nat) (i0 : Nat) (hf : f (slotPos E i0) = 0)
    (hg : g (slotPos E i0) ≠ 0) (hsame : ∀ i, i ≠ i0 → g (slotPos E i) = f (slotPos E i)) :
    ∀ n, i0 < n → freeSlots E g n + 1 = freeSlots E f n := by
  intro n
  induction n with
  | zero => intro h; omega
  | succ n ih =>
    intro h
    simp only [freeSlots]
    by_cases hn : i0 = n
    · subst hn
      rw [if_pos hf, if_neg hg, freeSlots_congr E g f i0 (fun i hi => hsame i (by omega))]
    · rw [hsame n (fun h1 => hn h1.symm)]
      have := ih (by omega)
      omega

theorem freeSlots_release (E : Env) (f g : Nat → Nat) (i0 : Nat) (hf : f (slotPos E i0) ≠ 0)
    (hg : g (slotPos E i0) = 0) (hsame : ∀ i, i ≠ i0 → g (slotPos E i) = f (slotPos E i)) :
    ∀ n, i0 < n → freeSlots E g n = freeSlots E f n + 1 := by
  intro n hn
  have := freeSlots_take E g f i0 hg hf (fun i hi => (hsame i hi).symm) n hn
  omega

theorem arena_free_le (E : Env) (c a : Nat) (o : HeapPool) (b : Buffer) (h : ArenaOK E c a o b) :
    o.free ≤ c := by
  rw [h.free_eq]; exact freeSlots_le E _ c

/-- Taking the free slot `i0` of a well-formed arena (flag set, counter
decremented) leaves a well-formed arena. -/
theorem arena_take (E : Env) (c a : Nat) (o : HeapPool) (b : Buffer) (hc : c < 65536)
    (h : ArenaOK E c a o b) (i0 : Nat) (hi : i0 < c) (hz : b.bytes (slotPos E i0) = 0) :
    ArenaOK E c a
      { pool := some (b.set (slotPos E i0) 1), next := o.next, free := (o.free + 65535) % 65536,
        capacity := o.capacity } (b.set (slotPos E i0) 1) := by
  have hge := slotPos_ge E i0
  have hcnt := freeSlots_take E b.bytes (b.set (slotPos E i0) 1).bytes i0 hz
    (by simp [set_bytes])
    (fun i hi1 => by
      simp only [set_bytes]
      rw [if_neg (fun h1 => hi1 (slotPos_inj E h1))]) c hi
  have hle := freeSlots_le E b.bytes c
  refine ⟨rfl, h.cap_eq, by simpa using h.len_eq, ?_, ?_, ?_, ?_, ?_⟩
  · intro j hj
    simp only [set_bytes]
    rw [if_neg (by omega)]
    exact h.hdr j hj
  · intro i hi1
    simp only [set_bytes]
    by_cases he : slotPos E i = slotPos E i0
    · rw [if_pos he]; right; rfl
    · rw [if_neg he]; exact h.flag01 i hi1
  · intro i hi1
    simp only [set_bytes]
    rw [if_neg (by
      by_cases he : i = i0
      · subst he; omega
      · have := rec_ne_rec E i i0 2 0 (by omega) (by omega) he; omega)]
    exact h.idxHi i hi1
  · intro i hi1
    simp only [set_bytes]
    rw [if_neg (by
      by_cases he : i = i0
      · subst he; omega
      · have := rec_ne_rec E i i0 3 0 (by omega) (by omega) he; omega)]
    exact h.idxLo i hi1
  · show (o.free + 65535) % 65536 = freeSlots E (b.set (slotPos E i0) 1).bytes c
    rw [h.free_eq]
    omega

/-- Releasing the occupied slot `i0` of a well-formed arena (flag cleared,
counter incremented) leaves a well-formed arena. -/
theorem arena_release (E : Env) (c a : Nat) (o : HeapPool) (b : Buffer) (hc : c < 65536)
    (h : ArenaOK E c a o b) (i0 : Nat) (hi : i0 < c) (hz : b.bytes (slotPos E i0) = 1) :
    ArenaOK E c a
      { pool := some (b.set (slotPos E i0) 0), next := o.next, free := (o.free + 1) % 65536,
        capacity := o.capacity } (b.set (slotPos E i0) 0) := by
  have hge := slotPos_ge E i0
  have hcnt := freeSlots_release E b.bytes (b.set (slotPos E i0) 0).bytes i0 (by omega)
    (by simp [set_bytes])
    (fun i hi1 => by
      simp only [set_bytes]
      rw [if_neg (fun h1 => hi1 (slotPos_inj E h1))]) c hi
  have hle := freeSlots_le E (b.set (slotPos E i0) 0).bytes c
  refine ⟨rfl, h.cap_eq, by simpa using h.len_eq, ?_, ?_, ?_, ?_, ?_⟩
  · intro j hj
    simp only [set_bytes]
    rw [if_neg (by omega)]
    exact h.hdr j hj
  · intro i hi1
    simp only [set_bytes]
    by_cases he : slotPos E i = slotPos E i0
    · rw [if_pos he]; left; rfl
    · rw [if_neg he]; exact h.flag01 i hi1
  · intro i hi1
    simp only [set_bytes]
    rw [if_neg (by
      by_cases he : i = i0
      · subst he; omega
      · have := rec_ne_rec E i i0 2 0 (by omega) (by omega) he; omega)]
    exact h.idxHi i hi1
  · intro i hi1
    simp only [set_bytes]
    rw [if_neg (by
      by_cases he : i = i0
      · subst he; omega
      · have := rec_ne_rec E i i0 3 0 (by omega) (by omega) he; omega)]
    exact h.idxLo i hi1
  · show (o.free + 1) % 65536 = freeSlots E (b.set (slotPos E i0) 0).bytes c
    rw [h.free_eq]
    omega

/-- A store into the payload of a slot leaves a well-formed arena. -/
theorem arena_poke (E : Env) (c a : Nat) (o : HeapPool) (b : Buffer)
    (h : ArenaOK E c a o b) (i0 t v : Nat) (ht : t < E.objSize) :
    ArenaOK E c a
      { pool := some (b.set (slotPos E i0 + 4 + t) v), next := o.next, free := o.free,
        capacity := o.capacity } (b.set (slotPos E i0 + 4 + t) v) := by
  have hge := slotPos_ge E i0
  have hbytes : ∀ i u, u < 4 → (b.set (slotPos E i0 + 4 + t) v).bytes (slotPos E i + u) =
      b.bytes (slotPos E i + u) := by
    intro i u hu
    simp only [set_bytes]
    rw [if_neg (rec_ne_payload E i i0 u t hu ht)]
  refine ⟨rfl, h.cap_eq, by simpa using h.len_eq, ?_, ?_, ?_, ?_, ?_⟩
  · intro j hj
    simp only [set_bytes]
    rw [if_neg (by omega)]
    exact h.hdr j hj
  · intro i hi1
    have := hbytes i 0 (by omega)
    simp only [Nat.add_zero] at this
    rw [this]; exact h.flag01 i hi1
  · intro i hi1
    rw [hbytes i 2 (by omega)]; exact h.idxHi i hi1
  · intro i hi1
    rw [hbytes i 3 (by omega)]; exact h.idxLo i hi1
  · show o.free = _
    rw [h.free_eq]
    exact freeSlots_congr E _ _ c (fun i _ => by
      have := hbytes i 0 (by omega)
      simp only [Nat.add_zero] at this
      exact this.symm)

/-- On an arena with a buffer of the right length `AllocateBlock` takes the lowest
slot whose flag is `0`. -/
theorem AllocateBlock_found (E : Env) (c : Nat) (o : HeapPool) (b : Buffer) (hc : c < 65536)
    (hfit : Fits E c) (hpool : o.pool = some b) (hcap : o.capacity = c)
    (hlen : b.len = slotPos E c) (i0 : Nat) (hi : i0 < c)
    (hz : b.bytes (slotPos E i0) = 0) (hmin : ∀ i, i < i0 → b.bytes (slotPos E i) ≠ 0) :
    AllocateBlock E o =
      .ok ({ pool := some (b.set (slotPos E i0) 1), next := o.next, free := o.free,
             capacity := o.capacity }, some (slotPos E i0 + 4)) := by
  unfold AllocateBlock
  rw [hpool]
  simp only [bind, Except.bind]
  have := allocLoop_found E c hc hfit b hlen i0 hi hz (c + 1) 0 (Nat.zero_le _) (by omega)
    (fun i1 _ h2 => hmin i1 h2)
  rw [slotPos_zero] at this
  rw [hcap, show ((pool_header_size : Nat) : Int) = ((8 : Nat) : Int) from rfl, this]

/-- On an arena without a free slot `AllocateBlock` returns null and changes
nothing. -/
theorem AllocateBlock_none (E : Env) (c : Nat) (o : HeapPool) (b : Buffer) (hc : c < 65536)
    (hfit : Fits E c) (hpool : o.pool = some b) (hcap : o.capacity = c)
    (hlen : b.len = slotPos E c) (hfull : ∀ i, i < c → b.bytes (slotPos E i) ≠ 0) :
    AllocateBlock E o =
      .ok ({ pool := some b, next := o.next, free := o.free, capacity := o.capacity }, none) := by
  unfold AllocateBlock
  rw [hpool]
  simp only [bind, Except.bind]
  have := allocLoop_none E c hc hfit b hlen (c + 1) 0 (Nat.zero_le _) (by omega)
    (fun i1 _ h2 => hfull i1 h2)
  rw [slotPos_zero] at this
  rw [hcap, show ((pool_header_size : Nat) : Int) = ((8 : Nat) : Int) from rfl, this]

/-! ## The free store -/

@[simp] theorem set_objs_same (h : Heap) (a : Nat) (o : HeapPool) : (h.set a o).objs a = some o := by
  simp [Heap.set]

theorem set_objs_other (h : Heap) (a x : Nat) (o : HeapPool) (hx : x ≠ a) :
    (h.set a o).objs x = h.objs x := by
  simp [Heap.set, hx]

@[simp] theorem set_count (h : Heap) (a : Nat) (o : HeapPool) : (h.set a o).count = h.count := rfl

theorem set_self (h : Heap) (a : Nat) (o : HeapPool) (ho : h.objs a = some o) : h.set a o = h := by
  cases h with
  | mk objs count =>
    simp only [Heap.set, Heap.mk.injEq, and_true]
    funext x
    by_cases hx : x = a
    · subst hx; simp [ho.symm]
    · simp [hx]

theorem set_set (h : Heap) (a : Nat) (o1 o2 : HeapPool) : (h.set a o1).set a o2 = h.set a o2 := by
  simp only [Heap.set, Heap.mk.injEq, and_true]
  funext x
  by_cases hx : x = a <;> simp [hx]

theorem addr_ne (E : Env) (n : Nat) (h : AddrOK E n) {i j : Nat} (hi : i < n) (hj : j < n)
    (hij : i ≠ j) : E.addr i ≠ E.addr j :=
  fun he => hij (h.2 i hi j hj he)

theorem addrOK_mono (E : Env) {m n : Nat} (hmn : m ≤ n) (h : AddrOK E n) : AddrOK E m :=
  ⟨fun i hi => h.1 i (by omega), fun i hi j hj => h.2 i (by omega) j (by omega)⟩

/-- Replacing the `k`-th arena by a well-formed arena with the same `next` link
keeps the chain well formed. -/
theorem chain_set (E : Env) (c : Nat) (h : Heap) (hch : ChainOK E c h) (hadr : AddrOK E h.count)
    (k : Nat) (hk : k < h.count) (o o1 : HeapPool) (b1 : Buffer)
    (ho : h.objs (E.addr k) = some o) (hok : ArenaOK E c (E.addr k) o1 b1)
    (hnext : o1.next = o.next) : ChainOK E c (h.set (E.addr k) o1) := by
  refine ⟨hch.pos, ?_⟩
  intro k1 hk1
  simp only [set_count] at hk1 ⊢
  by_cases he : k1 = k
  · subst he
    obtain ⟨o2, b2, h1, _, h3⟩ := hch.arenas k1 hk1
    rw [ho] at h1
    cases h1
    exact ⟨o1, b1, set_objs_same _ _ _, hok, hnext.trans h3⟩
  · obtain ⟨o2, b2, h1, h2, h3⟩ := hch.arenas k1 hk1
    refine ⟨o2, b2, ?_, h2, h3⟩
    rw [set_objs_other _ _ _ _ (addr_ne E _ hadr hk1 hk he)]
    exact h1

/-- The expression `new ThisType(c)` succeeds when the buffer size does not
overflow `size_t`; it adds one well-formed arena, all of whose slots are free,
and leaves the other objects alone. -/
theorem new_spec (E : Env) (c : Nat) (h : Heap) (hc0 : 0 < c) (hc : c < 65536)
    (hfit : FitsSize E c) (ha : E.addr h.count < 2 ^ E.ptrBits) :
    ∃ hN o1 b, HeapPool.new E h c = .ok (hN, E.addr h.count) ∧ hN.count = h.count + 1 ∧
      hN.objs (E.addr h.count) = some o1 ∧ (∀ x, x ≠ E.addr h.count → hN.objs x = h.objs x) ∧
      ArenaOK E c (E.addr h.count) o1 b ∧ o1.next = none ∧ o1.free = c ∧
      (∀ i, i < c → b.bytes (slotPos E i) = 0 ∧ b.bytes (slotPos E i + 1) = 0) ∧
      (∀ i, i < c → ∀ t, t < E.objSize →
        b.bytes (slotPos E i + 4 + t) = E.junk h.count (slotPos E i + 4 + t) % 256) := by
  obtain ⟨o1, b, h1, h2, h3, h4, h5, h6⟩ := init_spec E c h.count (E.addr h.count)
    { pool := none, next := none, free := 0, capacity := c } hc hfit ha rfl rfl
  refine ⟨(HeapPool.alloc E h c).1.set (E.addr h.count) o1, o1, b, ?_, ?_, ?_, ?_, h2, h3, h4,
    h5, h6⟩
  · unfold HeapPool.new HeapPool.ctor HeapPool.alloc
    simp only [if_true, ↓reduceIte, gt_iff_lt, hc0, Nat.add_sub_cancel, bind, Except.bind, h1]
  · rfl
  · simp
  · intro x hx
    simp [Heap.set, HeapPool.alloc, hx]

/-! ## The walk of `Allocate` -/

theorem counter_restore (x : Nat) (hx : x = 0) : ((x + 65535) % 65536 + 1) % 65536 = x := by
  subst hx; rfl

/-- One iteration of the walk on an arena whose counter is positive: the
counter is decremented and the loop is left. -/
theorem walk_break (E : Env) (this fuel : Nat) (h : Heap) (a : Nat) (o : HeapPool)
    (ho : h.objs a = some o) (hfree : 0 < o.free) :
    allocateWalk E this (fuel + 1) h (some a) =
      .ok (h.set a { pool := o.pool, next := o.next, free := (o.free + 65535) % 65536,
                     capacity := o.capacity }, some a) := by
  unfold allocateWalk
  simp only [ho]
  rw [if_pos hfree]

/-- One iteration of the walk on an exhausted arena that has a successor: the
free store is unchanged and the walk moves on. -/
theorem walk_pass (E : Env) (this fuel : Nat) (h : Heap) (a n : Nat) (o : HeapPool)
    (ho : h.objs a = some o) (hfree : o.free = 0) (hn : o.next = some n) :
    allocateWalk E this (fuel + 1) h (some a) = allocateWalk E this fuel h (some n) := by
  have hself : ∀ o1 : HeapPool, (h.set a o1).set a
      { pool := o.pool, next := o.next, free := ((o.free + 65535) % 65536 + 1) % 65536, capacity := o.capacity } = h := by
    intro o1
    rw [set_set, counter_restore _ hfree]
    exact set_self h a _ ho
  conv_lhs => unfold allocateWalk
  simp only [ho]
  rw [if_neg (by omega), hself]
  simp only [hn]

/-- One iteration of the walk on an exhausted arena without a successor: a new
arena with the capacity of the head arena is constructed and linked, and the
walk moves on to it. -/
theorem walk_grow (E : Env) (this fuel : Nat) (h hN : Heap) (a n : Nat) (o head : HeapPool)
    (ho : h.objs a = some o) (hfree : o.free = 0) (hn : o.next = none)
    (hhead : h.objs this = some head) (hnew : HeapPool.new E h head.capacity = .ok (hN, n))
    (hkeep : hN.objs a = some o) :
    allocateWalk E this (fuel + 1) h (some a) =
      allocateWalk E this fuel
        (hN.set a { pool := o.pool, next := some n, free := o.free, capacity := o.capacity })
        (some n) := by
  have hself : ∀ o1 : HeapPool, (h.set a o1).set a
      { pool := o.pool, next := o.next, free := ((o.free + 65535) % 65536 + 1) % 65536, capacity := o.capacity } = h := by
    intro o1
    rw [set_set, counter_restore _ hfree]
    exact set_self h a _ ho
  conv_lhs => unfold allocateWalk
  simp only [ho]
  rw [if_neg (by omega), hself]
  simp only [hn, hhead, hnew, hkeep]

/-- The walk passes over a run of exhausted arenas without changing anything. -/
theorem walk_skip (E : Env) (c : Nat) (this : Nat) (h : Heap) (hch : ChainOK E c h) (fuel : Nat) :
    ∀ (d k : Nat), k + d < h.count →
    (∀ k1, k ≤ k1 → k1 < k + d → ∀ o1, h.objs (E.addr k1) = some o1 → o1.free = 0) →
    allocateWalk E this (fuel + d) h (some (E.addr k)) =
      allocateWalk E this fuel h (some (E.addr (k + d))) := by
  intro d
  induction d with
  | zero => intro k _ _; rfl
  | succ d ih =>
    intro k hk hz
    obtain ⟨o, b, ho, _, hnext⟩ := hch.arenas k (by omega)
    rw [if_pos (by omega)] at hnext
    rw [show fuel + (d + 1) = (fuel + d) + 1 by omega,
      walk_pass E this (fuel + d) h (E.addr k) (E.addr (k + 1)) o ho
        (hz k (Nat.le_refl k) (by omega) o ho) hnext,
      ih (k + 1) (by omega) (fun k1 h1 h2 => hz k1 (by omega) (by omega)),
      show k + 1 + d = k + (d + 1) by omega]

/-! ## The function `Allocate` -/

theorem byte_eq (h : Heap) (a : Nat) (o : HeapPool) (b : Buffer) (ho : h.objs a = some o)
    (hb : o.pool = some b) (j : Nat) : h.byte a j = b.bytes j := by
  simp [Heap.byte, ho, hb]

theorem byte_set_other (h : Heap) (a x : Nat) (o : HeapPool) (hx : x ≠ a) (j : Nat) :
    (h.set a o).byte x j = h.byte x j := by
  simp [Heap.byte, set_objs_other h a x o hx]

theorem freeOf_eq (h : Heap) (a : Nat) (o : HeapPool) (ho : h.objs a = some o) :
    h.freeOf a = o.free := by
  simp [Heap.freeOf, ho]

theorem freeOf_set_other (h : Heap) (a x : Nat) (o : HeapPool) (hx : x ≠ a) :
    (h.set a o).freeOf x = h.freeOf x := by
  simp [Heap.freeOf, set_objs_other h a x o hx]

/-- In a well-formed chain an arena whose counter is `0` has no free slot. -/
theorem chain_full (E : Env) (c : Nat) (h : Heap) (hch : ChainOK E c h) (k : Nat)
    (hk : k < h.count) (hz : h.freeOf (E.addr k) = 0) :
    ∀ i, i < c → h.byte (E.addr k) (slotPos E i) ≠ 0 := by
  obtain ⟨o, b, ho, hok, _⟩ := hch.arenas k hk
  rw [freeOf_eq h _ o ho, hok.free_eq] at hz
  intro i hi
  rw [byte_eq h _ o b ho hok.pool_eq]
  exact freeSlots_eq_zero E b.bytes c hz i hi

/-- When some arena has a positive counter, `Allocate` takes the lowest free
slot of the first such arena and the chain does not grow. -/
theorem Allocate_reuse (E : Env) (c : Nat) (h : Heap) (hch : ChainOK E c h) (hc : c < 65536)
    (hfit : Fits E c) (hadr : AddrOK E h.count) (k0 : Nat) (hk0 : k0 < h.count)
    (hpos : 0 < h.freeOf (E.addr k0)) (hz : ∀ k, k < k0 → h.freeOf (E.addr k) = 0) :
    ∃ i0 H, Allocate E h (E.addr 0) = .ok (H, some (handle E k0 i0)) ∧ ChainOK E c H ∧
      AllocPost E c h H k0 i0 := by
  obtain ⟨o, b, ho, hok, hnext⟩ := hch.arenas k0 hk0
  rw [freeOf_eq h _ o ho] at hpos
  have hfs : 0 < freeSlots E b.bytes c := by rw [← hok.free_eq]; exact hpos
  obtain ⟨i0, hi0, hfree, hmin⟩ := least_free E b.bytes c (freeSlots_pos E b.bytes c hfs)
  have hw : allocateWalk E (E.addr 0) (h.count + 2) h (some (E.addr 0)) =
      .ok (h.set (E.addr k0) { pool := o.pool, next := o.next, free := (o.free + 65535) % 65536, capacity := o.capacity }, some (E.addr k0)) := by
    rw [show h.count + 2 = (h.count + 1 - k0 + 1) + k0 by omega,
      walk_skip E c (E.addr 0) h hch (h.count + 1 - k0 + 1) k0 0 (by omega)
        (fun k1 _ h2 o1 ho1 => by
          have := hz k1 (by omega)
          rwa [freeOf_eq h _ o1 ho1] at this),
      Nat.zero_add]
    exact walk_break E (E.addr 0) _ h (E.addr k0) o ho hpos
  have hab := AllocateBlock_found E c
    { pool := o.pool, next := o.next, free := (o.free + 65535) % 65536, capacity := o.capacity }
    b hc hfit hok.pool_eq hok.cap_eq hok.len_eq i0 hi0 hfree hmin
  have htake := arena_take E c (E.addr k0) o b hc hok i0 hi0 hfree
  refine ⟨i0, h.set (E.addr k0) { pool := some (b.set (slotPos E i0) 1), next := o.next, free := (o.free + 65535) % 65536, capacity := o.capacity }, ?_, ?_, ?_⟩
  · unfold Allocate
    simp only [bind, Except.bind, hw, set_objs_same, hab, set_set, Option.map, handle,
      block_header_size]
  · exact chain_set E c h hch hadr k0 hk0 o _ _ ho htake rfl
  · refine ⟨hi0, by omega, by simpa using hk0, ?_, ?_, ?_, ?_, ?_, ?_, ?_, hz, ?_, ?_⟩
    · intro k hk j hne
      by_cases hkk : k = k0
      · subst hkk
        rw [byte_eq _ _ _ _ (set_objs_same _ _ _) rfl, byte_eq h _ o b ho hok.pool_eq, set_bytes,
          if_neg (by rcases hne with h1 | h1; exact absurd rfl h1; exact h1)]
      · exact byte_set_other h _ _ _ (addr_ne E _ hadr hk hk0 hkk) j
    · rw [byte_eq _ _ _ _ (set_objs_same _ _ _) rfl, set_bytes, if_pos rfl]
    · intro _
      exact ⟨by rw [byte_eq h _ o b ho hok.pool_eq]; exact hfree, rfl⟩
    · intro he; omega
    · intro k hk i hi
      exact chain_full E c h hch k (by omega) (hz k hk) i hi
    · intro _ i hi
      rw [byte_eq h _ o b ho hok.pool_eq]; exact hmin i hi
    · intro k hk
      by_cases hkk : k = k0
      · subst hkk
        rw [if_pos rfl, freeOf_eq _ _ _ (set_objs_same _ _ _), freeOf_eq h _ o ho]
      · rw [if_neg hkk]
        exact freeOf_set_other h _ _ _ (addr_ne E _ hadr hk hk0 hkk)
    · intro _
      rw [freeOf_eq h _ o ho]; exact hpos
    · intro he; omega

/-- When every arena is exhausted, `Allocate` links one new arena of the same
capacity behind the last one and takes its slot `0`. -/
theorem Allocate_grow (E : Env) (c : Nat) (h : Heap) (hch : ChainOK E c h) (hc0 : 0 < c)
    (hc : c < 65536) (hfit : Fits E c) (hadr : AddrOK E (h.count + 1))
    (hz : ∀ k, k < h.count → h.freeOf (E.addr k) = 0) :
    ∃ H, Allocate E h (E.addr 0) = .ok (H, some (handle E h.count 0)) ∧ ChainOK E c H ∧
      AllocPost E c h H h.count 0 := by
  have hL := hch.pos
  have hadr0 := addrOK_mono E (Nat.le_succ h.count) hadr
  obtain ⟨o, b, ho, hok, hnext⟩ := hch.arenas (h.count - 1) (by omega)
  rw [if_neg (by omega)] at hnext
  obtain ⟨head, bh, hhead, hokh, _⟩ := hch.arenas 0 hL
  obtain ⟨hN, o1, bN, hnew, hNc, hNo, hNf, hokN, hN1, hN2, hN3, _⟩ :=
    new_spec E c h hc0 hc (fits_size E c hfit) (hadr.1 h.count (by omega))
  have hne : E.addr (h.count - 1) ≠ E.addr h.count :=
    addr_ne E _ hadr (by omega) (by omega) (by omega)
  have hofree : o.free = 0 := by
    have := hz (h.count - 1) (by omega)
    rwa [freeOf_eq h _ o ho] at this
  have hw : allocateWalk E (E.addr 0) (h.count + 2) h (some (E.addr 0)) =
      .ok ((hN.set (E.addr (h.count - 1)) { pool := o.pool, next := some (E.addr h.count), free := o.free, capacity := o.capacity }).set (E.addr h.count) { pool := o1.pool, next := o1.next, free := (o1.free + 65535) % 65536, capacity := o1.capacity }, some (E.addr h.count)) := by
    rw [show h.count + 2 = (1 + 1 + 1) + (h.count - 1) by omega,
      walk_skip E c (E.addr 0) h hch (1 + 1 + 1) (h.count - 1) 0 (by omega)
        (fun k1 _ h2 o2 ho2 => by
          have := hz k1 (by omega)
          rwa [freeOf_eq h _ o2 ho2] at this),
      Nat.zero_add,
      walk_grow E (E.addr 0) (1 + 1) h hN (E.addr (h.count - 1)) (E.addr h.count) o head ho hofree
        hnext hhead (by rw [hokh.cap_eq]; exact hnew) (by rw [hNf _ hne]; exact ho)]
    exact walk_break E (E.addr 0) 1 _ (E.addr h.count) o1
      (by rw [set_objs_other _ _ _ _ hne.symm]; exact hNo) (by omega)
  have hflag0 := (hN3 0 hc0).1
  have hab := AllocateBlock_found E c
    { pool := o1.pool, next := o1.next, free := (o1.free + 65535) % 65536, capacity := o1.capacity }
    bN hc hfit hokN.pool_eq hokN.cap_eq hokN.len_eq 0 hc0 hflag0 (fun i hi => by omega)
  have htake := arena_take E c (E.addr h.count) o1 bN hc hokN 0 hc0 hflag0
  refine ⟨(hN.set (E.addr (h.count - 1)) { pool := o.pool, next := some (E.addr h.count), free := o.free, capacity := o.capacity }).set (E.addr h.count) { pool := some (bN.set (slotPos E 0) 1), next := o1.next, free := (o1.free + 65535) % 65536, capacity := o1.capacity }, ?_, ?_, ?_⟩
  · unfold Allocate
    simp only [bind, Except.bind, hw, set_objs_same, hab, set_set, Option.map, handle,
      block_header_size]
  · refine ⟨by simp [hNc], ?_⟩
    intro k hk
    simp only [set_count, hNc] at hk ⊢
    by_cases hkL : k = h.count
    · subst hkL
      exact ⟨_, _, set_objs_same _ _ _, htake, by rw [if_neg (by omega)]; exact hN1⟩
    · have hne1 : E.addr k ≠ E.addr h.count := addr_ne E _ hadr (by omega) (by omega) hkL
      rw [set_objs_other _ _ _ _ hne1]
      by_cases hkl : k = h.count - 1
      · subst hkl
        refine ⟨_, b, set_objs_same _ _ _, ⟨hok.pool_eq, hok.cap_eq, hok.len_eq, hok.hdr,
          hok.flag01, hok.idxHi, hok.idxLo, hok.free_eq⟩, ?_⟩
        rw [if_pos (by omega), show h.count - 1 + 1 = h.count by omega]
      · have hne2 : E.addr k ≠ E.addr (h.count - 1) :=
          addr_ne E _ hadr (by omega) (by omega) hkl
        rw [set_objs_other _ _ _ _ hne2, hNf _ hne1]
        obtain ⟨o2, b2, h1, h2, h3⟩ := hch.arenas k (by omega)
        refine ⟨o2, b2, h1, h2, ?_⟩
        rw [h3, if_pos (by omega), if_pos (by omega)]
  · have hold : ∀ k, k < h.count → ∀ j, Heap.byte ((hN.set (E.addr (h.count - 1)) { pool := o.pool, next := some (E.addr h.count), free := o.free, capacity := o.capacity }).set (E.addr h.count) { pool := some (bN.set (slotPos E 0) 1), next := o1.next, free := (o1.free + 65535) % 65536, capacity := o1.capacity }) (E.addr k) j = h.byte (E.addr k) j := by
      intro k hk j
      have hne1 : E.addr k ≠ E.addr h.count := addr_ne E _ hadr (by omega) (by omega) (by omega)
      rw [byte_set_other _ _ _ _ hne1]
      by_cases hkl : k = h.count - 1
      · subst hkl
        rw [byte_eq _ _ { pool := o.pool, next := some (E.addr h.count), free := o.free, capacity := o.capacity } b (set_objs_same _ _ _) hok.pool_eq,
          byte_eq h _ o b ho hok.pool_eq]
      · have hne2 : E.addr k ≠ E.addr (h.count - 1) :=
          addr_ne E _ hadr (by omega) (by omega) hkl
        rw [byte_set_other _ _ _ _ hne2]
        simp only [Heap.byte, hNf _ hne1]
    refine ⟨hc0, Nat.le_refl _, by simp [hNc], ?_, ?_, ?_, ?_, ?_, ?_, ?_, hz, ?_, ?_⟩
    · intro k hk j _
      exact hold k hk j
    · rw [byte_eq _ _ _ _ (set_objs_same _ _ _) rfl, set_bytes, if_pos rfl]
    · intro hlt; omega
    · intro _
      refine ⟨by simp [hNc], rfl, ?_, ?_⟩
      · intro i hi hi0
        rw [byte_eq _ _ _ _ (set_objs_same _ _ _) rfl, set_bytes,
          if_neg (fun he => hi0 (slotPos_inj E he))]
        exact (hN3 i hi).1
      · exact hz _ (by omega)
    · intro k hk i hi
      exact chain_full E c h hch k hk (hz k hk) i hi
    · intro hlt; omega
    · intro k hk
      have hne1 : E.addr k ≠ E.addr h.count := addr_ne E _ hadr (by omega) (by omega) (by omega)
      rw [if_neg (by omega), freeOf_set_other _ _ _ _ hne1]
      by_cases hkl : k = h.count - 1
      · subst hkl
        rw [freeOf_eq _ _ { pool := o.pool, next := some (E.addr h.count), free := o.free, capacity := o.capacity } (set_objs_same _ _ _),
          freeOf_eq h _ o ho]
      · have hne2 : E.addr k ≠ E.addr (h.count - 1) :=
          addr_ne E _ hadr (by omega) (by omega) hkl
        rw [freeOf_set_other _ _ _ _ hne2]
        simp only [Heap.freeOf, hNf _ hne1]
    · intro hlt; omega
    · intro _
      rw [freeOf_eq _ _ _ (set_objs_same _ _ _)]
      show (o1.free + 65535) % 65536 + 1 = c
      rw [hN2]; omega

/-- The combined behaviour of `Allocate` on a well-formed chain: it always returns
the handle of a slot, and `AllocPost` describes which one. -/
theorem Allocate_spec (E : Env) (c : Nat) (h : Heap) (hch : ChainOK E c h) (hc0 : 0 < c)
    (hc : c < 65536) (hfit : Fits E c) (hadr : AddrOK E (h.count + 1)) :
    ∃ k0 i0 H, Allocate E h (E.addr 0) = .ok (H, some (handle E k0 i0)) ∧ ChainOK E c H ∧
      AllocPost E c h H k0 i0 := by
  classical
  by_cases hex : ∃ k, k < h.count ∧ 0 < h.freeOf (E.addr k)
  · obtain ⟨i0, H, h1, h2, h3⟩ := Allocate_reuse E c h hch hc hfit
      (addrOK_mono E (Nat.le_succ _) hadr) (Nat.find hex) (Nat.find_spec hex).1
      (Nat.find_spec hex).2 (fun k hk => by
        by_contra hne
        exact Nat.find_min hex hk ⟨by have := (Nat.find_spec hex).1; omega, by omega⟩)
    exact ⟨_, i0, H, h1, h2, h3⟩
  · obtain ⟨H, h1, h2, h3⟩ := Allocate_grow E c h hch hc0 hc hfit hadr (fun k hk => by
      by_contra hne
      exact hex ⟨k, hk, by omega⟩)
    exact ⟨_, 0, H, h1, h2, h3⟩

/-! ## The function `Free` -/

theorem index_join (i : Nat) (h : i < 65536) : (((i / 256) <<< 8) ||| (i % 256)) % 65536 = i := by
  rw [Nat.shiftLeft_eq, Nat.mul_comm, ← Nat.mul_add_lt_is_or (by omega)]
  omega

theorem load_eq (h : Heap) (a off : Nat) (d : Int) (n : Nat) (o : HeapPool) (b : Buffer)
    (ho : h.objs a = some o) (hb : o.pool = some b) (hn : (off : Int) + d = (n : Int))
    (hlt : n < b.len) : h.load { base := a, off := off } d = .ok (b.bytes n) := by
  unfold Heap.load
  simp only [ho, hb, hn]
  exact read_nat b n hlt

theorem decode_step (h : Heap) (a n i u : Nat) (o : HeapPool) (b : Buffer)
    (ho : h.objs a = some o) (hb : o.pool = some b) (hlt : i < b.len) :
    decodeLoop h { base := a, off := 0 } (n + 1) i u =
      decodeLoop h { base := a, off := 0 } n (i + 1) (((u <<< 8) % 2 ^ 64 + b.bytes i) % 2 ^ 64) := by
  conv_lhs => unfold decodeLoop
  simp only [bind, Except.bind]
  rw [load_eq h a 0 i i o b ho hb (by simp) hlt]

theorem decode_acc (a j u : Nat) (ha : a < 2 ^ 64) (hj : j < 8) (hu : u = a / 2 ^ (8 * (8 - j))) :
    ((u <<< 8) % 2 ^ 64 + beByte a j) % 2 ^ 64 = a / 2 ^ (8 * (8 - (j + 1))) := by
  subst hu
  interval_cases j <;>
    simp only [Nat.shiftLeft_eq, beByte, Nat.reduceSub, Nat.reduceMul, Nat.reducePow,
      Nat.reduceAdd] <;> omega

/-- The header of a well-formed arena decodes to the address of the arena. -/
theorem decode_header (E : Env) (c a : Nat) (h : Heap) (o : HeapPool) (b : Buffer)
    (ho : h.objs a = some o) (hok : ArenaOK E c a o b) (ha : a < 2 ^ 64) :
    decodeLoop h { base := a, off := 0 } 8 0 0 = .ok a := by
  have hlen : 8 ≤ b.len := by rw [hok.len_eq]; exact slotPos_ge E c
  have key : ∀ n i u, i + n = 8 → u = a / 2 ^ (8 * (8 - i)) →
      decodeLoop h { base := a, off := 0 } n i u = .ok a := by
    intro n
    induction n with
    | zero =>
      intro i u hi hu
      have : i = 8 := by omega
      subst this
      unfold decodeLoop
      rw [hu]; simp
    | succ n ih =>
      intro i u hi hu
      rw [decode_step h a n i u o b ho hok.pool_eq (by omega), hok.hdr i (by omega)]
      exact ih (i + 1) _ (by omega) (decode_acc a i u ha (by omega) hu)
  exact key 8 0 0 rfl (by
    have : a / 2 ^ (8 * (8 - 0)) = 0 := Nat.div_eq_of_lt (by simpa using ha)
    exact this.symm)

theorem ptrBits_le (E : Env) (a : Nat) (ha : a < 2 ^ E.ptrBits) : a < 2 ^ 64 := by
  unfold Env.ptrBits at ha
  split at ha
  · exact ha
  · exact lt_trans ha (by norm_num)

/-- For the handle of a slot of a well-formed arena, `GetBlockIndex` reads the
index of the slot. -/
theorem GetBlockIndex_spec (E : Env) (c : Nat) (h : Heap) (k i : Nat) (o : HeapPool) (b : Buffer)
    (hc : c < 65536) (ho : h.objs (E.addr k) = some o) (hok : ArenaOK E c (E.addr k) o b)
    (hi : i < c) : GetBlockIndex h (handle E k i) = .ok i := by
  have h1 := slotPos_lt E hi
  have hlen := hok.len_eq
  unfold GetBlockIndex handle
  simp only [bind, Except.bind]
  rw [load_eq h (E.addr k) _ _ (slotPos E i + 2) o b ho hok.pool_eq
    (by simp only [block_header_size]; omega) (by omega)]
  simp only []
  rw [load_eq h (E.addr k) _ _ (slotPos E i + 3) o b ho hok.pool_eq
    (by simp only [block_header_size]; omega) (by omega)]
  simp only []
  rw [hok.idxHi i hi, hok.idxLo i hi, index_join i (by omega)]

/-- For the handle of a slot of a well-formed arena, `GetBlockPool` computes the
start of the arena buffer and decodes the address of the arena from it. -/
theorem GetBlockPool_spec (E : Env) (c : Nat) (h : Heap) (k i : Nat) (o : HeapPool) (b : Buffer)
    (hc : c < 65536) (hfit : FitsSize E c) (ha : E.addr k < 2 ^ E.ptrBits)
    (ho : h.objs (E.addr k) = some o) (hok : ArenaOK E c (E.addr k) o b) (hi : i < c) :
    GetBlockPool E h (handle E k i) = .ok (E.addr k) ∧
    (handle E k i).off - E.sizeT (i * E.sizeT (E.objSize + block_header_size))
      - block_header_size - pool_header_size = 0 := by
  have h1 := slotPos_lt E hi
  have hfit1 : slotPos E c < E.sizeMod := hfit
  have hpos : slotPos E i = 8 + i * (E.objSize + 4) := rfl
  have e1 : E.sizeT (E.objSize + block_header_size) = E.objSize + 4 :=
    sizeT_of_lt E _ (by simp only [block_header_size]; have := slotPos_ge E i; omega)
  have e2 : E.sizeT (i * (E.objSize + 4)) = i * (E.objSize + 4) := sizeT_of_lt E _ (by omega)
  have hoff : (handle E k i).off = slotPos E i + 4 := rfl
  constructor
  · unfold GetBlockPool
    simp only [bind, Except.bind]
    rw [GetBlockIndex_spec E c h k i o b hc ho hok hi]
    simp only []
    rw [e1, e2, if_pos (by rw [hoff]; simp only [block_header_size, pool_header_size]; omega)]
    have hz : (handle E k i).off - i * (E.objSize + 4) - block_header_size - pool_header_size = 0 := by
      rw [hoff]; simp only [block_header_size, pool_header_size]; omega
    rw [hz, show (handle E k i).base = E.addr k from rfl,
      decode_header E c (E.addr k) h o b ho hok (ptrBits_le E _ ha)]
    simp only []
    cases h64 : E.is_64bit
    · have : E.addr k < 2 ^ 32 := by simpa [Env.ptrBits, h64] using ha
      simp only [Bool.false_eq_true, ↓reduceIte, Nat.mod_eq_of_lt this]
    · simp
  · rw [e1, e2, hoff]; simp only [block_header_size, pool_header_size]; omega

/-- For the handle of a slot of a well-formed arena, `Free` clears the flag of the
slot and increments the counter of the arena the slot belongs to. -/
theorem Free_spec (E : Env) (c : Nat) (h : Heap) (k i : Nat) (o : HeapPool) (b : Buffer)
    (hc : c < 65536) (hfit : FitsSize E c) (ha : E.addr k < 2 ^ E.ptrBits)
    (ho : h.objs (E.addr k) = some o) (hok : ArenaOK E c (E.addr k) o b) (hi : i < c) :
    Free E h (handle E k i) =
      .ok (h.set (E.addr k) { pool := some (b.set (slotPos E i) 0), next := o.next, free := (o.free + 1) % 65536, capacity := o.capacity }) := by
  have h1 := slotPos_lt E hi
  have hlen := hok.len_eq
  unfold Free
  simp only [bind, Except.bind]
  rw [(GetBlockPool_spec E c h k i o b hc hfit ha ho hok hi).1]
  simp only []
  unfold FreeBlock Heap.store
  simp only [bind, Except.bind, handle, ho, hok.pool_eq]
  rw [show ((slotPos E i + block_header_size : Nat) : Int) + (0 - (block_header_size : Int)) =
    ((slotPos E i : Nat) : Int) by simp only [block_header_size]; omega,
    write_nat b _ _ (by omega)]
  simp only [set_objs_same, set_set]

/-! ## The invariant along histories -/

theorem handle_inj (E : Env) (n : Nat) (hadr : AddrOK E n) {k i k1 i1 : Nat} (hk : k < n)
    (hk1 : k1 < n) (h : handle E k i = handle E k1 i1) : k = k1 ∧ i = i1 := by
  simp only [handle, Ptr.mk.injEq] at h
  exact ⟨hadr.2 k hk k1 hk1 h.1, slotPos_inj E (by omega)⟩

theorem allocPost_count (E : Env) (c : Nat) (h H : Heap) (k0 i0 : Nat)
    (hp : AllocPost E c h H k0 i0) : h.count ≤ H.count ∧ H.count ≤ h.count + 1 := by
  rcases Nat.lt_or_ge k0 h.count with h1 | h1
  · have := (hp.reuse h1).2; omega
  · have := (hp.grow (by have := hp.arena_le; omega)).1; omega

/-- A freshly constructed pool satisfies the invariant: one arena, no live handle. -/
theorem boot_inv (E : Env) (c : Nat) (hc0 : 0 < c) (hc : c < 65536) (hfit : FitsSize E c)
    (hadr : AddrOK E 1) :
    ∃ S, boot E c = .ok S ∧ Inv E c S ∧ S.mp.heap.count = 1 ∧ S.live = [] ∧
      (∀ i, i < c → S.mp.heap.byte (E.addr 0) (slotPos E i) = 0) := by
  obtain ⟨hN, o1, bN, hnew, hNc, hNo, hNf, hokN, hN1, hN2, hN3, _⟩ :=
    new_spec E c Heap.empty hc0 hc hfit (hadr.1 0 (by omega))
  have he : Heap.empty.count = 0 := rfl
  simp only [he] at hnew hNc hNo hNf hokN
  have hcnt : hN.count = 1 := hNc
  have hflag : ∀ i, i < c → hN.byte (E.addr 0) (slotPos E i) = 0 := fun i hi => by
    rw [byte_eq hN _ o1 bN hNo hokN.pool_eq]; exact (hN3 i hi).1
  refine ⟨{ mp := { heap := hN, pool_allocator_ := E.addr 0 }, live := [] }, ?_, ?_, hcnt, rfl,
    hflag⟩
  · unfold boot MemoryPool.ctor
    simp only [bind, Except.bind, hnew]
  · refine ⟨rfl, ⟨by show 0 < hN.count; omega, ?_⟩, ?_, List.nodup_nil⟩
    · intro k hk
      have hk0 : k = 0 := by have : k < hN.count := hk; omega
      subst hk0
      refine ⟨o1, bN, hNo, hokN, ?_⟩
      rw [hN1, if_neg (by show ¬ (0 + 1 < hN.count); omega)]
    · intro p
      constructor
      · intro hp; cases hp
      · rintro ⟨k, i, hk, hi, _, hb⟩
        have hk0 : k = 0 := by have : k < hN.count := hk; omega
        subst hk0
        have := hflag i hi
        have hb1 : hN.byte (E.addr 0) (slotPos E i) = 1 := hb
        omega

/-- A `create` on a state satisfying the invariant succeeds, returns the handle
that `AllocPost` describes, and re-establishes the invariant. -/
theorem step_create (E : Env) (c : Nat) (S : Sys) (hinv : Inv E c S) (hc0 : 0 < c)
    (hc : c < 65536) (hfit : Fits E c) (hadr : AddrOK E (S.mp.heap.count + 1)) :
    ∃ S1 k0 i0, step E S .create = .ok S1 ∧ Inv E c S1 ∧ S1.live = handle E k0 i0 :: S.live ∧
      AllocPost E c S.mp.heap S1.mp.heap k0 i0 := by
  obtain ⟨k0, i0, H, hal, hch, hp⟩ := Allocate_spec E c S.mp.heap hinv.chain hc0 hc hfit hadr
  have hcnt := allocPost_count E c _ _ _ _ hp
  refine ⟨{ mp := { heap := H, pool_allocator_ := S.mp.pool_allocator_ }, live := handle E k0 i0 :: S.live }, k0, i0, ?_, ?_, rfl, hp⟩
  · unfold step MemoryPool.Create
    simp only [bind, Except.bind, hinv.head, hal]
  · refine ⟨hinv.head, hch, ?_, ?_⟩
    · intro p
      show p ∈ handle E k0 i0 :: S.live ↔ ∃ k i, k < H.count ∧ i < c ∧ p = handle E k i ∧
        H.byte (E.addr k) (slotPos E i) = 1
      rw [List.mem_cons, hinv.live_iff]
      constructor
      · rintro (rfl | ⟨k, i, hk, hi, rfl, hb⟩)
        · exact ⟨k0, i0, hp.arena_lt, hp.slot_lt, rfl, hp.taken⟩
        · refine ⟨k, i, by omega, hi, rfl, ?_⟩
          rw [hp.frame k hk (slotPos E i) (by
            by_cases hkk : k = k0
            · subst hkk
              right
              intro he
              have := (hp.reuse hk).1
              rw [he] at hb
              omega
            · left; exact hkk)]
          exact hb
      · rintro ⟨k, i, hk, hi, rfl, hb⟩
        by_cases hsame : k = k0 ∧ i = i0
        · left; rw [hsame.1, hsame.2]
        · right
          rcases Nat.lt_or_ge k S.mp.heap.count with hlt | hge
          · refine ⟨k, i, hlt, hi, rfl, ?_⟩
            rw [← hp.frame k hlt (slotPos E i) (by
              by_cases hkk : k = k0
              · right
                intro he
                exact hsame ⟨hkk, slotPos_inj E he⟩
              · left; exact hkk)]
            exact hb
          · exfalso
            have hk0 : k0 = S.mp.heap.count := by
              rcases Nat.lt_or_ge k0 S.mp.heap.count with h1 | h1
              · have := (hp.reuse h1).2; omega
              · have := hp.arena_le; omega
            obtain ⟨_, hi0, hzero, _⟩ := hp.grow hk0
            have hkk : k = k0 := by omega
            subst hkk
            have := hzero i hi (fun he => hsame ⟨rfl, by omega⟩)
            omega
    · show (handle E k0 i0 :: S.live).Nodup
      rw [List.nodup_cons]
      refine ⟨?_, hinv.nodup⟩
      intro hmem
      obtain ⟨k, i, hk, hi, he, hb⟩ := (hinv.live_iff _).1 hmem
      obtain ⟨h1, h2⟩ := handle_inj E _ hadr (show k0 < S.mp.heap.count + 1 by
        have := hp.arena_le; omega) (show k < S.mp.heap.count + 1 by omega) he
      subst h1; subst h2
      have := (hp.reuse hk).1
      omega

/-- Bytes of the free store after one byte of the buffer of arena `k` is replaced. -/
theorem byte_set_at (E : Env) (n : Nat) (hadr : AddrOK E n) (h : Heap) (k : Nat) (hk : k < n)
    (o o1 : HeapPool) (b : Buffer) (pos v : Nat) (ho : h.objs (E.addr k) = some o)
    (hb : o.pool = some b) (hb1 : o1.pool = some (b.set pos v)) (k1 : Nat) (hk1 : k1 < n) (j : Nat) :
    (h.set (E.addr k) o1).byte (E.addr k1) j =
      if k1 = k ∧ j = pos then v % 256 else h.byte (E.addr k1) j := by
  by_cases hkk : k1 = k
  · subst hkk
    rw [byte_eq _ _ o1 _ (set_objs_same _ _ _) hb1, byte_eq h _ o b ho hb, set_bytes]
    by_cases hj : j = pos
    · rw [if_pos hj, if_pos ⟨rfl, hj⟩]
    · rw [if_neg hj, if_neg (fun hh => hj hh.2)]
  · rw [byte_set_other h _ _ _ (addr_ne E n hadr hk1 hk hkk), if_neg (fun hh => hkk hh.1)]

/-- A `destroy` of a live handle on a state satisfying the invariant succeeds,
frees exactly the slot of the handle, and re-establishes the invariant. -/
theorem step_destroy (E : Env) (c : Nat) (S : Sys) (hinv : Inv E c S) (hc : c < 65536)
    (hfit : FitsSize E c) (hadr : AddrOK E S.mp.heap.count) (p : Ptr) (hp : p ∈ S.live) :
    ∃ S1 k i, step E S (.destroy p) = .ok S1 ∧ Inv E c S1 ∧ S1.live = S.live.erase p ∧
      S1.mp.heap.count = S.mp.heap.count ∧ k < S.mp.heap.count ∧ i < c ∧ p = handle E k i ∧
      (∀ k1, k1 < S.mp.heap.count → ∀ j, S1.mp.heap.byte (E.addr k1) j =
        if k1 = k ∧ j = slotPos E i then 0 else S.mp.heap.byte (E.addr k1) j) ∧
      (∀ k1, k1 < S.mp.heap.count → S1.mp.heap.freeOf (E.addr k1) =
        if k1 = k then (S.mp.heap.freeOf (E.addr k1) + 1) % 65536
        else S.mp.heap.freeOf (E.addr k1)) := by
  obtain ⟨k, i, hk, hi, rfl, hb⟩ := (hinv.live_iff p).1 hp
  obtain ⟨o, b, ho, hok, hnext⟩ := hinv.chain.arenas k hk
  have hfree := Free_spec E c S.mp.heap k i o b hc hfit (hadr.1 k hk) ho hok hi
  have hb1 : b.bytes (slotPos E i) = 1 := by
    rw [← byte_eq S.mp.heap _ o b ho hok.pool_eq]; exact hb
  have hrel := arena_release E c (E.addr k) o b hc hok i hi hb1
  have hbytes := byte_set_at E _ hadr S.mp.heap k hk o
    { pool := some (b.set (slotPos E i) 0), next := o.next, free := (o.free + 1) % 65536, capacity := o.capacity }
    b (slotPos E i) 0 ho hok.pool_eq rfl
  refine ⟨{ mp := { heap := S.mp.heap.set (E.addr k) { pool := some (b.set (slotPos E i) 0), next := o.next, free := (o.free + 1) % 65536, capacity := o.capacity }, pool_allocator_ := S.mp.pool_allocator_ }, live := S.live.erase (handle E k i) }, k, i, ?_, ?_, rfl, rfl, hk, hi, rfl, ?_, ?_⟩
  · unfold step MemoryPool.Destroy
    simp only [bind, Except.bind, hfree]
  · refine ⟨hinv.head, chain_set E c _ hinv.chain hadr k hk o _ _ ho hrel rfl, ?_,
      hinv.nodup.erase _⟩
    intro q
    show q ∈ S.live.erase (handle E k i) ↔ ∃ k1 i1, k1 < S.mp.heap.count ∧ i1 < c ∧
      q = handle E k1 i1 ∧ Heap.byte _ (E.addr k1) (slotPos E i1) = 1
    rw [hinv.nodup.mem_erase_iff, hinv.live_iff]
    constructor
    · rintro ⟨hne, k1, i1, hk1, hi1, rfl, hb2⟩
      refine ⟨k1, i1, hk1, hi1, rfl, ?_⟩
      rw [hbytes k1 hk1, if_neg (fun hh => hne (by rw [hh.1, slotPos_inj E hh.2]))]
      exact hb2
    · rintro ⟨k1, i1, hk1, hi1, rfl, hb2⟩
      rw [hbytes k1 hk1] at hb2
      by_cases hh : k1 = k ∧ slotPos E i1 = slotPos E i
      · rw [if_pos hh] at hb2; omega
      · rw [if_neg hh] at hb2
        refine ⟨fun he => hh ?_, k1, i1, hk1, hi1, rfl, hb2⟩
        obtain ⟨e1, e2⟩ := handle_inj E _ hadr hk1 hk he
        exact ⟨e1, by rw [e2]⟩
  · intro k1 hk1 j
    exact hbytes k1 hk1 j
  · intro k1 hk1
    by_cases hkk : k1 = k
    · subst hkk
      rw [if_pos rfl, freeOf_eq _ _ _ (set_objs_same _ _ _), freeOf_eq _ _ o ho]
    · rw [if_neg hkk]
      exact freeOf_set_other _ _ _ _ (addr_ne E _ hadr hk1 hk hkk)

/-- A store into the object of a live handle succeeds and re-establishes the
invariant; it changes no record byte and no counter. -/
theorem step_poke (E : Env) (c : Nat) (S : Sys) (hinv : Inv E c S)
    (hadr : AddrOK E S.mp.heap.count) (p : Ptr) (j v : Nat) (hp : p ∈ S.live)
    (hj : j < E.objSize) :
    ∃ S1, step E S (.poke p j v) = .ok S1 ∧ Inv E c S1 ∧ S1.live = S.live ∧
      S1.mp.heap.count = S.mp.heap.count ∧
      (∀ k1, k1 < S.mp.heap.count → ∀ i1 u, u < 4 →
        S1.mp.heap.byte (E.addr k1) (slotPos E i1 + u) =
          S.mp.heap.byte (E.addr k1) (slotPos E i1 + u)) := by
  obtain ⟨k, i, hk, hi, rfl, hb⟩ := (hinv.live_iff p).1 hp
  obtain ⟨o, b, ho, hok, hnext⟩ := hinv.chain.arenas k hk
  have h1 := slotPos_lt E hi
  have hpk := arena_poke E c (E.addr k) o b hok i j v hj
  have hbytes := byte_set_at E _ hadr S.mp.heap k hk o
    { pool := some (b.set (slotPos E i + 4 + j) v), next := o.next, free := o.free, capacity := o.capacity }
    b (slotPos E i + 4 + j) v ho hok.pool_eq rfl
  have hrec : ∀ k1, k1 < S.mp.heap.count → ∀ i1 u, u < 4 →
      Heap.byte (S.mp.heap.set (E.addr k) { pool := some (b.set (slotPos E i + 4 + j) v), next := o.next, free := o.free, capacity := o.capacity }) (E.addr k1) (slotPos E i1 + u) =
        S.mp.heap.byte (E.addr k1) (slotPos E i1 + u) := by
    intro k1 hk1 i1 u hu
    rw [hbytes k1 hk1, if_neg (fun hh => rec_ne_payload E i1 i u j hu hj hh.2)]
  refine ⟨{ mp := { heap := S.mp.heap.set (E.addr k) { pool := some (b.set (slotPos E i + 4 + j) v), next := o.next, free := o.free, capacity := o.capacity }, pool_allocator_ := S.mp.pool_allocator_ }, live := S.live }, ?_, ?_, rfl, rfl, hrec⟩
  · unfold step Heap.store
    simp only [bind, Except.bind, handle, ho, hok.pool_eq]
    rw [show ((slotPos E i + block_header_size : Nat) : Int) + (j : Int) =
      ((slotPos E i + 4 + j : Nat) : Int) by simp only [block_header_size]; omega,
      write_nat b _ _ (by rw [hok.len_eq]; omega)]
  · refine ⟨hinv.head, chain_set E c _ hinv.chain hadr k hk o _ _ ho hpk rfl, ?_, hinv.nodup⟩
    intro q
    show q ∈ S.live ↔ ∃ k1 i1, k1 < S.mp.heap.count ∧ i1 < c ∧
      q = handle E k1 i1 ∧ Heap.byte _ (E.addr k1) (slotPos E i1) = 1
    rw [hinv.live_iff]
    constructor
    · rintro ⟨k1, i1, hk1, hi1, rfl, hb2⟩
      refine ⟨k1, i1, hk1, hi1, rfl, ?_⟩
      have := hrec k1 hk1 i1 0 (by omega)
      simp only [Nat.add_zero] at this
      rw [this]; exact hb2
    · rintro ⟨k1, i1, hk1, hi1, rfl, hb2⟩
      refine ⟨k1, i1, hk1, hi1, rfl, ?_⟩
      have := hrec k1 hk1 i1 0 (by omega)
      simp only [Nat.add_zero] at this
      rw [← this]; exact hb2

/-- Every valid history can be run to its end from a state satisfying the
invariant, and the invariant holds again at the end. -/
theorem run_inv (E : Env) (c : Nat) (hc0 : 0 < c) (hc : c < 65536) (hfit : Fits E c) :
    ∀ (ops : List Op) (S : Sys), Inv E c S → AddrOK E (S.mp.heap.count + ops.length) →
    isMisuse (run E S ops) = false →
    ∃ S1, run E S ops = .ok S1 ∧ Inv E c S1 ∧ S.mp.heap.count ≤ S1.mp.heap.count ∧
      S1.mp.heap.count ≤ S.mp.heap.count + ops.length := by
  intro ops
  induction ops with
  | nil =>
    intro S hinv _ _
    exact ⟨S, rfl, hinv, Nat.le_refl _, Nat.le_refl _⟩
  | cons op ops ih =>
    intro S hinv hadr hv
    simp only [List.length_cons] at hadr ⊢
    unfold run at hv ⊢
    by_cases hal : op.allowed E S
    · rw [if_pos hal] at hv ⊢
      have hstep : ∃ S1, step E S op = .ok S1 ∧ Inv E c S1 ∧
          S.mp.heap.count ≤ S1.mp.heap.count ∧ S1.mp.heap.count ≤ S.mp.heap.count + 1 := by
        cases op with
        | create =>
          obtain ⟨S1, k0, i0, h1, h2, _, h4⟩ := step_create E c S hinv hc0 hc hfit
            (addrOK_mono E (by omega) hadr)
          have := allocPost_count E c _ _ _ _ h4
          exact ⟨S1, h1, h2, this.1, this.2⟩
        | destroy p =>
          obtain ⟨S1, k, i, h1, h2, _, h4, _⟩ := step_destroy E c S hinv hc (fits_size E c hfit)
            (addrOK_mono E (by omega) hadr) p hal
          exact ⟨S1, h1, h2, by omega, by omega⟩
        | poke p j v =>
          obtain ⟨S1, h1, h2, _, h4, _⟩ := step_poke E c S hinv
            (addrOK_mono E (by omega) hadr) p j v hal.1 hal.2
          exact ⟨S1, h1, h2, by omega, by omega⟩
      obtain ⟨S1, h1, h2, h3, h4⟩ := hstep
      rw [h1] at hv ⊢
      simp only [] at hv ⊢
      obtain ⟨S2, g1, g2, g3, g4⟩ := ih S1 h2 (addrOK_mono E (by omega) hadr) hv
      exact ⟨S2, g1, g2, by omega, by omega⟩
    · rw [if_neg hal] at hv
      simp [isMisuse] at hv

/-- Every valid history on a freshly constructed pool can be run to its end, and
the invariant holds in the state it reaches. -/
theorem exec_inv (E : Env) (c : Nat) (ops : List Op) (hc0 : 0 < c) (hc : c < 65536)
    (hfit : Fits E c) (hadr : AddrOK E (ops.length + 1)) (hv : Valid E c ops) :
    ∃ S, exec E c ops = .ok S ∧ Inv E c S ∧ 0 < S.mp.heap.count ∧
      S.mp.heap.count ≤ ops.length + 1 := by
  obtain ⟨S0, h1, h2, h3, _⟩ := boot_inv E c hc0 hc (fits_size E c hfit)
    (addrOK_mono E (by omega) hadr)
  unfold Valid exec at hv
  unfold exec
  rw [h1] at hv ⊢
  simp only [] at hv ⊢
  obtain ⟨S1, g1, g2, g3, g4⟩ := run_inv E c hc0 hc hfit ops S0 h2
    (by rw [h3]; exact addrOK_mono E (by omega) hadr) hv
  exact ⟨S1, g1, g2, by omega, by omega⟩

theorem chain_reach (E : Env) (c : Nat) (h : Heap) (hch : ChainOK E c h) :
    ∀ k, k < h.count → InChain h (E.addr 0) (E.addr k) := by
  intro k
  induction k with
  | zero => intro _; exact InChain.head
  | succ k ih =>
    intro hk
    obtain ⟨o, b, ho, _, hnext⟩ := hch.arenas k (by omega)
    rw [if_pos hk] at hnext
    exact InChain.next (E.addr k) (E.addr (k + 1)) o (ih (by omega)) ho hnext

/-! ## Live handles and slots -/

theorem inv_liveSlots (E : Env) (c : Nat) (S : Sys) (hinv : Inv E c S)
    (hadr : AddrOK E S.mp.heap.count) : LiveSlots E c S := by
  refine ⟨hinv.nodup, ?_⟩
  intro p hp
  obtain ⟨k, i, hk, hi, he, hb⟩ := (hinv.live_iff p).1 hp
  refine ⟨k, i, ⟨hk, hi, he, ?_, hb⟩, ?_⟩
  · rw [hinv.head]; exact chain_reach E c _ hinv.chain k hk
  · intro k1 i1 hk1 _ he1
    obtain ⟨e1, e2⟩ := handle_inj E _ hadr hk1 hk (he1.symm.trans he)
    exact ⟨e1, e2⟩

/-- Within the `int` range the property holds: in every valid sequential history of `create`/`destroy` calls
(and stores into live objects) on a pool of capacity `1 ≤ c ≤ 65535` whose arena
buffer size `8 + c * (sizeof(T) + 4)` does not exceed `2^31 - 1`, the run reaches
a state in which each live handle is the handle of exactly one slot `(k, i)` with
`k` an arena of the chain and `i < c`, that slot has occupancy flag `1`, and no
handle occurs twice among the live handles. -/
theorem live_handles_own_distinct_slots (E : Env) (c : Nat) (ops : List Op) (hc0 : 0 < c)
    (hc : c < 65536) (hfit : Fits E c) (hadr : AddrOK E (ops.length + 1))
    (hv : Valid E c ops) : ∃ S, exec E c ops = .ok S ∧ LiveSlots E c S := by
  obtain ⟨S, h1, h2, _, h4⟩ := exec_inv E c ops hc0 hc hfit hadr hv
  exact ⟨S, h1, inv_liveSlots E c S h2 (addrOK_mono E h4 hadr)⟩

/-- Witness for `live_handles_own_distinct_slots`: capacity 10, twelve creates,
one destroy and one store. -/
theorem live_handles_own_distinct_slots_witness :
    (0 < 10 ∧ 10 < 65536 ∧ Fits demoEnv 10 ∧
      AddrOK demoEnv (demoHistory.length + 1) ∧
      Valid demoEnv 10 demoHistory) ∧
    ∃ S, exec demoEnv 10 demoHistory = .ok S ∧
      LiveSlots demoEnv 10 S :=
  ⟨by decide, live_handles_own_distinct_slots demoEnv 10 demoHistory (by decide) (by decide) (by decide)
    (by decide) (by decide)⟩

/-- C1 states that every live handle is the payload of exactly one slot whose flag is 1, in one
arena of the chain, and that no two live handles share a slot.
The code breaks this property, because `AllocateBlock` keeps its scan
position in an `int` whereas `init` lays the same records out with a `size_t`
offset. With `sizeof(T) = 2^32` and capacity 2 the `int` scan
position of `AllocateBlock` advances by `(2^32 + 4) mod 2^32 = 4`, so the second
`create` returns offset 16, inside the object of the first handle (offset 12);
that live handle is the handle of no slot. -/
theorem live_handles_counterexample :
    (exec hugeEnv 2 [.create, .create]).map (fun S => (S.live, S.mp.heap.count)) =
      .ok ([⟨4096, 16⟩, ⟨4096, 12⟩], 1) ∧
    ¬ ∃ S, exec hugeEnv 2 [.create, .create] = .ok S ∧ LiveSlots hugeEnv 2 S := by
  have hobs : (exec hugeEnv 2 [.create, .create]).map (fun S => (S.live, S.mp.heap.count)) =
      .ok ([⟨4096, 16⟩, ⟨4096, 12⟩], 1) := by decide
  refine ⟨hobs, ?_⟩
  rintro ⟨S, hS, _, hall⟩
  rw [hS] at hobs
  simp only [Except.map, Except.ok.injEq, Prod.mk.injEq] at hobs
  obtain ⟨k, i, ⟨hk, hi, he, _, _⟩, _⟩ := hall ⟨4096, 16⟩ (by rw [hobs.1]; simp)
  simp only [handle, slotPos, hugeEnv, pool_header_size, block_header_size, Ptr.mk.injEq] at he
  omega

/-! ## Reverse mapping -/

theorem inv_reverseMap (E : Env) (c : Nat) (S : Sys) (hinv : Inv E c S) (hc : c < 65536)
    (hfit : FitsSize E c) (hadr : AddrOK E S.mp.heap.count) : ReverseMap E c S := by
  constructor
  · intro p hp
    obtain ⟨k, i, hk, hi, he, _⟩ := (hinv.live_iff p).1 hp
    exact ⟨k, i, hk, hi, he⟩
  · intro k i hk hi
    obtain ⟨o, b, ho, hok, _⟩ := hinv.chain.arenas k hk
    have h1 := GetBlockPool_spec E c S.mp.heap k i o b hc hfit (hadr.1 k hk) ho hok hi
    exact ⟨GetBlockIndex_spec E c S.mp.heap k i o b hc ho hok hi, h1.2,
      decode_header E c (E.addr k) S.mp.heap o b ho hok (ptrBits_le E _ (hadr.1 k hk)), h1.1⟩

/-- Within the `int` range the property holds: in every valid sequential history (with arbitrary stores into
live objects) on a pool of capacity `1 ≤ c ≤ 65535` whose arena buffer size
`8 + c * (sizeof(T) + 4)` does not exceed `2^31 - 1`, every live handle is the
handle of a slot, and for the handle `p` of every slot of every arena the two
index bytes before the payload give the index of the slot, the base computed by
`GetBlockPool` is the start of the buffer of the arena the slot belongs to (the
arena whose `AllocateBlock` reserves it), the eight header bytes decode to the
address of that arena, and `GetBlockPool p` returns that arena. -/
theorem reverse_mapping_of_live_handles (E : Env) (c : Nat) (ops : List Op) (hc0 : 0 < c)
    (hc : c < 65536) (hfit : Fits E c) (hadr : AddrOK E (ops.length + 1))
    (hv : Valid E c ops) : ∃ S, exec E c ops = .ok S ∧ ReverseMap E c S := by
  obtain ⟨S, h1, h2, _, h4⟩ := exec_inv E c ops hc0 hc hfit hadr hv
  exact ⟨S, h1, inv_reverseMap E c S h2 hc (fits_size E c hfit) (addrOK_mono E h4 hadr)⟩

/-- Witness for `reverse_mapping_of_live_handles` on `demoHistory`. -/
theorem reverse_mapping_of_live_handles_witness :
    (0 < 10 ∧ 10 < 65536 ∧ Fits demoEnv 10 ∧ AddrOK demoEnv (demoHistory.length + 1) ∧
      Valid demoEnv 10 demoHistory) ∧
    ∃ S, exec demoEnv 10 demoHistory = .ok S ∧ ReverseMap demoEnv 10 S :=
  ⟨by decide, reverse_mapping_of_live_handles demoEnv 10 demoHistory (by decide) (by decide)
    (by decide) (by decide) (by decide)⟩

/-- C2 states that `GetBlockPool` applied to a handle returned by `create` yields the
arena that reserved it, for every object size.
The code breaks this property, because `AllocateBlock` keeps its scan
position in an `int` whereas `init` lays the same records out with a `size_t`
offset. With `sizeof(T) = 2^32` and capacity 2 the second `create`
returns the block at offset 16 of the head arena (address 4096); for this handle
`GetBlockPool` reads index 0 from the object of the first handle, computes the
base at offset 4 and returns `0x100001000000` instead of the arena. -/
theorem reverse_mapping_counterexample :
    (exec hugeEnv 2 [.create, .create]).map (fun S => S.live) =
      .ok [⟨4096, 16⟩, ⟨4096, 12⟩] ∧
    (exec hugeEnv 2 [.create, .create]).bind
      (fun S => GetBlockPool hugeEnv S.mp.heap ⟨4096, 16⟩) = .ok 17592202821632 ∧
    ¬ ∃ S, exec hugeEnv 2 [.create, .create] = .ok S ∧ ReverseMap hugeEnv 2 S := by
  have hlive : (exec hugeEnv 2 [.create, .create]).map (fun S => S.live) =
      .ok [⟨4096, 16⟩, ⟨4096, 12⟩] := by decide
  have hget : (exec hugeEnv 2 [.create, .create]).bind
      (fun S => GetBlockPool hugeEnv S.mp.heap ⟨4096, 16⟩) = .ok 17592202821632 := by decide
  refine ⟨hlive, hget, ?_⟩
  rintro ⟨S, hS, hall⟩
  rw [hS] at hlive hget
  simp only [Except.map, Except.ok.injEq] at hlive
  simp only [Except.bind] at hget
  obtain ⟨k, i, hk, hi, he⟩ := hall.1 ⟨4096, 16⟩ (by rw [hlive]; simp)
  have h7 := (hall.2 k i hk hi).2.2.2
  rw [← he, hget] at h7
  simp at h7

/-! ## Slot reuse before growth -/

theorem inv_reuseLowest (E : Env) (c : Nat) (S : Sys) (hinv : Inv E c S) (hc0 : 0 < c)
    (hc : c < 65536) (hfit : Fits E c) (hadr : AddrOK E (S.mp.heap.count + 1)) :
    ReuseLowest E c S := by
  rintro ⟨k, i, hk, hi, hb⟩
  obtain ⟨k0, i0, H, hal, _, hp⟩ := Allocate_spec E c S.mp.heap hinv.chain hc0 hc hfit hadr
  have hlt : k0 < S.mp.heap.count := by
    by_contra hge
    exact hp.earlier_full k (by have := hp.arena_le; omega) i hi hb
  rw [hinv.head]
  exact ⟨k0, i0, H, hal, (hp.reuse hlt).2, hlt, hp.slot_lt, (hp.reuse hlt).1, hp.earlier_full,
    hp.lowest hlt⟩

/-- Within the `int` range the property holds: in every valid sequential history on a pool of capacity
`1 ≤ c ≤ 65535` whose arena buffer size `8 + c * (sizeof(T) + 4)` does not exceed
`2^31 - 1`, a `create` issued while some arena of the chain has a free slot does
not grow the chain and returns the lowest-indexed free slot of the arena closest
to the head that has a free slot. -/
theorem create_reuses_lowest_free_slot (E : Env) (c : Nat) (ops : List Op) (hc0 : 0 < c)
    (hc : c < 65536) (hfit : Fits E c) (hadr : AddrOK E (ops.length + 2))
    (hv : Valid E c ops) : ∃ S, exec E c ops = .ok S ∧ ReuseLowest E c S := by
  obtain ⟨S, h1, h2, _, h4⟩ := exec_inv E c ops hc0 hc hfit (addrOK_mono E (by omega) hadr) hv
  exact ⟨S, h1, inv_reuseLowest E c S h2 hc0 hc hfit (addrOK_mono E (by omega) hadr)⟩

/-- Witness for `create_reuses_lowest_free_slot` on `demoHistory`. -/
theorem create_reuses_lowest_free_slot_witness :
    (0 < 10 ∧ 10 < 65536 ∧ Fits demoEnv 10 ∧ AddrOK demoEnv (demoHistory.length + 2) ∧
      Valid demoEnv 10 demoHistory) ∧
    ∃ S, exec demoEnv 10 demoHistory = .ok S ∧ ReuseLowest demoEnv 10 S :=
  ⟨by decide, create_reuses_lowest_free_slot demoEnv 10 demoHistory (by decide) (by decide)
    (by decide) (by decide) (by decide)⟩

/-- C3 states that a `create` issued while some arena has a free slot does not grow the
chain and returns the lowest free slot of the first arena that has one.
The code breaks this property, because `AllocateBlock` keeps its scan
position in an `int` whereas `init` lays the same records out with a `size_t`
offset. With `sizeof(T) = 2^32 - 4` and capacity 2, after one
`create` slot 1 of the only arena is free (flag `0`), yet `Allocate` returns a
null pointer: the `int` scan position stays at 8, so slot 0 is inspected twice. -/
theorem create_reuse_counterexample :
    (exec wrapEnv 2 [.create]).bind (fun S =>
      (Allocate wrapEnv S.mp.heap S.mp.pool_allocator_).map (fun r =>
        (r.2, S.mp.heap.count, S.mp.heap.byte (wrapEnv.addr 0) (slotPos wrapEnv 1)))) =
      .ok (none, 1, 0) ∧
    ¬ ∃ S, exec wrapEnv 2 [.create] = .ok S ∧ ReuseLowest wrapEnv 2 S := by
  have hobs : (exec wrapEnv 2 [.create]).bind (fun S =>
      (Allocate wrapEnv S.mp.heap S.mp.pool_allocator_).map (fun r =>
        (r.2, S.mp.heap.count, S.mp.heap.byte (wrapEnv.addr 0) (slotPos wrapEnv 1)))) =
      .ok (none, 1, 0) := by decide
  refine ⟨hobs, ?_⟩
  rintro ⟨S, hS, hre⟩
  rw [hS] at hobs
  simp only [Except.bind] at hobs
  cases hA : Allocate wrapEnv S.mp.heap S.mp.pool_allocator_ with
  | error e => rw [hA] at hobs; simp [Except.map] at hobs
  | ok r =>
    rw [hA] at hobs
    simp only [Except.map, Except.ok.injEq, Prod.mk.injEq] at hobs
    obtain ⟨k0, i0, H, hal, _⟩ := hre ⟨0, 1, by omega, by omega, hobs.2.2⟩
    rw [hA] at hal
    simp only [Except.ok.injEq] at hal
    rw [hal] at hobs
    simp at hobs

/-! ## Growth granularity -/

theorem run_append (E : Env) : ∀ (a b : List Op) (S : Sys),
    run E S (a ++ b) = (run E S a).bind (fun S1 => run E S1 b) := by
  intro a
  induction a with
  | nil => intro b S; rfl
  | cons op a ih =>
    intro b S
    simp only [List.cons_append, run]
    split
    · cases hst : step E S op with
      | ok S1 => simp only []; exact ih b S1
      | error e => rfl
    · rfl

theorem exec_append (E : Env) (c : Nat) (a b : List Op) :
    exec E c (a ++ b) = (exec E c a).bind (fun S1 => run E S1 b) := by
  unfold exec
  cases boot E c with
  | ok S => simp only []; exact run_append E a b S
  | error e => rfl

theorem creates_succ (n : Nat) : creates (n + 1) = creates n ++ [Op.create] := by
  simp [creates, List.replicate_succ']

theorem pair_eq (c k i k0 i0 : Nat) (hi : i < c) (hi0 : i0 < c)
    (h : k * c + i = k0 * c + i0) : k = k0 ∧ i = i0 := by
  rcases Nat.lt_trichotomy k k0 with h1 | h1 | h1
  · have := Nat.mul_le_mul_right c (show k + 1 ≤ k0 by omega)
    rw [Nat.add_mul] at this
    omega
  · subst h1; exact ⟨rfl, by omega⟩
  · have := Nat.mul_le_mul_right c (show k0 + 1 ≤ k by omega)
    rw [Nat.add_mul] at this
    omega

theorem div_mod_pair (c k i : Nat) (hi : i < c) : (k * c + i) / c = k ∧ (k * c + i) % c = i := by
  have hc : 0 < c := by omega
  constructor
  · rw [Nat.add_comm, Nat.add_mul_div_right _ _ hc, Nat.div_eq_of_lt hi, Nat.zero_add]
  · rw [Nat.add_comm, Nat.add_mul_mod_self_right, Nat.mod_eq_of_lt hi]

/-- A fresh pool is the state reached by zero creates. -/
theorem creates_zero (E : Env) (c : Nat) (hc0 : 0 < c) (hc : c < 65536) (hfit : Fits E c)
    (hadr : AddrOK E 1) : ∃ S, exec E c (creates 0) = .ok S ∧ CreatesState E c 0 S := by
  obtain ⟨S, h1, h2, h3, h4, h5⟩ := boot_inv E c hc0 hc (fits_size E c hfit) hadr
  refine ⟨S, ?_, h2, by omega, by rw [h3]; simp, fun h => by omega, ?_, ?_⟩
  · unfold exec; rw [h1]; rfl
  · intro k hk i hi
    have : k = 0 := by omega
    subst this
    rw [h5 i hi, if_neg (by omega)]
  · rw [h4]; rfl

theorem succ_mul_c (k c : Nat) : (k + 1) * c = k * c + c := by
  rw [Nat.add_mul, Nat.one_mul]

theorem pred_mul_c (L c : Nat) (hL : 0 < L) : L * c = (L - 1) * c + c := by
  conv_lhs => rw [show L = (L - 1) + 1 by omega]
  exact succ_mul_c (L - 1) c

/-- One more `create` after `n` creates: the slot number `n` (counted arena by
arena) is taken, and the chain grows only if all slots were occupied. -/
theorem creates_step (E : Env) (c n : Nat) (S : Sys) (hc0 : 0 < c) (hc : c < 65536)
    (hfit : Fits E c) (hadr : AddrOK E (S.mp.heap.count + 1)) (hs : CreatesState E c n S) :
    ∃ S1, step E S .create = .ok S1 ∧ CreatesState E c (n + 1) S1 ∧
      (S1.mp.heap.count ≠ S.mp.heap.count →
        ∀ k, k < S.mp.heap.count → ∀ i, i < c → S.mp.heap.byte (E.addr k) (slotPos E i) = 1) := by
  obtain ⟨S1, k0, i0, hstep, hinv1, hlive, hp⟩ := step_create E c S hs.inv hc0 hc hfit hadr
  have hL := hs.inv.chain.pos
  have hLc := pred_mul_c S.mp.heap.count c hL
  have hup := hs.upper
  have hlo := hs.lower
  have hi0 := hp.slot_lt
  -- the slot that is taken is slot number `n`
  have hkey : k0 * c + i0 = n ∧
      (S1.mp.heap.count = S.mp.heap.count ∨
        (S1.mp.heap.count = S.mp.heap.count + 1 ∧ n = S.mp.heap.count * c ∧
          k0 = S.mp.heap.count)) := by
    rcases Nat.lt_or_ge n (S.mp.heap.count * c) with hA | hB
    · have hm : n - (S.mp.heap.count - 1) * c < c := by omega
      have hflag : S.mp.heap.byte (E.addr (S.mp.heap.count - 1))
          (slotPos E (n - (S.mp.heap.count - 1) * c)) = 0 := by
        rw [hs.flags _ (by omega) _ hm, if_neg (by omega)]
      have hk0 : k0 < S.mp.heap.count := by
        by_contra hge
        exact hp.earlier_full (S.mp.heap.count - 1) (by have := hp.arena_le; omega) _ hm hflag
      have hz := (hp.reuse hk0).1
      rw [hs.flags k0 hk0 i0 hi0] at hz
      have hge : n ≤ k0 * c + i0 := by
        by_contra hlt
        rw [if_pos (by omega)] at hz
        omega
      have hk0' : k0 = S.mp.heap.count - 1 := by
        by_contra hne
        have := Nat.mul_le_mul_right c (show k0 + 1 ≤ S.mp.heap.count - 1 by omega)
        rw [succ_mul_c] at this
        omega
      subst hk0'
      have hi0' : i0 = n - (S.mp.heap.count - 1) * c := by
        by_contra hne
        exact hp.lowest hk0 _ (by omega) hflag
      exact ⟨by omega, Or.inl (hp.reuse hk0).2⟩
    · have hn : n = S.mp.heap.count * c := by omega
      have hk0 : k0 = S.mp.heap.count := by
        by_contra hne
        have hlt : k0 < S.mp.heap.count := by have := hp.arena_le; omega
        have hz := (hp.reuse hlt).1
        have := Nat.mul_le_mul_right c (show k0 + 1 ≤ S.mp.heap.count by omega)
        rw [succ_mul_c] at this
        rw [hs.flags k0 hlt i0 hi0, if_pos (by omega)] at hz
        omega
      obtain ⟨g1, g2, _, _⟩ := hp.grow hk0
      exact ⟨by rw [hk0, g2]; omega, Or.inr ⟨g1, hn, hk0⟩⟩
  obtain ⟨hn, hcount⟩ := hkey
  have hL1 := pred_mul_c S1.mp.heap.count c hinv1.chain.pos
  have hsucc := succ_mul_c S.mp.heap.count c
  refine ⟨S1, hstep, ⟨hinv1, ?_, ?_, ?_, ?_, ?_⟩, ?_⟩
  · rcases hcount with h1 | ⟨h1, h2, _⟩
    · rw [h1]
      rcases Nat.lt_or_ge n (S.mp.heap.count * c) with hA | hB
      · omega
      · exfalso
        have hk0 : k0 < S.mp.heap.count := by
          have := hp.arena_lt; omega
        have := Nat.mul_le_mul_right c (show k0 + 1 ≤ S.mp.heap.count by omega)
        rw [succ_mul_c] at this
        omega
    · rw [h1, hsucc]; omega
  · rcases hcount with h1 | ⟨h1, h2, _⟩
    · rw [h1]; omega
    · rw [h1, Nat.add_sub_cancel]; omega
  · intro _
    rcases hcount with h1 | ⟨h1, h2, _⟩
    · rw [h1]; omega
    · rw [h1, Nat.add_sub_cancel]; omega
  · intro k hk i hi
    by_cases hsame : k = k0 ∧ i = i0
    · rw [hsame.1, hsame.2, hp.taken, if_pos (by omega)]
    · have hne : k * c + i ≠ n := fun he =>
        hsame (pair_eq c k i k0 i0 hi hi0 (by omega))
      rcases Nat.lt_or_ge k S.mp.heap.count with hlt | hge
      · rw [hp.frame k hlt (slotPos E i) (by
          by_cases hkk : k = k0
          · right; intro he; exact hsame ⟨hkk, slotPos_inj E he⟩
          · left; exact hkk), hs.flags k hlt i hi]
        by_cases hlt2 : k * c + i < n
        · rw [if_pos hlt2, if_pos (by omega)]
        · rw [if_neg hlt2, if_neg (by omega)]
      · rcases hcount with h1 | ⟨h1, h2, h3⟩
        · omega
        · have hk : k = k0 := by omega
          subst hk
          obtain ⟨_, g2, g3, _⟩ := hp.grow h3
          rw [g3 i hi (fun he => hsame ⟨rfl, by omega⟩), if_neg (by
            have : i ≠ 0 := fun he => hsame ⟨rfl, by omega⟩
            rw [h3]; omega)]
  · rw [hlive, hs.live_eq, List.range_succ, List.reverse_append, List.reverse_singleton,
      List.singleton_append, List.map_cons]
    obtain ⟨d1, d2⟩ := div_mod_pair c k0 i0 hi0
    rw [hn] at d1 d2
    rw [d1, d2]
  · intro hne k hk i hi
    rcases hcount with h1 | ⟨_, h2, _⟩
    · exact absurd h1 hne
    · rw [hs.flags k hk i hi, if_pos (by
        have := Nat.mul_le_mul_right c (show k + 1 ≤ S.mp.heap.count by omega)
        rw [succ_mul_c] at this
        omega)]

/-- The state after `n` creates on a fresh pool. -/
theorem creates_state (E : Env) (c : Nat) (hc0 : 0 < c) (hc : c < 65536) (hfit : Fits E c) :
    ∀ n, AddrOK E (n + 1) → ∃ S, exec E c (creates n) = .ok S ∧ CreatesState E c n S ∧
      S.mp.heap.count ≤ n + 1 := by
  intro n
  induction n with
  | zero =>
    intro hadr
    obtain ⟨S, h1, h2⟩ := creates_zero E c hc0 hc hfit hadr
    have := h2.upper
    have := h2.lower
    have hL := pred_mul_c S.mp.heap.count c h2.inv.chain.pos
    refine ⟨S, h1, h2, ?_⟩
    by_contra hgt
    have := Nat.mul_le_mul_right c (show 1 ≤ S.mp.heap.count - 1 by omega)
    omega
  | succ n ih =>
    intro hadr
    obtain ⟨S, h1, h2, h3⟩ := ih (addrOK_mono E (by omega) hadr)
    obtain ⟨S1, g1, g2, _⟩ := creates_step E c n S hc0 hc hfit (addrOK_mono E (by omega) hadr) h2
    refine ⟨S1, ?_, g2, ?_⟩
    · rw [creates_succ, exec_append, h1]
      simp only [Except.bind, run, Op.allowed, if_true, g1]
    · have hle : S1.mp.heap.count ≤ S.mp.heap.count + 1 := by
        have hst := g1
        obtain ⟨S2, k0, i0, e1, _, _, e4⟩ := step_create E c S h2.inv hc0 hc hfit
          (addrOK_mono E (by omega) hadr)
        rw [e1] at hst
        cases hst
        exact (allocPost_count E c _ _ _ _ e4).2
      omega

theorem chain_members (E : Env) (c : Nat) (h : Heap) (hch : ChainOK E c h) (a : Nat) :
    InChain h (E.addr 0) a ↔ ∃ k, k < h.count ∧ a = E.addr k := by
  constructor
  · intro hin
    induction hin with
    | head => exact ⟨0, hch.pos, rfl⟩
    | next a n o _ ho hn ih =>
      obtain ⟨k, hk, rfl⟩ := ih
      obtain ⟨o1, _, ho1, _, hnext⟩ := hch.arenas k hk
      rw [ho] at ho1
      cases ho1
      rw [hn] at hnext
      by_cases hk1 : k + 1 < h.count
      · rw [if_pos hk1] at hnext
        exact ⟨k + 1, hk1, by simpa using hnext⟩
      · rw [if_neg hk1] at hnext
        cases hnext
  · rintro ⟨k, hk, rfl⟩
    exact chain_reach E c h hch k hk

theorem ceil_div_eq (c n L : Nat) (hc0 : 0 < c) (hn : 0 < n) (hL : 0 < L) (hup : n ≤ L * c)
    (hlo : (L - 1) * c < n) : L = (n + c - 1) / c := by
  have h1 := pred_mul_c L c hL
  have h2 := succ_mul_c L c
  exact (Nat.div_eq_of_lt_le (by omega) (by rw [h2]; omega)).symm

/-- C4 (amended): for every capacity `1 ≤ c ≤ 65535` whose arena buffer size
`8 + c * (sizeof(T) + 4)` does not exceed `2^31 - 1` and every `N ≥ 1`, after `N`
sequential creates (and no destroy) on a freshly constructed pool the chain has
exactly `ceil(N / c)` arenas, every arena has capacity `c`, a create grows the
chain only when every slot of every arena (in particular of the last one) is
occupied, and with `c = 1` the handles lie in pairwise distinct arenas. -/
theorem creates_grow_chain_by_need (E : Env) (c N : Nat) (hc0 : 0 < c) (hc : c < 65536)
    (hfit : Fits E c) (hN : 0 < N) (hadr : AddrOK E (N + 1)) : GrowthGranular E c N := by
  obtain ⟨S, h1, h2, h3⟩ := creates_state E c hc0 hc hfit N hadr
  refine ⟨S, h1, ?_, ?_, ?_, h2.live_eq, ?_, ?_⟩
  · exact ceil_div_eq c N _ hc0 hN h2.inv.chain.pos h2.upper (h2.strict hN)
  · intro a
    rw [h2.inv.head]
    exact chain_members E c _ h2.inv.chain a
  · intro k hk
    obtain ⟨o, b, ho, hok, _⟩ := h2.inv.chain.arenas k hk
    exact ⟨o, ho, hok.cap_eq⟩
  · intro n hn
    obtain ⟨Sn, e1, e2, e3⟩ := creates_state E c hc0 hc hfit n (addrOK_mono E (by omega) hadr)
    obtain ⟨Sn1, g1, _, g3⟩ := creates_step E c n Sn hc0 hc hfit
      (addrOK_mono E (by omega) hadr) e2
    refine ⟨Sn, Sn1, e1, ?_, g3⟩
    rw [creates_succ, exec_append, e1]
    simp only [Except.bind, run, Op.allowed, if_true, g1]
  · intro hc1 j1 j2 hj1 hj2 hne
    subst hc1
    simp only [handle, Nat.div_one]
    exact addr_ne E _ hadr (by omega) (by omega) hne

/-- Witness for `creates_grow_chain_by_need`: capacity 1 and two creates. -/
theorem creates_grow_chain_by_need_witness :
    (0 < 1 ∧ 1 < 65536 ∧ Fits demoEnv 1 ∧ 0 < 2 ∧ AddrOK demoEnv (2 + 1)) ∧
    GrowthGranular demoEnv 1 2 :=
  ⟨by decide, creates_grow_chain_by_need demoEnv 1 2 (by decide) (by decide) (by decide)
    (by decide) (by decide)⟩

/-- C4 fails as stated in two ways. For `N = 0` a fresh pool of capacity 10
already has one arena, not `ceil(0 / 10) = 0`. And with `sizeof(T) = 2^32 - 4`
and capacity 2 the second of two creates obtains a null block, because the `int`
scan position of `AllocateBlock` never leaves slot 0. -/
theorem creates_growth_counterexample :
    (exec demoEnv 10 (creates 0)).map (fun S => S.mp.heap.count) = .ok 1 ∧
    ¬ GrowthGranular demoEnv 10 0 ∧
    (exec wrapEnv 2 (creates 2)).map (fun S => S.mp.heap.count) = .error .nullDeref ∧
    ¬ GrowthGranular wrapEnv 2 2 := by
  have h0 : (exec demoEnv 10 (creates 0)).map (fun S => S.mp.heap.count) = .ok 1 := by decide
  have h2 : (exec wrapEnv 2 (creates 2)).map (fun S => S.mp.heap.count) = .error .nullDeref := by
    decide
  refine ⟨h0, ?_, h2, ?_⟩
  · rintro ⟨S, hS, hcount, _⟩
    rw [hS] at h0
    simp only [Except.map, Except.ok.injEq] at h0
    rw [h0] at hcount
    omega
  · rintro ⟨S, hS, _⟩
    rw [hS] at h2
    simp [Except.map] at h2

/-! ## Destroying every handle -/

/-- Destroying a duplicate-free list of live handles, in the order of the list,
succeeds and removes exactly these handles from the live handles. -/
theorem run_destroys (E : Env) (c : Nat) (hc : c < 65536) (hfit : FitsSize E c) :
    ∀ (l : List Ptr) (S : Sys), Inv E c S → l.Nodup → (∀ p, p ∈ l → p ∈ S.live) →
    AddrOK E S.mp.heap.count →
    ∃ S1, run E S (l.map Op.destroy) = .ok S1 ∧ Inv E c S1 ∧
      S1.mp.heap.count = S.mp.heap.count ∧ (∀ q, q ∈ S1.live ↔ q ∈ S.live ∧ q ∉ l) := by
  intro l
  induction l with
  | nil =>
    intro S hinv _ _ _
    exact ⟨S, rfl, hinv, rfl, fun q => by simp⟩
  | cons p l ih =>
    intro S hinv hnd hsub hadr
    rw [List.nodup_cons] at hnd
    have hp : p ∈ S.live := hsub p (List.mem_cons_self p l)
    obtain ⟨S1, k, i, h1, h2, h3, h4, _⟩ := step_destroy E c S hinv hc hfit hadr p hp
    obtain ⟨S2, g1, g2, g3, g4⟩ := ih S1 h2 hnd.2
      (fun q hq => by
        rw [h3, hinv.nodup.mem_erase_iff]
        exact ⟨fun he => hnd.1 (he ▸ hq), hsub q (List.mem_cons_of_mem p hq)⟩)
      (by rw [h4]; exact hadr)
    refine ⟨S2, ?_, g2, by omega, ?_⟩
    · simp only [List.map_cons, run]
      rw [if_pos (show (Op.destroy p).allowed E S from hp), h1]
      exact g1
    · intro q
      rw [g4 q, h3, hinv.nodup.mem_erase_iff, List.mem_cons]
      constructor
      · rintro ⟨⟨a1, a2⟩, a3⟩
        exact ⟨a2, fun hh => hh.elim a1 a3⟩
      · rintro ⟨a1, a2⟩
        exact ⟨⟨fun hh => a2 (Or.inl hh), a1⟩, fun hh => a2 (Or.inr hh)⟩

/-- A state satisfying the invariant and without live handles has only free
slots, full counters, and serves the next `Allocate` from slot 0 of the head. -/
theorem inv_drained (E : Env) (c : Nat) (S : Sys) (hinv : Inv E c S) (hc0 : 0 < c)
    (hc : c < 65536) (hfit : Fits E c) (hadr : AddrOK E (S.mp.heap.count + 1))
    (hlive : S.live = []) :
    (∀ k, k < S.mp.heap.count → ∀ i, i < c → S.mp.heap.byte (E.addr k) (slotPos E i) = 0) ∧
    (∀ k, k < S.mp.heap.count → S.mp.heap.freeOf (E.addr k) = c) ∧
    ∃ H, Allocate E S.mp.heap S.mp.pool_allocator_ = .ok (H, some (handle E 0 0)) ∧
      H.count = S.mp.heap.count := by
  have hflags : ∀ k, k < S.mp.heap.count → ∀ i, i < c →
      S.mp.heap.byte (E.addr k) (slotPos E i) = 0 := by
    intro k hk i hi
    obtain ⟨o, b, ho, hok, _⟩ := hinv.chain.arenas k hk
    rw [byte_eq _ _ o b ho hok.pool_eq]
    rcases hok.flag01 i hi with h0 | h1
    · exact h0
    · exfalso
      have : handle E k i ∈ S.live := (hinv.live_iff _).2
        ⟨k, i, hk, hi, rfl, by rw [byte_eq _ _ o b ho hok.pool_eq]; exact h1⟩
      rw [hlive] at this
      cases this
  refine ⟨hflags, ?_, ?_⟩
  · intro k hk
    obtain ⟨o, b, ho, hok, _⟩ := hinv.chain.arenas k hk
    rw [freeOf_eq _ _ o ho, hok.free_eq]
    exact freeSlots_all_free E b.bytes c (fun i hi => by
      rw [← byte_eq _ _ o b ho hok.pool_eq]; exact hflags k hk i hi)
  · obtain ⟨k0, i0, H, hal, _, hp⟩ := Allocate_spec E c S.mp.heap hinv.chain hc0 hc hfit hadr
    have hk0 : k0 = 0 := by
      by_contra hne
      exact hp.earlier_full 0 (by omega) 0 hc0 (hflags 0 hinv.chain.pos 0 hc0)
    subst hk0
    have hi0 : i0 = 0 := by
      by_contra hne
      exact hp.lowest hinv.chain.pos 0 (by omega) (hflags 0 hinv.chain.pos 0 hc0)
    subst hi0
    rw [hinv.head]
    exact ⟨H, hal, (hp.reuse hinv.chain.pos).2⟩

/-- Within the `int` range the property holds: for every capacity `1 ≤ c ≤ 65535` whose arena buffer size
`8 + c * (sizeof(T) + 4)` does not exceed `2^31 - 1` and every `N ≥ 1`: after `N`
sequential creates on a fresh pool (which leave `ceil(N / c)` arenas) followed by
destroy of all `N` handles in any order, the chain is the same as before the
destroys, every slot of every arena has occupancy flag `0`, every arena's free
counter equals `c`, and the next create returns slot 0 of the head arena. -/
theorem destroy_all_keeps_chain_and_frees_slots (E : Env) (c N : Nat) (hc0 : 0 < c)
    (hc : c < 65536) (hfit : Fits E c) (hN : 0 < N) (hadr : AddrOK E (N + 2)) :
    DestroyAll E c N := by
  obtain ⟨S0, h1, h2, h3⟩ := creates_state E c hc0 hc hfit N (addrOK_mono E (by omega) hadr)
  refine ⟨S0, h1, by rw [h2.live_eq]; simp, h2.inv.nodup,
    ceil_div_eq c N _ hc0 hN h2.inv.chain.pos h2.upper (h2.strict hN), ?_⟩
  intro l hperm
  obtain ⟨S, g1, g2, g3, g4⟩ := run_destroys E c hc (fits_size E c hfit) l S0 h2.inv
    (hperm.nodup_iff.2 h2.inv.nodup) (fun p hp => hperm.mem_iff.1 hp)
    (addrOK_mono E (by omega) hadr)
  have hlive : S.live = [] := by
    rw [List.eq_nil_iff_forall_not_mem]
    intro q hq
    have := (g4 q).1 hq
    exact this.2 (hperm.mem_iff.2 this.1)
  refine ⟨S, ?_, g3, ?_, inv_drained E c S g2 hc0 hc hfit
    (by rw [g3]; exact addrOK_mono E (by omega) hadr) hlive⟩
  · rw [exec_append, h1]
    exact g1
  · intro a
    rw [g2.head, h2.inv.head, chain_members E c _ g2.chain a,
      chain_members E c _ h2.inv.chain a, g3]

/-- Witness for `destroy_all_keeps_chain_and_frees_slots`: capacity 10 and twelve
creates, which leave `(12 + 10 - 1) / 10 = 2` arenas. -/
theorem destroy_all_keeps_chain_and_frees_slots_witness :
    (0 < 10 ∧ 10 < 65536 ∧ Fits demoEnv 10 ∧ 0 < 12 ∧ AddrOK demoEnv (12 + 2)) ∧
    DestroyAll demoEnv 10 12 :=
  ⟨by decide, destroy_all_keeps_chain_and_frees_slots demoEnv 10 12 (by decide) (by decide)
    (by decide) (by decide) (by decide)⟩

/-- C5 states that after `N` creates and the destroy of all `N` handles the chain is as
before, every slot is free, and the next `create` returns slot 0 of the head arena.
The code breaks this property, because `AllocateBlock` keeps its scan
position in an `int` whereas `init` lays the same records out with a `size_t`
offset. With `sizeof(T) = 2^32 - 4` and capacity 2 the second of
two creates obtains a null block from `Allocate` (the `int` scan position never
leaves slot 0), so there are no two handles to destroy. -/
theorem destroy_all_counterexample :
    (exec wrapEnv 2 (creates 2)).map (fun S => S.live) = .error .nullDeref ∧
    ¬ DestroyAll wrapEnv 2 2 := by
  have h2 : (exec wrapEnv 2 (creates 2)).map (fun S => S.live) = .error .nullDeref := by
    decide
  refine ⟨h2, ?_⟩
  rintro ⟨S, hS, _⟩
  rw [hS] at h2
  simp [Except.map] at h2

/-! ## The chain is append-only -/

theorem keeps_refl (h : Heap) : Keeps h h := ⟨rfl, fun _ => rfl⟩

theorem keeps_trans {h1 h2 h3 : Heap} (a : Keeps h1 h2) (b : Keeps h2 h3) : Keeps h1 h3 :=
  ⟨b.1.trans a.1, fun x => (b.2 x).trans (a.2 x)⟩

theorem keeps_set (h : Heap) (a : Nat) (o o1 : HeapPool) (ho : h.objs a = some o)
    (hn : o1.next = o.next) : Keeps h (h.set a o1) := by
  refine ⟨rfl, fun x => ?_⟩
  by_cases hx : x = a
  · subst hx; simp [ho, hn]
  · rw [set_objs_other h a x o1 hx]

theorem keeps_extends {h H : Heap} (k : Keeps h H) : Extends h H := by
  refine ⟨by rw [k.1], fun a o ho => ?_⟩
  have := k.2 a
  rw [ho] at this
  cases hH : H.objs a with
  | none => rw [hH] at this; simp at this
  | some o1 =>
    rw [hH] at this
    simp only [Option.map_some', Option.some.injEq] at this
    exact ⟨o1, rfl, fun n hn => by rw [this]; exact hn⟩

theorem extends_trans {h1 h2 h3 : Heap} (a : Extends h1 h2) (b : Extends h2 h3) :
    Extends h1 h3 := by
  refine ⟨le_trans a.1 b.1, fun x o ho => ?_⟩
  obtain ⟨o1, h1o, hn1⟩ := a.2 x o ho
  obtain ⟨o2, h2o, hn2⟩ := b.2 x o1 h1o
  exact ⟨o2, h2o, fun n hn => hn2 n (hn1 n hn)⟩

theorem keeps_tidy (E : Env) {h H : Heap} (k : Keeps h H) (t : Tidy E h) : Tidy E H := by
  intro a o ho
  have := k.2 a
  rw [ho] at this
  cases hh : h.objs a with
  | none => rw [hh] at this; simp at this
  | some o0 =>
    obtain ⟨j, hj, he⟩ := t a o0 hh
    exact ⟨j, by rw [k.1]; exact hj, he⟩

theorem store_keeps (h H : Heap) (p : Ptr) (d : Int) (v : Nat)
    (hs : h.store p d v = .ok H) : Keeps h H := by
  unfold Heap.store at hs
  cases ho : h.objs p.base with
  | none => rw [ho] at hs; cases hs
  | some o =>
    rw [ho] at hs
    simp only [] at hs
    cases hp : o.pool with
    | none => rw [hp] at hs; cases hs
    | some b =>
      rw [hp] at hs
      simp only [bind, Except.bind] at hs
      cases hw : b.write (p.off + d) v with
      | error e => rw [hw] at hs; cases hs
      | ok b1 =>
        rw [hw] at hs
        simp only [Except.ok.injEq] at hs
        rw [← hs]
        exact keeps_set h p.base o _ ho rfl

theorem FreeBlock_keeps (h H : Heap) (this : Nat) (block : Ptr)
    (hs : FreeBlock h this block = .ok H) : Keeps h H := by
  unfold FreeBlock at hs
  simp only [bind, Except.bind] at hs
  cases hst : h.store block (0 - (block_header_size : Int)) 0 with
  | error e => rw [hst] at hs; cases hs
  | ok h1 =>
    rw [hst] at hs
    simp only [] at hs
    cases ho : h1.objs this with
    | none => rw [ho] at hs; cases hs
    | some o =>
      rw [ho] at hs
      simp only [Except.ok.injEq] at hs
      rw [← hs]
      exact keeps_trans (store_keeps h h1 _ _ _ hst) (keeps_set h1 this o _ ho rfl)

theorem Free_keeps (E : Env) (h H : Heap) (block : Ptr) (hs : Free E h block = .ok H) :
    Keeps h H := by
  unfold Free at hs
  simp only [bind, Except.bind] at hs
  cases hg : GetBlockPool E h block with
  | error e => rw [hg] at hs; cases hs
  | ok a =>
    rw [hg] at hs
    exact FreeBlock_keeps h H a block hs

theorem AllocateBlock_next (E : Env) (o o1 : HeapPool) (r : Option Nat)
    (hs : AllocateBlock E o = .ok (o1, r)) : o1.next = o.next := by
  unfold AllocateBlock at hs
  cases hp : o.pool with
  | none => rw [hp] at hs; cases hs
  | some b =>
    rw [hp] at hs
    simp only [bind, Except.bind] at hs
    cases hl : allocLoop E o.capacity (o.capacity + 1) 0 (pool_header_size : Int) b with
    | error e => rw [hl] at hs; cases hs
    | ok q =>
      rw [hl] at hs
      simp only [Except.ok.injEq, Prod.mk.injEq] at hs
      rw [← hs.1]

/-- What `new ThisType(c)` does to the free store whenever it succeeds. -/
theorem new_frame (E : Env) (h hN : Heap) (c n : Nat) (hs : HeapPool.new E h c = .ok (hN, n)) :
    n = E.addr h.count ∧ hN.count = h.count + 1 ∧ (∀ x, x ≠ n → hN.objs x = h.objs x) ∧
    ∃ o1, hN.objs n = some o1 ∧ o1.next = none ∧ o1.free = c ∧ 0 < c := by
  unfold HeapPool.new HeapPool.ctor HeapPool.alloc at hs
  simp only [if_true, ↓reduceIte, Nat.add_sub_cancel] at hs
  by_cases hc : c > 0
  · rw [if_pos hc] at hs
    simp only [bind, Except.bind] at hs
    cases hi : init E h.count (E.addr h.count)
        { pool := none, next := none, free := 0, capacity := c } with
    | error e => rw [hi] at hs; cases hs
    | ok o1 =>
      rw [hi] at hs
      simp only [Except.ok.injEq, Prod.mk.injEq] at hs
      obtain ⟨e1, e2⟩ := hs
      subst e1; subst e2
      refine ⟨rfl, rfl, fun x hx => by simp [Heap.set, hx], o1, by simp, ?_, ?_, hc⟩
      · unfold init at hi
        simp only [bind, Except.bind] at hi
        repeat (split at hi <;> try cases hi)
        rfl
      · unfold init at hi
        simp only [bind, Except.bind] at hi
        repeat (split at hi <;> try cases hi)
        rfl
  · rw [if_neg hc] at hs
    cases hs

/-- One iteration of the walk on an exhausted arena without a successor, with
all the ways in which it can fail. -/
theorem walk_grow_unfold (E : Env) (this fuel : Nat) (h : Heap) (a : Nat) (o : HeapPool)
    (ho : h.objs a = some o) (hfree : o.free = 0) (hn : o.next = none) :
    allocateWalk E this (fuel + 1) h (some a) =
      match h.objs this with
      | none => .error .wildPointer
      | some head =>
        match HeapPool.new E h head.capacity with
        | .error e => .error e
        | .ok (h3, n) =>
          match h3.objs a with
          | none => .error .wildPointer
          | some o3 =>
            allocateWalk E this fuel
              (h3.set a { pool := o3.pool, next := some n, free := o3.free, capacity := o3.capacity })
              (some n) := by
  have hself : ∀ o1 : HeapPool, (h.set a o1).set a
      { pool := o.pool, next := o.next, free := ((o.free + 65535) % 65536 + 1) % 65536, capacity := o.capacity } = h := by
    intro o1
    rw [set_set, counter_restore _ hfree]
    exact set_self h a _ ho
  conv_lhs => unfold allocateWalk
  simp only [ho]
  rw [if_neg (by omega), hself]
  simp only [hn]

theorem tidy_fresh (E : Env) (h : Heap) (t : Tidy E h) (hadr : AddrOK E (h.count + 1)) (a : Nat)
    (o : HeapPool) (ho : h.objs a = some o) : a ≠ E.addr h.count := by
  obtain ⟨k, hk, rfl⟩ := t a o ho
  exact addr_ne E _ hadr (by omega) (by omega) (by omega)

/-- Whenever the walk of `Allocate` produces a result, no arena object is lost,
no link that was set is changed, and at most one arena object is added. -/
theorem walk_frame (E : Env) (this : Nat) :
    ∀ (fuel : Nat) (h : Heap) (cur : Option Nat) (H : Heap) (r : Option Nat),
    Tidy E h → AddrOK E (h.count + 1) → allocateWalk E this fuel h cur = .ok (H, r) →
    Extends h H ∧ Tidy E H ∧ H.count ≤ h.count + 1 := by
  intro fuel
  induction fuel with
  | zero =>
    intro h cur H r _ _ hs
    unfold allocateWalk at hs
    cases hs
  | succ fuel ih =>
    intro h cur H r ht hadr hs
    cases cur with
    | none =>
      unfold allocateWalk at hs
      simp only [Except.ok.injEq, Prod.mk.injEq] at hs
      rw [← hs.1]
      exact ⟨keeps_extends (keeps_refl h), ht, by omega⟩
    | some a =>
      cases ho : h.objs a with
      | none =>
        unfold allocateWalk at hs
        simp only [ho] at hs
        cases hs
      | some o =>
        by_cases hfree : 0 < o.free
        · rw [walk_break E this fuel h a o ho hfree] at hs
          simp only [Except.ok.injEq, Prod.mk.injEq] at hs
          rw [← hs.1]
          have hk := keeps_set h a o
            { pool := o.pool, next := o.next, free := (o.free + 65535) % 65536, capacity := o.capacity }
            ho rfl
          exact ⟨keeps_extends hk, keeps_tidy E hk ht, by simp⟩
        · have hz : o.free = 0 := by omega
          cases hn : o.next with
          | some n =>
            rw [walk_pass E this fuel h a n o ho hz hn] at hs
            exact ih h (some n) H r ht hadr hs
          | none =>
            rw [walk_grow_unfold E this fuel h a o ho hz hn] at hs
            cases hhead : h.objs this with
            | none => rw [hhead] at hs; cases hs
            | some head =>
              rw [hhead] at hs
              simp only [] at hs
              cases hnew : HeapPool.new E h head.capacity with
              | error e => rw [hnew] at hs; cases hs
              | ok q =>
                obtain ⟨h3, n⟩ := q
                rw [hnew] at hs
                simp only [] at hs
                obtain ⟨e1, e2, e3, onew, e4, e5, e6, e7⟩ := new_frame E h h3 _ n hnew
                have hane : a ≠ n := by rw [e1]; exact tidy_fresh E h ht hadr a o ho
                rw [e3 a hane, ho] at hs
                simp only [] at hs
                cases fuel with
                | zero => unfold allocateWalk at hs; cases hs
                | succ fuel =>
                  rw [walk_break E this fuel _ n onew
                    (by rw [set_objs_other _ _ _ _ hane.symm]; exact e4) (by omega)] at hs
                  simp only [Except.ok.injEq, Prod.mk.injEq] at hs
                  rw [← hs.1]
                  refine ⟨⟨by simp [e2], ?_⟩, ?_, by simp [e2]⟩
                  · intro x ox hx
                    have hxn : x ≠ n := by rw [e1]; exact tidy_fresh E h ht hadr x ox hx
                    rw [set_objs_other _ _ _ _ hxn]
                    by_cases hxa : x = a
                    · subst hxa
                      rw [ho] at hx
                      cases hx
                      exact ⟨_, set_objs_same _ _ _, fun m hm => by rw [hn] at hm; cases hm⟩
                    · rw [set_objs_other _ _ _ _ hxa, e3 x hxn]
                      exact ⟨ox, hx, fun m hm => hm⟩
                  · intro x ox hx
                    simp only [set_count, e2]
                    by_cases hxn : x = n
                    · exact ⟨h.count, by omega, by rw [hxn, e1]⟩
                    · rw [set_objs_other _ _ _ _ hxn] at hx
                      by_cases hxa : x = a
                      · obtain ⟨k, hk, he⟩ := ht a o ho
                        exact ⟨k, by omega, by rw [hxa, he]⟩
                      · rw [set_objs_other _ _ _ _ hxa, e3 x hxn] at hx
                        obtain ⟨k, hk, he⟩ := ht x ox hx
                        exact ⟨k, by omega, he⟩

/-- Whenever `Allocate` produces a result, no arena object is lost, no link that
was set is changed, and at most one arena object is added. -/
theorem Allocate_frame (E : Env) (this : Nat) (h H : Heap) (r : Option Ptr) (ht : Tidy E h)
    (hadr : AddrOK E (h.count + 1)) (hs : Allocate E h this = .ok (H, r)) :
    Extends h H ∧ Tidy E H ∧ H.count ≤ h.count + 1 := by
  unfold Allocate at hs
  simp only [bind, Except.bind] at hs
  cases hw : allocateWalk E this (h.count + 2) h (some this) with
  | error e => rw [hw] at hs; cases hs
  | ok q =>
    obtain ⟨h1, cur⟩ := q
    rw [hw] at hs
    simp only [] at hs
    obtain ⟨f1, f2, f3⟩ := walk_frame E this _ h _ h1 cur ht hadr hw
    cases cur with
    | none => cases hs
    | some a =>
      simp only [] at hs
      cases ho : h1.objs a with
      | none => rw [ho] at hs; cases hs
      | some o =>
        rw [ho] at hs
        simp only [] at hs
        cases hab : AllocateBlock E o with
        | error e => rw [hab] at hs; cases hs
        | ok q2 =>
          obtain ⟨o1, off⟩ := q2
          rw [hab] at hs
          simp only [Except.ok.injEq, Prod.mk.injEq] at hs
          rw [← hs.1]
          have hk := keeps_set h1 a o o1 ho (AllocateBlock_next E o o1 off hab)
          exact ⟨extends_trans f1 (keeps_extends hk), keeps_tidy E hk f2, by simpa using f3⟩

theorem boot_tidy (E : Env) (c : Nat) (S : Sys) (hs : boot E c = .ok S) :
    Tidy E S.mp.heap ∧ S.mp.heap.count = 1 := by
  unfold boot MemoryPool.ctor at hs
  simp only [bind, Except.bind] at hs
  cases hnew : HeapPool.new E Heap.empty c with
  | error e => rw [hnew] at hs; cases hs
  | ok q =>
    obtain ⟨hN, n⟩ := q
    rw [hnew] at hs
    simp only [Except.ok.injEq] at hs
    obtain ⟨e1, e2, e3, _⟩ := new_frame E Heap.empty hN c n hnew
    rw [← hs]
    refine ⟨?_, e2⟩
    intro a o ho
    by_cases han : a = n
    · exact ⟨0, by show 0 < hN.count; rw [e2]; exact Nat.succ_pos _, by rw [han, e1]; rfl⟩
    · have : hN.objs a = none := by rw [e3 a han]; rfl
      rw [this] at ho
      cases ho

/-- A `destroy` that produces a result changes no arena object's `next` link and
adds or removes no arena object. -/
theorem destroy_keeps (E : Env) (S S1 : Sys) (p : Ptr) (hs : step E S (.destroy p) = .ok S1) :
    Keeps S.mp.heap S1.mp.heap ∧ S1.mp.pool_allocator_ = S.mp.pool_allocator_ := by
  unfold step MemoryPool.Destroy at hs
  simp only [bind, Except.bind] at hs
  cases hf : Free E S.mp.heap p with
  | error e => rw [hf] at hs; cases hs
  | ok H =>
    rw [hf] at hs
    simp only [Except.ok.injEq] at hs
    rw [← hs]
    exact ⟨Free_keeps E _ H p hf, rfl⟩

theorem step_frame (E : Env) (S S1 : Sys) (op : Op) (ht : Tidy E S.mp.heap)
    (hadr : AddrOK E (S.mp.heap.count + 1)) (hs : step E S op = .ok S1) :
    Extends S.mp.heap S1.mp.heap ∧ Tidy E S1.mp.heap ∧
    S1.mp.heap.count ≤ S.mp.heap.count + 1 ∧ S1.mp.pool_allocator_ = S.mp.pool_allocator_ := by
  cases op with
  | create =>
    unfold step MemoryPool.Create at hs
    simp only [bind, Except.bind] at hs
    cases ha : Allocate E S.mp.heap S.mp.pool_allocator_ with
    | error e => rw [ha] at hs; cases hs
    | ok q =>
      obtain ⟨H, r⟩ := q
      rw [ha] at hs
      simp only [] at hs
      cases r with
      | none => cases hs
      | some block =>
        simp only [Except.ok.injEq] at hs
        obtain ⟨f1, f2, f3⟩ := Allocate_frame E _ _ H _ ht hadr ha
        rw [← hs]
        exact ⟨f1, f2, f3, rfl⟩
  | destroy p =>
    obtain ⟨k, hh⟩ := destroy_keeps E S S1 p hs
    exact ⟨keeps_extends k, keeps_tidy E k ht, by rw [k.1]; omega, hh⟩
  | poke p j v =>
    unfold step at hs
    simp only [bind, Except.bind] at hs
    cases hst : S.mp.heap.store p j v with
    | error e => rw [hst] at hs; cases hs
    | ok H =>
      rw [hst] at hs
      simp only [Except.ok.injEq] at hs
      have k := store_keeps _ H p j v hst
      rw [← hs]
      exact ⟨keeps_extends k, keeps_tidy E k ht, by show H.count ≤ _; rw [k.1]; omega, rfl⟩

theorem run_frame (E : Env) : ∀ (ops : List Op) (S S1 : Sys), Tidy E S.mp.heap →
    AddrOK E (S.mp.heap.count + ops.length) → run E S ops = .ok S1 →
    Extends S.mp.heap S1.mp.heap ∧ S1.mp.pool_allocator_ = S.mp.pool_allocator_ := by
  intro ops
  induction ops with
  | nil =>
    intro S S1 _ _ hs
    simp only [run, Except.ok.injEq] at hs
    rw [← hs]
    exact ⟨keeps_extends (keeps_refl _), rfl⟩
  | cons op ops ih =>
    intro S S1 ht hadr hs
    simp only [List.length_cons] at hadr
    unfold run at hs
    split at hs
    · cases hst : step E S op with
      | error e => rw [hst] at hs; cases hs
      | ok S2 =>
        rw [hst] at hs
        simp only [] at hs
        obtain ⟨f1, f2, f3, f4⟩ := step_frame E S S2 op ht (addrOK_mono E (by omega) hadr) hst
        obtain ⟨g1, g2⟩ := ih S2 S1 f2 (addrOK_mono E (by omega) hadr) hs
        exact ⟨extends_trans f1 g1, g2.trans f4⟩
    · cases hs

theorem run_count (E : Env) : ∀ (ops : List Op) (S S1 : Sys), Tidy E S.mp.heap →
    AddrOK E (S.mp.heap.count + ops.length) → run E S ops = .ok S1 →
    Tidy E S1.mp.heap ∧ S1.mp.heap.count ≤ S.mp.heap.count + ops.length := by
  intro ops
  induction ops with
  | nil =>
    intro S S1 ht _ hs
    simp only [run, Except.ok.injEq] at hs
    rw [← hs]
    exact ⟨ht, by simp⟩
  | cons op ops ih =>
    intro S S1 ht hadr hs
    simp only [List.length_cons] at hadr ⊢
    unfold run at hs
    split at hs
    · cases hst : step E S op with
      | error e => rw [hst] at hs; cases hs
      | ok S2 =>
        rw [hst] at hs
        simp only [] at hs
        obtain ⟨f1, f2, f3, f4⟩ := step_frame E S S2 op ht (addrOK_mono E (by omega) hadr) hst
        obtain ⟨g1, g2⟩ := ih S2 S1 f2 (addrOK_mono E (by omega) hadr) hs
        exact ⟨g1, by omega⟩
    · cases hs

theorem extends_inChain {h H : Heap} (e : Extends h H) (head a : Nat) (hin : InChain h head a) :
    InChain H head a := by
  induction hin with
  | head => exact InChain.head
  | next a n o _ ho hn ih =>
    obtain ⟨o1, h1, h2⟩ := e.2 a o ho
    exact InChain.next a n o1 ih h1 (h2 n hn)

/-- C6: the chain is append-only. For every history `ops` on a fresh pool and every
continuation `ops2` (create, destroy and stores into objects, in any number),
whenever the free store hands out pairwise distinct addresses: the state after
`ops ++ ops2` has at least as many arena objects as the state after `ops`, the
same head, every arena that was reachable from the head is still reachable, and
every `next` link that was set has the same value (it is neither changed nor
cleared). Moreover a `destroy` leaves every arena's `next` link, set or not,
exactly as it was and neither adds nor removes an arena. -/
theorem chain_is_append_only (E : Env) (c : Nat) (ops ops2 : List Op) (S S2 : Sys)
    (hadr : AddrOK E (ops.length + ops2.length + 1)) (h1 : exec E c ops = .ok S)
    (h2 : exec E c (ops ++ ops2) = .ok S2) :
    AppendOnly S S2 ∧
    ∀ p S3, step E S2 (.destroy p) = .ok S3 →
      Keeps S2.mp.heap S3.mp.heap ∧ S3.mp.pool_allocator_ = S2.mp.pool_allocator_ := by
  refine ⟨?_, fun p S3 hs => destroy_keeps E S2 S3 p hs⟩
  rw [exec_append, h1] at h2
  simp only [Except.bind] at h2
  have hS : Tidy E S.mp.heap ∧ S.mp.heap.count ≤ ops.length + 1 := by
    unfold exec at h1
    cases hb : boot E c with
    | error e => rw [hb] at h1; cases h1
    | ok S0 =>
      rw [hb] at h1
      simp only [] at h1
      obtain ⟨t0, c0⟩ := boot_tidy E c S0 hb
      obtain ⟨t1, c1⟩ := run_count E ops S0 S t0
        (by rw [c0]; exact addrOK_mono E (by omega) hadr) h1
      exact ⟨t1, by omega⟩
  obtain ⟨f1, f2⟩ := run_frame E ops2 S S2 hS.1 (addrOK_mono E (by omega) hadr) h2
  refine ⟨f1.1, f2, ?_, ?_⟩
  · intro a hin
    rw [f2]
    exact extends_inChain f1 _ a hin
  · intro a o n ho hn
    obtain ⟨o2, g1, g2⟩ := f1.2 a o ho
    exact ⟨o2, g1, g2 n hn⟩

/-- Witness for `chain_is_append_only`: ten creates fill the head arena; two more
creates and a destroy follow. -/
theorem chain_is_append_only_witness :
    (AddrOK demoEnv ((creates 10).length + [Op.create, Op.create, Op.destroy ⟨4096, 12⟩].length + 1) ∧
      exec demoEnv 10 (creates 10) = .ok (stateOf (exec demoEnv 10 (creates 10))) ∧
      exec demoEnv 10 (creates 10 ++ [Op.create, Op.create, Op.destroy ⟨4096, 12⟩]) =
        .ok (stateOf (exec demoEnv 10
          (creates 10 ++ [Op.create, Op.create, Op.destroy ⟨4096, 12⟩])))) ∧
    (AppendOnly (stateOf (exec demoEnv 10 (creates 10)))
        (stateOf (exec demoEnv 10 (creates 10 ++ [Op.create, Op.create, Op.destroy ⟨4096, 12⟩]))) ∧
      ∀ p S3, step demoEnv (stateOf (exec demoEnv 10
          (creates 10 ++ [Op.create, Op.create, Op.destroy ⟨4096, 12⟩]))) (.destroy p) = .ok S3 →
        Keeps (stateOf (exec demoEnv 10
          (creates 10 ++ [Op.create, Op.create, Op.destroy ⟨4096, 12⟩]))).mp.heap S3.mp.heap ∧
        S3.mp.pool_allocator_ = (stateOf (exec demoEnv 10
          (creates 10 ++ [Op.create, Op.create, Op.destroy ⟨4096, 12⟩]))).mp.pool_allocator_) :=
  ⟨⟨by decide, rfl, rfl⟩,
    chain_is_append_only demoEnv 10 (creates 10) [Op.create, Op.create, Op.destroy ⟨4096, 12⟩]
      _ _ (by decide) rfl rfl⟩

/-! ## `Allocate` always produces a slot -/

theorem inv_alwaysServes (E : Env) (c : Nat) (S : Sys) (hinv : Inv E c S) (hc0 : 0 < c)
    (hc : c < 65536) (hfit : Fits E c) (hadr : AddrOK E (S.mp.heap.count + 1)) :
    AlwaysServes E c S := by
  constructor
  · obtain ⟨k0, i0, H, hal, _, _⟩ := Allocate_spec E c S.mp.heap hinv.chain hc0 hc hfit hadr
    rw [hinv.head]
    exact ⟨H, handle E k0 i0, hal⟩
  · intro k hk hpos
    obtain ⟨o, b, ho, hok, _⟩ := hinv.chain.arenas k hk
    rw [freeOf_eq _ _ o ho, hok.free_eq] at hpos
    obtain ⟨i, hi, hz⟩ := freeSlots_pos E b.bytes c hpos
    exact ⟨i, hi, by rw [byte_eq _ _ o b ho hok.pool_eq]; exact hz⟩

/-- Within the `int` range the property holds: in every valid sequential history on a pool of capacity
`1 ≤ c ≤ 65535` whose arena buffer size `8 + c * (sizeof(T) + 4)` does not exceed
`2^31 - 1` (the free store supplying a fresh address for every new arena),
`Allocate` never returns a null pointer, and an arena whose counter is positive
always contains a slot whose flag is `0`. -/
theorem allocate_never_returns_null (E : Env) (c : Nat) (ops : List Op) (hc0 : 0 < c)
    (hc : c < 65536) (hfit : Fits E c) (hadr : AddrOK E (ops.length + 2))
    (hv : Valid E c ops) : ∃ S, exec E c ops = .ok S ∧ AlwaysServes E c S := by
  obtain ⟨S, h1, h2, _, h4⟩ := exec_inv E c ops hc0 hc hfit (addrOK_mono E (by omega) hadr) hv
  exact ⟨S, h1, inv_alwaysServes E c S h2 hc0 hc hfit (addrOK_mono E (by omega) hadr)⟩

/-- Witness for `allocate_never_returns_null` on `demoHistory`. -/
theorem allocate_never_returns_null_witness :
    (0 < 10 ∧ 10 < 65536 ∧ Fits demoEnv 10 ∧ AddrOK demoEnv (demoHistory.length + 2) ∧
      Valid demoEnv 10 demoHistory) ∧
    ∃ S, exec demoEnv 10 demoHistory = .ok S ∧ AlwaysServes demoEnv 10 S :=
  ⟨by decide, allocate_never_returns_null demoEnv 10 demoHistory (by decide) (by decide)
    (by decide) (by decide) (by decide)⟩

/-- C7 states that `Allocate` never returns null: an arena on which the walk stops has a
free slot and the slot scan finds it.
The code breaks this property, because `AllocateBlock` keeps its scan
position in an `int` whereas `init` lays the same records out with a `size_t`
offset. With `sizeof(T) = 2^32 - 4` and capacity 2, after one
`create` the counter of the head arena is 1, the walk of `Allocate` stops on it,
and the slot scan returns a null pointer: converting `8 + 2^32` to `int` gives 8
again, so slot 0 is inspected twice and the free slot 1 never. -/
theorem allocate_null_counterexample :
    (exec wrapEnv 2 [.create]).bind (fun S =>
      (Allocate wrapEnv S.mp.heap S.mp.pool_allocator_).map (fun r =>
        (r.2, S.mp.heap.freeOf (wrapEnv.addr 0)))) = .ok (none, 1) ∧
    ¬ ∃ S, exec wrapEnv 2 [.create] = .ok S ∧ AlwaysServes wrapEnv 2 S := by
  have hobs : (exec wrapEnv 2 [.create]).bind (fun S =>
      (Allocate wrapEnv S.mp.heap S.mp.pool_allocator_).map (fun r =>
        (r.2, S.mp.heap.freeOf (wrapEnv.addr 0)))) = .ok (none, 1) := by decide
  refine ⟨hobs, ?_⟩
  rintro ⟨S, hS, ⟨H, p, hal⟩, _⟩
  rw [hS] at hobs
  simp only [Except.bind, hal, Except.map, Except.ok.injEq, Prod.mk.injEq] at hobs
  simp at hobs

/-! ## Teardown -/

/-- C8: the destructor `~MemoryPool()` has an empty body, so it releases no arena.
After twelve creates on a pool of capacity 10 (two arenas, at 4096 and 5120)
both arena objects are still allocated after the destructor has run, whereas
`delete` of the head arena, which the destructor never executes, would have
released both. -/
theorem pool_destructor_releases_nothing :
    (∀ (m : MemoryPool) (a : Nat), m.dtor.objs a = m.heap.objs a) ∧
    (exec demoEnv 10 (creates 12)).map (fun S =>
      ((S.mp.dtor.objs 4096).isSome, (S.mp.dtor.objs 5120).isSome, S.mp.dtor.count)) =
      .ok (true, true, 2) ∧
    (exec demoEnv 10 (creates 12)).bind (fun S =>
      (HeapPool.delete 3 S.mp.heap S.mp.pool_allocator_).map (fun h =>
        ((h.objs 4096).isSome, (h.objs 5120).isSome))) = .ok (false, false) := by
  refine ⟨fun _ _ => rfl, ?_, ?_⟩ <;> decide

/-! ## Construction -/

theorem sizeT_small (E : Env) (x : Nat) (h : x < 2 ^ 32) : E.sizeT x = x :=
  sizeT_of_lt E x (lt_of_lt_of_le h (sizeMod_ge E))

/-- The constructor body yields the result of `HeapPool.ctor` in every free
store: `HeapPool.ctorRun` only adds the free store that is left behind. -/
theorem ctor_of_run (E : Env) (h : Heap) (this : Nat) :
    HeapPool.ctor E h this = (HeapPool.ctorRun E h this).result := by
  unfold HeapPool.ctor HeapPool.ctorRun
  cases h.objs this with
  | none => rfl
  | some o =>
    simp only []
    split
    · simp only [bind, Except.bind]
      cases init E (h.count - 1) this o <;> rfl
    · rfl

theorem pool_ctor_of_run (E : Env) (n : Nat) :
    MemoryPool.ctor E n =
      (MemoryPool.ctorRun E n).result.map (fun h => { heap := h, pool_allocator_ := E.addr 0 }) := by
  unfold MemoryPool.ctor MemoryPool.ctorRun HeapPool.newRun HeapPool.new
  simp only [bind, Except.bind, ctor_of_run]
  cases (HeapPool.ctorRun E (HeapPool.alloc E Heap.empty n).1
    (HeapPool.alloc E Heap.empty n).2).result <;> rfl

theorem rejects_zero (E : Env) : RejectsZero E := by
  have hrun : MemoryPool.ctorRun E 0 = .rejected (HeapPool.alloc E Heap.empty 0).1 := by
    simp [MemoryPool.ctorRun, HeapPool.newRun, HeapPool.ctorRun, HeapPool.alloc, Heap.empty]
  refine ⟨?_, _, hrun, rfl, ?_, ?_, ?_⟩
  · rw [pool_ctor_of_run, hrun]
    rfl
  · simp [HeapPool.alloc, Heap.empty]
  · intro a hne
    simp [HeapPool.alloc, Heap.empty, hne]
  · intro a o ho
    by_cases hne : a = E.addr 0
    · subst hne
      simp [HeapPool.alloc, Heap.empty] at ho
      rw [← ho]
    · simp [HeapPool.alloc, Heap.empty, hne] at ho

/-- C9 (amended): constructing a pool with capacity 0 fails at the assertion in
the body of the arena constructor; in the free store at the moment of the
failure the arena object has been allocated and its members initialised, but it
has no byte buffer, and no other arena object and no byte buffer exists.
Construction with a capacity `c` in `1..65535` succeeds whenever the buffer size
`8 + c * (sizeof(T) + 4)` does not overflow `size_t` and the free store supplies
the storage (in this development it always does). -/
theorem zero_capacity_fails_at_assertion (E : Env) (c : Nat) (hc0 : 0 < c) (hc : c < 65536)
    (hfit : FitsSize E c) (ha : E.addr 0 < 2 ^ E.ptrBits) :
    RejectsZero E ∧
    (∀ h this, HeapPool.ctor E h this = (HeapPool.ctorRun E h this).result) ∧
    (∀ n, MemoryPool.ctor E n =
      (MemoryPool.ctorRun E n).result.map (fun h => { heap := h, pool_allocator_ := E.addr 0 })) ∧
    CtorSucceeds E c ∧ ∃ h, MemoryPool.ctorRun E c = .built h := by
  obtain ⟨hN, o1, bN, hnew, _⟩ := new_spec E c Heap.empty hc0 hc hfit ha
  have hok : MemoryPool.ctor E c = .ok { heap := hN, pool_allocator_ := E.addr 0 } := by
    unfold MemoryPool.ctor
    simp only [bind, Except.bind, hnew]
    rfl
  refine ⟨rejects_zero E, ctor_of_run E, pool_ctor_of_run E, ⟨_, hok⟩, ?_⟩
  rw [pool_ctor_of_run] at hok
  cases hrun : MemoryPool.ctorRun E c with
  | built h => exact ⟨h, rfl⟩
  | rejected h => rw [hrun] at hok; cases hok
  | fault e => rw [hrun] at hok; cases hok

/-- Witness for `zero_capacity_fails_at_assertion`: the platform of `main.cc` and
the default capacity 10. -/
theorem zero_capacity_fails_at_assertion_witness :
    (0 < 10 ∧ 10 < 65536 ∧ FitsSize demoEnv 10 ∧ demoEnv.addr 0 < 2 ^ demoEnv.ptrBits) ∧
    (RejectsZero demoEnv ∧
    (∀ h this, HeapPool.ctor demoEnv h this = (HeapPool.ctorRun demoEnv h this).result) ∧
    (∀ n, MemoryPool.ctor demoEnv n =
      (MemoryPool.ctorRun demoEnv n).result.map
        (fun h => { heap := h, pool_allocator_ := demoEnv.addr 0 })) ∧
    CtorSucceeds demoEnv 10 ∧ ∃ h, MemoryPool.ctorRun demoEnv 10 = .built h) :=
  ⟨by decide, zero_capacity_fails_at_assertion demoEnv 10 (by decide) (by decide) (by decide)
    (by decide)⟩

/-- C9 fails as stated in two ways. The error for capacity 0 is raised inside the
arena constructor: in the free store at the moment of the failure the arena
object (at address 4096 here) is allocated, without a byte buffer. And on a
32-bit platform with `sizeof(T) = 65533` the requested buffer size
`8 + 65535 * 65537` wraps to 7, so that construction with capacity 65535 writes
past the end of the buffer instead of succeeding. -/
theorem zero_capacity_counterexample :
    (∃ hf, MemoryPool.ctorRun demoEnv 0 = .rejected hf ∧
      (hf.objs 4096).map (fun o => (o.pool.isSome, o.capacity)) = some (false, 0)) ∧
    ¬ FailsBeforeArena demoEnv ∧
    (MemoryPool.ctor narrowEnv 65535).map (fun m => m.pool_allocator_) = .error .outOfBounds ∧
    ¬ CtorSucceeds narrowEnv 65535 := by
  have hrun : MemoryPool.ctorRun demoEnv 0 =
      .rejected (HeapPool.alloc demoEnv Heap.empty 0).1 := rfl
  have h1 : ((HeapPool.alloc demoEnv Heap.empty 0).1.objs 4096).map
      (fun o => (o.pool.isSome, o.capacity)) = some (false, 0) := by decide
  have h2 : (MemoryPool.ctor narrowEnv 65535).map (fun m => m.pool_allocator_) =
      .error .outOfBounds := by decide
  refine ⟨⟨_, hrun, h1⟩, ?_, h2, ?_⟩
  · rintro ⟨hf, hfr, hnone⟩
    rw [hrun] at hfr
    cases hfr
    rw [hnone 4096] at h1
    cases h1
  · rintro ⟨m, hm⟩
    rw [hm] at h2
    simp [Except.map] at h2

theorem slotPos_eq (E : Env) (i : Nat) : slotPos E i = 8 + i * (E.objSize + 4) := rfl

/-- C10 (amended): for every capacity `c` in `1..65535` and object size `s` such
that `8 + c * (s + 4)` does not overflow `size_t`, and every arena address `a`
that is a pointer value, the arena constructed by `new ThisType(c)` has a buffer
of length `8 + c * (s + 4)`; bytes 0..7 are the big-endian encoding of `a` (when
`sizeof(void*) != 8`, bytes 0..3 are zero and bytes 4..7 hold the low 32 bits);
for every slot `i < c` the record at offset `8 + i * (s + 4)` is: flag byte 0,
reserved byte 0, then `i >> 8` and `i & 0xff`, followed by `s` payload bytes
inside the buffer, which `init` leaves as the free store delivered them; the
free counter is `c`, the capacity `c`, and there is no next arena. -/
theorem fresh_arena_layout (E : Env) (c : Nat) (h : Heap) (hc0 : 0 < c) (hc : c < 65536)
    (hfit : FitsSize E c) (ha : E.addr h.count < 2 ^ E.ptrBits) : FreshArena E c h := by
  obtain ⟨hN, o1, b, hnew, _, hobj, _, hok, hnext, hfree, hflags, hjunk⟩ :=
    new_spec E c h hc0 hc hfit ha
  refine ⟨hN, o1, hnew, hobj, b, hok.pool_eq, by rw [hok.len_eq, slotPos_eq], ?_, ?_, ?_, hfree,
    hok.cap_eq, hnext⟩
  · intro j hj
    exact hok.hdr j hj
  · intro h32
    have ha32 : E.addr h.count < 2 ^ 32 := by simpa [Env.ptrBits, h32] using ha
    obtain ⟨p0, p1, p2, p3⟩ := hdr32 _ ha32
    constructor
    · intro j hj
      rw [hok.hdr j (by omega)]
      interval_cases j
      · exact p0.symm
      · exact p1.symm
      · exact p2.symm
      · exact p3.symm
    · intro j _ hj8
      rw [hok.hdr j hj8, Nat.mod_eq_of_lt ha32]
      rfl
  · intro i hi
    have h1 := slotPos_lt E hi
    have hlen := hok.len_eq
    simp only [← slotPos_eq]
    refine ⟨(hflags i hi).1, (hflags i hi).2, ?_, ?_, by omega, hjunk i hi⟩
    · rw [hok.idxHi i hi, shr_eq_div]; rfl
    · rw [hok.idxLo i hi, and_ff]

/-- Witness for `fresh_arena_layout`: the head arena of a pool of capacity 10 on
the platform of `main.cc`. -/
theorem fresh_arena_layout_witness :
    (0 < 10 ∧ 10 < 65536 ∧ FitsSize demoEnv 10 ∧
      demoEnv.addr Heap.empty.count < 2 ^ demoEnv.ptrBits) ∧
    FreshArena demoEnv 10 Heap.empty :=
  ⟨by decide, fresh_arena_layout demoEnv 10 Heap.empty (by decide) (by decide) (by decide)
    (by decide)⟩

/-- C10 fails as stated: not for every object size. On a 32-bit platform with
`sizeof(T) = 65533` and capacity 65535 the size expression of `init` evaluates to
`(8 + 65535 * 65537) mod 2^32 = 7`; on a 64-bit platform with
`sizeof(T) = 2^63 - 4` and capacity 2 it evaluates to `(8 + 2 * 2^63) mod 2^64 = 8`.
In both cases `init` writes past the end of that buffer and no arena with the
stated layout results. -/
theorem fresh_arena_counterexample :
    narrowEnv.sizeT (pool_header_size +
      narrowEnv.sizeT (narrowEnv.sizeT (block_header_size + narrowEnv.objSize) * 65535)) = 7 ∧
    (HeapPool.new narrowEnv Heap.empty 65535).map (fun r => r.2) = .error .outOfBounds ∧
    ¬ FreshArena narrowEnv 65535 Heap.empty ∧
    giantEnv.sizeT (pool_header_size +
      giantEnv.sizeT (giantEnv.sizeT (block_header_size + giantEnv.objSize) * 2)) = 8 ∧
    (HeapPool.new giantEnv Heap.empty 2).map (fun r => r.2) = .error .outOfBounds ∧
    ¬ FreshArena giantEnv 2 Heap.empty := by
  have h1 : (HeapPool.new narrowEnv Heap.empty 65535).map (fun r => r.2) =
      .error .outOfBounds := by decide
  have h2 : (HeapPool.new giantEnv Heap.empty 2).map (fun r => r.2) = .error .outOfBounds := by
    decide
  refine ⟨by decide, h1, ?_, by decide, h2, ?_⟩
  · rintro ⟨hN, o, hnew, _⟩
    rw [hnew] at h1
    simp [Except.map] at h1
  · rintro ⟨hN, o, hnew, _⟩
    rw [hnew] at h2
    simp [Except.map] at h2

/-! ## The slot scan of one arena -/

/-- Within the `int` range the property holds: for every arena state of capacity `c ≤ 65535` whose buffer has
the length `8 + c * (sizeof(T) + 4) ≤ 2^31 - 1`, whatever its bytes are,
`AllocateBlock` scans the records from index 0 upward, sets to 1 the flag of the
first record whose flag is 0 and returns that record's payload offset
`8 + i * (s + 4) + 4`, changing no other byte; it returns null if and only if no
record has flag 0, and in that case leaves the whole buffer unchanged. -/
theorem allocate_block_takes_first_free (E : Env) (c : Nat) (o : HeapPool) (b : Buffer)
    (hc : c < 65536) (hfit : Fits E c) (hpool : o.pool = some b) (hcap : o.capacity = c)
    (hlen : b.len = slotPos E c) : ScanSpec E c o b := by
  have hfound : ∀ i0, i0 < c → b.bytes (slotPos E i0) = 0 →
      (∀ i, i < i0 → b.bytes (slotPos E i) ≠ 0) →
      ∃ o1 b1, AllocateBlock E o = .ok (o1, some (8 + i0 * (E.objSize + 4) + 4)) ∧
        o1.pool = some b1 ∧ b1.len = b.len ∧ b1.bytes (slotPos E i0) = 1 ∧
        (∀ j, j ≠ slotPos E i0 → b1.bytes j = b.bytes j) ∧
        o1.next = o.next ∧ o1.free = o.free ∧ o1.capacity = o.capacity := by
    intro i0 hi0 hz hmin
    refine ⟨_, b.set (slotPos E i0) 1,
      AllocateBlock_found E c o b hc hfit hpool hcap hlen i0 hi0 hz hmin, rfl, rfl, ?_, ?_, rfl,
      rfl, rfl⟩
    · rw [set_bytes, if_pos rfl]
    · intro j hj
      rw [set_bytes, if_neg hj]
  refine ⟨hfound, ?_, ?_⟩
  · intro hfull
    exact ⟨_, AllocateBlock_none E c o b hc hfit hpool hcap hlen hfull, rfl, rfl, rfl, rfl⟩
  · intro o1 hnone i hi hz
    obtain ⟨i0, hi0, hz0, hmin⟩ := least_free E b.bytes c ⟨i, hi, hz⟩
    obtain ⟨o2, b2, h2, _⟩ := hfound i0 hi0 hz0 hmin
    rw [hnone] at h2
    simp at h2

/-- Witness for `allocate_block_takes_first_free`: the head arena after the
history `demoHistory`, whose slot 0 has been released. -/
theorem allocate_block_takes_first_free_witness :
    (10 < 65536 ∧ Fits demoEnv 10 ∧
      (arenaAt (stateOf (exec demoEnv 10 demoHistory)).mp.heap 4096).pool =
        some (bufOf (arenaAt (stateOf (exec demoEnv 10 demoHistory)).mp.heap 4096)) ∧
      (arenaAt (stateOf (exec demoEnv 10 demoHistory)).mp.heap 4096).capacity = 10 ∧
      (bufOf (arenaAt (stateOf (exec demoEnv 10 demoHistory)).mp.heap 4096)).len =
        slotPos demoEnv 10) ∧
    ScanSpec demoEnv 10 (arenaAt (stateOf (exec demoEnv 10 demoHistory)).mp.heap 4096)
      (bufOf (arenaAt (stateOf (exec demoEnv 10 demoHistory)).mp.heap 4096)) :=
  ⟨⟨by decide, by decide, rfl, by decide, by decide⟩,
    allocate_block_takes_first_free demoEnv 10 _ _ (by decide) (by decide) rfl (by decide)
      (by decide)⟩

/-- C13 states that `AllocateBlock` takes the first record whose flag is 0 and returns
null only if no record has flag 0.
The code breaks this property, because `AllocateBlock` keeps its scan
position in an `int` whereas `init` lays the same records out with a `size_t`
offset. On the head arena left by one `create` with
`sizeof(T) = 2^32 - 4` and capacity 2, record 0 has flag 1 and record 1 has flag
0, yet `AllocateBlock` returns null: its `int` position is 8 again after the
first step, so record 0 is inspected twice. -/
theorem allocate_block_counterexample :
    (bufOf (arenaAt (stateOf (exec wrapEnv 2 [.create])).mp.heap 4096)).bytes
      (slotPos wrapEnv 0) = 1 ∧
    (bufOf (arenaAt (stateOf (exec wrapEnv 2 [.create])).mp.heap 4096)).bytes
      (slotPos wrapEnv 1) = 0 ∧
    (AllocateBlock wrapEnv (arenaAt (stateOf (exec wrapEnv 2 [.create])).mp.heap 4096)).map
      (fun r => r.2) = .ok none ∧
    ¬ ScanSpec wrapEnv 2 (arenaAt (stateOf (exec wrapEnv 2 [.create])).mp.heap 4096)
      (bufOf (arenaAt (stateOf (exec wrapEnv 2 [.create])).mp.heap 4096)) := by
  have h0 : (bufOf (arenaAt (stateOf (exec wrapEnv 2 [.create])).mp.heap 4096)).bytes
      (slotPos wrapEnv 0) = 1 := by decide
  have h1 : (bufOf (arenaAt (stateOf (exec wrapEnv 2 [.create])).mp.heap 4096)).bytes
      (slotPos wrapEnv 1) = 0 := by decide
  have h2 : (AllocateBlock wrapEnv
      (arenaAt (stateOf (exec wrapEnv 2 [.create])).mp.heap 4096)).map (fun r => r.2) =
      .ok none := by decide
  refine ⟨h0, h1, h2, ?_⟩
  rintro ⟨hfound, _, _⟩
  obtain ⟨o1, b1, hal, _⟩ := hfound 1 (by omega) h1 (fun i hi => by
    have : i = 0 := by omega
    subst this
    rw [h0]; omega)
  rw [hal] at h2
  simp [Except.map] at h2

/-! ## The frame of `Free` -/

theorem inv_freeFrames (E : Env) (c : Nat) (S : Sys) (hinv : Inv E c S) (hc : c < 65536)
    (hfit : FitsSize E c) (hadr : AddrOK E S.mp.heap.count) : FreeFrames E c S := by
  intro p hp
  obtain ⟨k, i, hk, hi, he, hb⟩ := (hinv.live_iff p).1 hp
  obtain ⟨o, b, ho, hok, _⟩ := hinv.chain.arenas k hk
  have hfree := Free_spec E c S.mp.heap k i o b hc hfit (hadr.1 k hk) ho hok hi
  have hb1 : b.bytes (slotPos E i) = 1 := by
    rw [← byte_eq S.mp.heap _ o b ho hok.pool_eq]; exact hb
  have hrel := arena_release E c (E.addr k) o b hc hok i hi hb1
  have hcount : (o.free + 1) % 65536 = o.free + 1 := by
    have h1 : (o.free + 1) % 65536 = freeSlots E (b.set (slotPos E i) 0).bytes c := hrel.free_eq
    have h2 := freeSlots_release E b.bytes (b.set (slotPos E i) 0).bytes i (by omega)
      (by simp [set_bytes])
      (fun i1 hi1 => by
        simp only [set_bytes]
        rw [if_neg (fun h3 => hi1 (slotPos_inj E h3))]) c hi
    rw [h1, h2, hok.free_eq]
  subst he
  refine ⟨k, i, _, hk, hi, rfl, hfree, rfl, fun a ha => set_objs_other _ _ _ _ ha, o, _, b,
    b.set (slotPos E i) 0, ho, set_objs_same _ _ _, hok.pool_eq, rfl, rfl, hb1, ?_, ?_, hcount,
    rfl, rfl⟩
  · rw [set_bytes, if_pos rfl]
  · intro j hj
    rw [set_bytes, if_neg hj]

/-- Within the `int` range the property holds: in every valid sequential history on a pool of capacity
`1 ≤ c ≤ 65535` whose arena buffer size `8 + c * (sizeof(T) + 4)` does not exceed
`2^31 - 1`, for every live handle `Free(handle)` changes exactly two things in
the owning arena: the occupancy flag of that handle's slot goes from 1 to 0 and
the arena's free counter increases by 1; the arena header, every slot's reserved
byte and index bytes, every payload byte (the freed slot's included), every
other slot's flag, the `next` link, and every other arena are unchanged. -/
theorem free_changes_flag_and_counter_only (E : Env) (c : Nat) (ops : List Op) (hc0 : 0 < c)
    (hc : c < 65536) (hfit : Fits E c) (hadr : AddrOK E (ops.length + 1))
    (hv : Valid E c ops) : ∃ S, exec E c ops = .ok S ∧ FreeFrames E c S := by
  obtain ⟨S, h1, h2, _, h4⟩ := exec_inv E c ops hc0 hc hfit hadr hv
  exact ⟨S, h1, inv_freeFrames E c S h2 hc (fits_size E c hfit) (addrOK_mono E h4 hadr)⟩

/-- Witness for `free_changes_flag_and_counter_only` on `demoHistory`. -/
theorem free_changes_flag_and_counter_only_witness :
    (0 < 10 ∧ 10 < 65536 ∧ Fits demoEnv 10 ∧ AddrOK demoEnv (demoHistory.length + 1) ∧
      Valid demoEnv 10 demoHistory) ∧
    ∃ S, exec demoEnv 10 demoHistory = .ok S ∧ FreeFrames demoEnv 10 S :=
  ⟨by decide, free_changes_flag_and_counter_only demoEnv 10 demoHistory (by decide) (by decide)
    (by decide) (by decide) (by decide)⟩

/-- C14 states that `Free` of a handle returned by `create` clears the flag of its slot,
adds 1 to the counter of its arena and changes nothing else.
The code breaks this property, because `AllocateBlock` keeps its scan
position in an `int` whereas `init` lays the same records out with a `size_t`
offset. With `sizeof(T) = 2^32` and capacity 2 the second
`create` returns offset 16 of the head arena, inside the first object, which is
the payload of no slot. For this handle `GetBlockPool` decodes an address at
which no arena lives, and `Free` calls `FreeBlock` on that address: the call
goes wrong instead of releasing a slot. -/
theorem free_frame_counterexample :
    (exec hugeEnv 2 [.create, .create]).map (fun S => S.live) =
      .ok [⟨4096, 16⟩, ⟨4096, 12⟩] ∧
    (exec hugeEnv 2 [.create, .create]).bind (fun S =>
      (Free hugeEnv S.mp.heap ⟨4096, 16⟩).map (fun H => H.count)) = .error .wildPointer ∧
    ¬ ∃ S, exec hugeEnv 2 [.create, .create] = .ok S ∧ FreeFrames hugeEnv 2 S := by
  have hlive : (exec hugeEnv 2 [.create, .create]).map (fun S => S.live) =
      .ok [⟨4096, 16⟩, ⟨4096, 12⟩] := by decide
  have hfree : (exec hugeEnv 2 [.create, .create]).bind (fun S =>
      (Free hugeEnv S.mp.heap ⟨4096, 16⟩).map (fun H => H.count)) = .error .wildPointer := by
    decide
  refine ⟨hlive, hfree, ?_⟩
  rintro ⟨S, hS, hall⟩
  rw [hS] at hlive hfree
  simp only [Except.map, Except.ok.injEq] at hlive
  obtain ⟨k, i, H, _, _, _, hok, _⟩ := hall ⟨4096, 16⟩ (by rw [hlive]; simp)
  simp only [Except.bind, hok, Except.map] at hfree
  cases hfree

/-! ## Counter and flags -/

/-- Within the `int` range the property holds: after arena construction and after every completed create or
destroy in a valid sequential history on a pool of capacity `1 ≤ c ≤ 65535` whose
arena buffer size `8 + c * (sizeof(T) + 4)` does not exceed `2^31 - 1`, for every
arena of the chain the free counter equals the number of slot records of that
arena whose occupancy flag is 0, and every occupancy flag is either 0 or 1. -/
theorem counter_equals_number_of_free_flags (E : Env) (c : Nat) (ops : List Op) (hc0 : 0 < c)
    (hc : c < 65536) (hfit : Fits E c) (hadr : AddrOK E (ops.length + 1))
    (hv : Valid E c ops) : ∃ S, exec E c ops = .ok S ∧ CounterMatches E c S := by
  obtain ⟨S, h1, h2, _, _⟩ := exec_inv E c ops hc0 hc hfit hadr hv
  refine ⟨S, h1, fun k hk => ?_⟩
  obtain ⟨o, b, ho, hok, _⟩ := h2.chain.arenas k hk
  exact ⟨o, b, ho, hok.pool_eq, hok.free_eq, hok.flag01⟩

/-- Witness for `counter_equals_number_of_free_flags` on `demoHistory`. -/
theorem counter_equals_number_of_free_flags_witness :
    (0 < 10 ∧ 10 < 65536 ∧ Fits demoEnv 10 ∧ AddrOK demoEnv (demoHistory.length + 1) ∧
      Valid demoEnv 10 demoHistory) ∧
    ∃ S, exec demoEnv 10 demoHistory = .ok S ∧ CounterMatches demoEnv 10 S :=
  ⟨by decide, counter_equals_number_of_free_flags demoEnv 10 demoHistory (by decide)
    (by decide) (by decide) (by decide) (by decide)⟩

/-- C18 states that between calls the counter of every arena equals the number of its slot
records whose flag is 0, and every flag is 0 or 1.
The code breaks this property, because `AllocateBlock` keeps its scan
position in an `int` whereas `init` lays the same records out with a `size_t`
offset. With `sizeof(T) = 2^32` and capacity 2, after two creates
the counter of the head arena is 0 although the flag of its slot 1 is still 0
(one free record): the second `create` was served from offset 12, which is not a
slot record, because the `int` scan position of `AllocateBlock` advanced by 4. -/
theorem counter_flags_counterexample :
    (exec hugeEnv 2 [.create, .create]).map (fun S =>
      (S.mp.heap.count, S.mp.heap.freeOf 4096,
        freeSlots hugeEnv (bufOf (arenaAt S.mp.heap 4096)).bytes 2)) = .ok (1, 0, 1) ∧
    ¬ ∃ S, exec hugeEnv 2 [.create, .create] = .ok S ∧ CounterMatches hugeEnv 2 S := by
  have hobs : (exec hugeEnv 2 [.create, .create]).map (fun S =>
      (S.mp.heap.count, S.mp.heap.freeOf 4096,
        freeSlots hugeEnv (bufOf (arenaAt S.mp.heap 4096)).bytes 2)) = .ok (1, 0, 1) := by
    decide
  refine ⟨hobs, ?_⟩
  rintro ⟨S, hS, hall⟩
  rw [hS] at hobs
  simp only [Except.map, Except.ok.injEq, Prod.mk.injEq] at hobs
  obtain ⟨o, b, ho, hb, hfree, _⟩ := hall 0 (by omega)
  have ho' : S.mp.heap.objs 4096 = some o := ho
  have e1 : S.mp.heap.freeOf 4096 = o.free := freeOf_eq _ _ o ho'
  have e2 : bufOf (arenaAt S.mp.heap 4096) = b := by simp [arenaAt, ho', bufOf, hb]
  rw [e1, e2] at hobs
  omega

/-! ## Repeated destroy -/

/-- C19: a repeated destroy of the same handle is not detected and corrupts
admission. On a pool of capacity 1 (platform of `main.cc`), with `h = (4096, 12)`
the handle of the first create: the history `create; destroy h; destroy h` runs
without any call being rejected and leaves the counter of the only arena at 2,
above its capacity 1 and above its number of free slots 1; the next `create`
returns `h` again and leaves counter 1 with no free slot; and the `Allocate` of a
further `create` stops its walk on the head arena (counter 1 > 0), finds no slot
with flag 0, and returns null without growing the chain. -/
theorem double_destroy_corrupts_admission :
    (execRaw demoEnv 1 [.create]).map (fun S => S.live) = .ok [⟨4096, 12⟩] ∧
    (execRaw demoEnv 1 [.create, .destroy ⟨4096, 12⟩, .destroy ⟨4096, 12⟩]).map (fun S =>
      (S.mp.heap.count, S.mp.heap.freeOf 4096, (arenaAt S.mp.heap 4096).capacity,
        freeSlots demoEnv (bufOf (arenaAt S.mp.heap 4096)).bytes 1)) = .ok (1, 2, 1, 1) ∧
    (execRaw demoEnv 1 [.create, .destroy ⟨4096, 12⟩, .destroy ⟨4096, 12⟩, .create]).map
      (fun S => (S.live, S.mp.heap.count, S.mp.heap.freeOf 4096,
        freeSlots demoEnv (bufOf (arenaAt S.mp.heap 4096)).bytes 1)) =
      .ok ([⟨4096, 12⟩], 1, 1, 0) ∧
    (execRaw demoEnv 1 [.create, .destroy ⟨4096, 12⟩, .destroy ⟨4096, 12⟩, .create]).bind
      (fun S => (allocateWalk demoEnv S.mp.pool_allocator_ (S.mp.heap.count + 2) S.mp.heap
        (some S.mp.pool_allocator_)).map (fun r => (r.2, r.1.freeOf 4096))) =
      .ok (some 4096, 0) ∧
    (execRaw demoEnv 1 [.create, .destroy ⟨4096, 12⟩, .destroy ⟨4096, 12⟩, .create]).bind
      (fun S => (AllocateBlock demoEnv (arenaAt S.mp.heap 4096)).map (fun r => r.2)) =
      .ok none ∧
    (execRaw demoEnv 1 [.create, .destroy ⟨4096, 12⟩, .destroy ⟨4096, 12⟩, .create]).bind
      (fun S => (Allocate demoEnv S.mp.heap S.mp.pool_allocator_).map
        (fun r => (r.2, r.1.count, r.1.freeOf 4096))) = .ok (none, 1, 0) := by
  refine ⟨?_, ?_, ?_, ?_, ?_, ?_⟩ <;> decide

/-! ## Memory safety within the `int` range -/

theorem scanPos_eq (E : Env) (c : Nat) (hfit : Fits E c) :
    ∀ i, i ≤ c → scanPos E i = ((slotPos E i : Nat) : Int) := by
  intro i
  induction i with
  | zero => intro _; rw [slotPos_zero]; rfl
  | succ i ih =>
    intro hi
    show nextPos E (scanPos E i) = _
    rw [ih (by omega)]
    exact scan_next E c i hfit (by omega)

theorem FreeBlock_of_Free (E : Env) (c : Nat) (h : Heap) (k i : Nat) (o : HeapPool) (b : Buffer)
    (hc : c < 65536) (hfit : FitsSize E c) (ha : E.addr k < 2 ^ E.ptrBits)
    (ho : h.objs (E.addr k) = some o) (hok : ArenaOK E c (E.addr k) o b) (hi : i < c) :
    ∃ H1, FreeBlock h (E.addr k) (handle E k i) = .ok H1 := by
  have hfree := Free_spec E c h k i o b hc hfit ha ho hok hi
  unfold Free at hfree
  simp only [bind, Except.bind] at hfree
  rw [(GetBlockPool_spec E c h k i o b hc hfit ha ho hok hi).1] at hfree
  exact ⟨_, hfree⟩

/-- C20: for every capacity `c` in `1..65535` and object size `s` with
`8 + c * (s + 4) ≤ 2^31 - 1`, every buffer offset read or written by `init`, by
`AllocateBlock`, and (for a handle returned by `Allocate`) by `FreeBlock`,
`GetBlockIndex` and `GetBlockPool` lies inside the buffer of length
`8 + c * (s + 4)`; the signed 32-bit scan position in `AllocateBlock` equals
`8 + i * (s + 4)` at iteration `i` without overflow; and the base computed by
`GetBlockPool` is exactly offset 0 of the buffer. -/
theorem offsets_stay_inside_buffer (E : Env) (c : Nat) (hc0 : 0 < c) (hc : c < 65536)
    (hfit : Fits E c) : SafeOffsets E c := by
  have hfs := fits_size E c hfit
  have h31 : slotPos E c ≤ 2 ^ 31 - 1 := hfit
  refine ⟨?_, ?_, ⟨slotPos_ge E c, fun i hi => by have := slotPos_lt E hi; omega⟩, ?_, ?_, ?_⟩
  · intro i hi
    have := slotPos_mono E hi
    rw [scanPos_eq E c hfit i hi, ← slotPos_eq]
    exact ⟨rfl, by omega⟩
  · intro cap fuel i pos b flag hi hread hflag
    conv_lhs => unfold allocLoop
    rw [if_pos hi]
    simp only [bind, Except.bind, hread]
    rw [if_neg hflag]
    rfl
  · intro h ha
    obtain ⟨hN, o1, b, hnew, _, hobj, _, hok, _⟩ := new_spec E c h hc0 hc hfs ha
    exact ⟨hN, o1, b, hnew, hobj, hok.pool_eq, by rw [hok.len_eq, slotPos_eq]⟩
  · intro o b hpool hcap hlen
    by_cases hex : ∃ i, i < c ∧ b.bytes (slotPos E i) = 0
    · obtain ⟨i0, hi0, hz0, hmin⟩ := least_free E b.bytes c hex
      refine ⟨_, _, AllocateBlock_found E c o b hc hfit hpool hcap hlen i0 hi0 hz0 hmin, ?_⟩
      intro off hoff
      simp only [Option.some.injEq] at hoff
      have := slotPos_lt E hi0
      exact ⟨i0, hi0, hoff.symm, by omega⟩
    · refine ⟨_, _, AllocateBlock_none E c o b hc hfit hpool hcap hlen
        (fun i hi hz => hex ⟨i, hi, hz⟩), ?_⟩
      intro off hoff
      cases hoff
  · intro h hch hadr
    obtain ⟨k0, i0, H, hal, hchH, hp⟩ := Allocate_spec E c h hch hc0 hc hfit hadr
    have hcnt := allocPost_count E c _ _ _ _ hp
    obtain ⟨o, b, ho, hok, _⟩ := hchH.arenas k0 hp.arena_lt
    have ha : E.addr k0 < 2 ^ E.ptrBits := hadr.1 k0 (by have := hp.arena_lt; omega)
    have hg := GetBlockPool_spec E c H k0 i0 o b hc hfs ha ho hok hp.slot_lt
    exact ⟨H, k0, i0, hal, hp.arena_lt, hp.slot_lt,
      GetBlockIndex_spec E c H k0 i0 o b hc ho hok hp.slot_lt, hg.1, hg.2,
      FreeBlock_of_Free E c H k0 i0 o b hc hfs ha ho hok hp.slot_lt⟩

/-- Witness for `offsets_stay_inside_buffer`: the instantiation of `main.cc`. -/
theorem offsets_stay_inside_buffer_witness :
    (0 < 10 ∧ 10 < 65536 ∧ Fits demoEnv 10) ∧ SafeOffsets demoEnv 10 :=
  ⟨by decide, offsets_stay_inside_buffer demoEnv 10 (by decide) (by decide) (by decide)⟩

/-! ## The life cycle of managed objects -/

theorem handle_flag (E : Env) (h : Heap) (k i : Nat) :
    h.byte (handle E k i).base ((handle E k i).off - block_header_size) =
      h.byte (E.addr k) (slotPos E i) := by
  simp only [handle, Nat.add_sub_cancel]

theorem stepLog_create (E : Env) (S S1 : Sys) (log : List Event) (p : Ptr)
    (h : step E S .create = .ok S1) (hl : S1.live = p :: S.live) :
    stepLog E S log .create =
      .ok (S1, log ++ [Event.constructed p (S1.mp.heap.byte p.base (p.off - block_header_size))]) := by
  unfold step MemoryPool.Create at h
  unfold stepLog MemoryPool.CreateLog
  simp only [bind, Except.bind] at h ⊢
  cases hal : Allocate E S.mp.heap S.mp.pool_allocator_ with
  | error e => rw [hal] at h; cases h
  | ok r =>
    rw [hal] at h
    simp only [] at h ⊢
    cases hr : r.2 with
    | none => rw [hr] at h; cases h
    | some block =>
      rw [hr] at h
      simp only [Except.ok.injEq] at h
      subst h
      simp only [List.cons.injEq, and_true] at hl
      subst hl
      rfl

theorem stepLog_destroy (E : Env) (S S1 : Sys) (log : List Event) (p : Ptr)
    (h : step E S (.destroy p) = .ok S1) :
    stepLog E S log (.destroy p) =
      .ok (S1, log ++ [Event.destructed p (S.mp.heap.byte p.base (p.off - block_header_size))]) := by
  unfold step MemoryPool.Destroy at h
  unfold stepLog MemoryPool.DestroyLog
  simp only [bind, Except.bind] at h ⊢
  cases hf : Free E S.mp.heap p with
  | error e => rw [hf] at h; cases h
  | ok H =>
    rw [hf] at h
    simp only [Except.ok.injEq] at h
    subst h
    rfl

theorem stepLog_poke (E : Env) (S S1 : Sys) (log : List Event) (p : Ptr) (j v : Nat)
    (h : step E S (.poke p j v) = .ok S1) : stepLog E S log (.poke p j v) = .ok (S1, log) := by
  unfold stepLog
  simp only [bind, Except.bind, h]

theorem phaseOf_append (p : Ptr) (log ev : List Event) :
    phaseOf p (log ++ ev) = ev.foldl (track p) (phaseOf p log) := by
  unfold phaseOf
  rw [List.foldl_append]

theorem phase_create (q p : Ptr) (log : List Event) (live : List Ptr)
    (hph : phaseOf q log = some (if q ∈ live then Phase.alive else Phase.vacant))
    (hp : p ∉ live) :
    phaseOf q (log ++ [Event.constructed p 1]) =
      some (if q ∈ p :: live then Phase.alive else Phase.vacant) := by
  rw [phaseOf_append, hph]
  by_cases hqp : p = q
  · subst hqp
    simp [track, Event.ptr, hp, Phase.next]
  · have hqp2 : ¬ q = p := fun h => hqp h.symm
    simp [track, Event.ptr, hqp, hqp2]

theorem phase_destroy (q p : Ptr) (log : List Event) (live : List Ptr)
    (hph : phaseOf q log = some (if q ∈ live then Phase.alive else Phase.vacant))
    (hnd : live.Nodup) (hp : p ∈ live) :
    phaseOf q (log ++ [Event.destructed p 1]) =
      some (if q ∈ live.erase p then Phase.alive else Phase.vacant) := by
  rw [phaseOf_append, hph]
  by_cases hqp : p = q
  · subst hqp
    have : p ∉ live.erase p := fun h => ((hnd.mem_erase_iff).1 h).1 rfl
    simp [track, Event.ptr, hp, Phase.next, this]
  · have hqp2 : ¬ q = p := fun h => hqp h.symm
    have hm : q ∈ live.erase p ↔ q ∈ live := List.mem_erase_of_ne hqp2
    simp only [List.foldl, track, Event.ptr, if_neg hqp, hm]

/-- The flag in front of a live handle is 1. -/
theorem live_flag (E : Env) (c : Nat) (S : Sys) (hinv : Inv E c S) (p : Ptr) (hp : p ∈ S.live) :
    S.mp.heap.byte p.base (p.off - block_header_size) = 1 := by
  obtain ⟨k, i, _, _, rfl, hb⟩ := (hinv.live_iff p).1 hp
  rw [handle_flag]
  exact hb

theorem run_lifecycle (E : Env) (c : Nat) (hc0 : 0 < c) (hc : c < 65536) (hfit : Fits E c) :
    ∀ (ops : List Op) (S : Sys) (log : List Event), Inv E c S →
    AddrOK E (S.mp.heap.count + ops.length) →
    (∀ p, phaseOf p log = some (if p ∈ S.live then Phase.alive else Phase.vacant)) →
    isMisuse (run E S ops) = false →
    ∃ S1 log1, runLog E S log ops = .ok (S1, log1) ∧ run E S ops = .ok S1 ∧ Inv E c S1 ∧
      (∀ p, phaseOf p log1 = some (if p ∈ S1.live then Phase.alive else Phase.vacant)) ∧
      S1.mp.heap.count ≤ S.mp.heap.count + ops.length := by
  intro ops
  induction ops with
  | nil =>
    intro S log hinv _ hph _
    exact ⟨S, log, rfl, rfl, hinv, hph, Nat.le_refl _⟩
  | cons op ops ih =>
    intro S log hinv hadr hph hv
    simp only [List.length_cons] at hadr ⊢
    unfold run at hv ⊢
    unfold runLog
    by_cases hal : op.allowed E S
    · rw [if_pos hal] at hv ⊢
      rw [if_pos hal]
      have hstep : ∃ S1 log1, step E S op = .ok S1 ∧ stepLog E S log op = .ok (S1, log1) ∧
          Inv E c S1 ∧
          (∀ p, phaseOf p log1 = some (if p ∈ S1.live then Phase.alive else Phase.vacant)) ∧
          S1.mp.heap.count ≤ S.mp.heap.count + 1 := by
        cases op with
        | create =>
          obtain ⟨S1, k0, i0, h1, h2, h3, h4⟩ := step_create E c S hinv hc0 hc hfit
            (addrOK_mono E (by omega) hadr)
          have hcnt := allocPost_count E c _ _ _ _ h4
          have hnd := h2.nodup
          rw [h3] at hnd
          have hlog := stepLog_create E S S1 log _ h1 h3
          rw [handle_flag, h4.taken] at hlog
          refine ⟨S1, _, h1, hlog, h2, ?_, hcnt.2⟩
          intro q
          rw [h3]
          exact phase_create q _ log S.live (hph q) (List.nodup_cons.1 hnd).1
        | destroy p =>
          obtain ⟨S1, k, i, h1, h2, h3, h4, _⟩ := step_destroy E c S hinv hc (fits_size E c hfit)
            (addrOK_mono E (by omega) hadr) p hal
          have hlog := stepLog_destroy E S S1 log p h1
          rw [live_flag E c S hinv p hal] at hlog
          refine ⟨S1, _, h1, hlog, h2, ?_, by omega⟩
          intro q
          rw [h3]
          exact phase_destroy q p log S.live (hph q) hinv.nodup hal
        | poke p j v =>
          obtain ⟨S1, h1, h2, h3, h4, _⟩ := step_poke E c S hinv
            (addrOK_mono E (by omega) hadr) p j v hal.1 hal.2
          refine ⟨S1, _, h1, stepLog_poke E S S1 log p j v h1, h2, ?_, by omega⟩
          intro q
          rw [h3]
          exact hph q
      obtain ⟨S1, log1, h1, h1L, h2, h3, h4⟩ := hstep
      rw [h1] at hv ⊢
      rw [h1L]
      simp only [] at hv ⊢
      obtain ⟨S2, log2, g1, g2, g3, g4, g5⟩ := ih S1 log1 h2
        (addrOK_mono E (by omega) hadr) h3 hv
      exact ⟨S2, log2, g1, g2, g3, g4, by omega⟩
    · rw [if_neg hal] at hv
      simp [isMisuse] at hv

theorem inv_lifecycle (E : Env) (c : Nat) (S : Sys) (log : List Event) (hinv : Inv E c S)
    (hc0 : 0 < c) (hc : c < 65536) (hfit : Fits E c) (hadr : AddrOK E (S.mp.heap.count + 1))
    (hph : ∀ p, phaseOf p log = some (if p ∈ S.live then Phase.alive else Phase.vacant)) :
    Lifecycle E c S log := by
  refine ⟨hph, ?_, ?_⟩
  · obtain ⟨S1, k0, i0, h1, h2, h3, h4⟩ := step_create E c S hinv hc0 hc hfit hadr
    have hnd := h2.nodup
    rw [h3] at hnd
    have hlog := stepLog_create E S S1 log _ h1 h3
    rw [handle_flag, h4.taken] at hlog
    exact ⟨S1, k0, i0, hlog, h3, (List.nodup_cons.1 hnd).1, h4.arena_lt, h4.slot_lt,
      fun hk => (h4.reuse hk).1, h4.taken⟩
  · intro p hp
    obtain ⟨S1, k, i, h1, h2, h3, h4, h5, h6, h7, h8, _⟩ := step_destroy E c S hinv hc
      (fits_size E c hfit) (addrOK_mono E (by omega) hadr) p hp
    have hlog := stepLog_destroy E S S1 log p h1
    have hflag := live_flag E c S hinv p hp
    rw [hflag] at hlog
    refine ⟨S1, k, i, hlog, ?_, h7, by omega, h6, ?_, ?_⟩
    · rw [h3]
      exact fun h => ((hinv.nodup.mem_erase_iff).1 h).1 rfl
    · rw [h7, handle_flag] at hflag
      exact hflag
    · rw [h8 k h5, if_pos ⟨rfl, rfl⟩]

/-- Within the `int` range the managed objects follow their life cycle: in every
valid sequential history on a pool of capacity `1 ≤ c ≤ 65535` whose arena buffer
size `8 + c * (sizeof(T) + 4)` does not exceed `2^31 - 1`, `create` reserves a
slot and then runs the constructor once, at the payload of the reserved slot,
which is the handle it returns; no destructor runs on a live handle; `destroy`
of a live handle runs the destructor once, while the slot is still reserved, and
leaves the flag of the slot `0`. -/
theorem constructor_and_destructor_run_once (E : Env) (c : Nat) (ops : List Op) (hc0 : 0 < c)
    (hc : c < 65536) (hfit : Fits E c) (hadr : AddrOK E (ops.length + 2))
    (hv : Valid E c ops) :
    ∃ S log, execLog E c ops = .ok (S, log) ∧ exec E c ops = .ok S ∧ Lifecycle E c S log := by
  obtain ⟨S0, h1, h2, h3, h4, _⟩ := boot_inv E c hc0 hc (fits_size E c hfit)
    (addrOK_mono E (by omega) hadr)
  unfold Valid exec at hv
  unfold exec execLog
  rw [h1] at hv ⊢
  simp only [] at hv ⊢
  obtain ⟨S1, log1, g1, g2, g3, g4, g5⟩ := run_lifecycle E c hc0 hc hfit ops S0 [] h2
    (by rw [h3]; exact addrOK_mono E (by omega) hadr)
    (by intro p; rw [h4]; rfl) hv
  exact ⟨S1, log1, g1, g2, inv_lifecycle E c S1 log1 g3 hc0 hc hfit
    (addrOK_mono E (by omega) hadr) g4⟩

/-- An instance of `constructor_and_destructor_run_once`: the history
`demoHistory` on the pool of `main.cc`. -/
theorem constructor_and_destructor_run_once_witness :
    (0 < 10 ∧ 10 < 65536 ∧ Fits demoEnv 10 ∧ AddrOK demoEnv (demoHistory.length + 2) ∧
      Valid demoEnv 10 demoHistory) ∧
    ∃ S log, execLog demoEnv 10 demoHistory = .ok (S, log) ∧ exec demoEnv 10 demoHistory = .ok S ∧
      Lifecycle demoEnv 10 S log :=
  ⟨by decide, constructor_and_destructor_run_once demoEnv 10 demoHistory (by decide) (by decide)
    (by decide) (by decide) (by decide)⟩

/-- C11 states that `create` reserves a slot and then runs the constructor once,
at the reserved payload address, which it returns, and that `destroy` runs the
destructor once, before the slot is released. The code breaks this property: it
runs the constructor at the null address. `AllocateBlock` keeps
its scan position in an `int`, whereas `init` lays the records out with a
`size_t` offset. With `sizeof(T) = 2^32 - 4` and capacity 2 the first `create`
constructs its object at the payload of slot 0 (offset 12 of the arena at 4096)
while the slot is reserved. The second `create` is admitted to the head arena
(counter 1) and slot 1 is free (flag 0), but the scan position `8 + 2^32` is 8
again as an `int`, slot 0 is inspected twice and `Allocate` returns a null
pointer; `Create` does not check it, no slot is reserved, and placement `new`
runs the constructor at the null address. -/
theorem constructor_at_null_counterexample :
    Valid wrapEnv 2 [.create, .create] ∧
    (execLog wrapEnv 2 [.create]).map (fun r => r.2) =
      .ok [Event.constructed ⟨4096, 12⟩ 1] ∧
    (execLog wrapEnv 2 [.create]).bind (fun r =>
      (Allocate wrapEnv r.1.mp.heap r.1.mp.pool_allocator_).map (fun q =>
        (q.2, r.1.mp.heap.freeOf 4096, q.1.byte 4096 (slotPos wrapEnv 1)))) =
      .ok (none, 1, 0) ∧
    (execLog wrapEnv 2 [.create]).bind (fun r =>
      (Allocate wrapEnv r.1.mp.heap r.1.mp.pool_allocator_).bind (fun q =>
        (construct q.1 r.2 q.2).map (fun t => t.2))) = .error .nullDeref ∧
    (execLog wrapEnv 2 [.create, .create]).map (fun r => r.2) = .error .nullDeref ∧
    ¬ ∃ S log, execLog wrapEnv 2 [.create] = .ok (S, log) ∧ Lifecycle wrapEnv 2 S log := by
  have hobs : (execLog wrapEnv 2 [.create]).bind (fun r =>
      (stepLog wrapEnv r.1 r.2 .create).map (fun q => q.2)) = .error .nullDeref := by decide
  refine ⟨by decide, by decide, by decide, by decide, by decide, ?_⟩
  rintro ⟨S, log, hS, _, ⟨S1, k, i, hst, _⟩, _⟩
  rw [hS] at hobs
  simp only [Except.bind, hst, Except.map] at hobs
  cases hobs

/-! ## The atomic steps of `Allocate` and the sequential function -/

theorem iter_step (E : Env) (this m : Nat) (h h1 : Heap) (st st1 : TState)
    (hs : tstep E this h st = .ok (h1, st1)) :
    iter E this (m + 1) h st = iter E this m h1 st1 := by
  simp only [iter, hs]

theorem iter_add (E : Env) (this : Nat) : ∀ (n m : Nat) (h : Heap) (st : TState),
    iter E this (n + m) h st = (iter E this n h st).bind (fun r => iter E this m r.1 r.2) := by
  intro n
  induction n with
  | zero => intro m h st; simp only [Nat.zero_add, iter, Except.bind]
  | succ n ih =>
    intro m h st
    rw [show n + 1 + m = (n + m) + 1 by omega]
    simp only [iter]
    cases hs : tstep E this h st with
    | error e => rfl
    | ok r => simp only []; exact ih m r.1 r.2

theorem AllocateBlock_free (E : Env) (o o1 : HeapPool) (r : Option Nat)
    (hs : AllocateBlock E o = .ok (o1, r)) : o1.free = o.free ∧ o1.capacity = o.capacity := by
  unfold AllocateBlock at hs
  cases hp : o.pool with
  | none => rw [hp] at hs; cases hs
  | some b =>
    rw [hp] at hs
    simp only [bind, Except.bind] at hs
    cases hl : allocLoop E o.capacity (o.capacity + 1) 0 (pool_header_size : Int) b with
    | error e => rw [hl] at hs; cases hs
    | ok q =>
      rw [hl] at hs
      simp only [Except.ok.injEq, Prod.mk.injEq] at hs
      rw [← hs.1]
      exact ⟨rfl, rfl⟩

/-- An exhausted arena is passed over in two atomic steps that leave the free
store as it was. -/
theorem iter_pass (E : Env) (this m : Nat) (h : Heap) (a : Nat) (o : HeapPool)
    (ho : h.objs a = some o) (hz : o.free = 0) :
    iter E this (m + 2) h (.enter (some a)) = iter E this m h (.link a) := by
  have h1 : tstep E this h (.enter (some a)) =
      .ok (h.set a { pool := o.pool, next := o.next, free := (o.free + 65535) % 65536, capacity := o.capacity }, .comp a) := by
    simp only [tstep, ho]
    rw [if_neg (by omega)]
  have h2 : tstep E this
      (h.set a { pool := o.pool, next := o.next, free := (o.free + 65535) % 65536, capacity := o.capacity })
      (.comp a) = .ok (h, .link a) := by
    simp only [tstep, set_objs_same]
    rw [set_set, counter_restore _ hz, set_self h a _ ho]
  rw [iter_step E this (m + 1) _ _ _ _ h1, iter_step E this m _ _ _ _ h2]

/-- Every result of the walk of `Allocate` is reached by the atomic steps of a
thread that runs alone. -/
theorem walk_iter (E : Env) (this : Nat) :
    ∀ (fuel : Nat) (h : Heap) (a : Nat) (H : Heap) (r : Option Nat),
    allocateWalk E this fuel h (some a) = .ok (H, r) →
    ∃ n b, r = some b ∧ iter E this n h (.enter (some a)) = .ok (H, .scan b) := by
  intro fuel
  induction fuel with
  | zero =>
    intro h a H r hs
    unfold allocateWalk at hs
    cases hs
  | succ fuel ih =>
    intro h a H r hs
    cases ho : h.objs a with
    | none =>
      unfold allocateWalk at hs
      simp only [ho] at hs
      cases hs
    | some o =>
      by_cases hfree : 0 < o.free
      · rw [walk_break E this fuel h a o ho hfree] at hs
        simp only [Except.ok.injEq, Prod.mk.injEq] at hs
        refine ⟨1, a, hs.2.symm, ?_⟩
        simp only [iter, tstep, ho]
        rw [if_pos hfree, hs.1]
      · have hz : o.free = 0 := by omega
        cases hn : o.next with
        | some n =>
          rw [walk_pass E this fuel h a n o ho hz hn] at hs
          obtain ⟨m, b, hb, hm⟩ := ih h n H r hs
          refine ⟨m + 1 + 2, b, hb, ?_⟩
          rw [iter_pass E this (m + 1) h a o ho hz]
          have h3 : tstep E this h (.link a) = .ok (h, .enter (some n)) := by
            simp only [tstep, ho, hn]
          rw [iter_step E this m _ _ _ _ h3]
          exact hm
        | none =>
          rw [walk_grow_unfold E this fuel h a o ho hz hn] at hs
          cases hhead : h.objs this with
          | none => rw [hhead] at hs; cases hs
          | some head =>
            rw [hhead] at hs
            simp only [] at hs
            cases hnew : HeapPool.new E h head.capacity with
            | error e => rw [hnew] at hs; cases hs
            | ok q =>
              obtain ⟨h3, n⟩ := q
              rw [hnew] at hs
              simp only [] at hs
              cases ho3 : h3.objs a with
              | none => rw [ho3] at hs; cases hs
              | some o3 =>
                rw [ho3] at hs
                simp only [] at hs
                obtain ⟨m, b, hb, hm⟩ := ih _ n H r hs
                refine ⟨m + 1 + 2, b, hb, ?_⟩
                rw [iter_pass E this (m + 1) h a o ho hz]
                have h4 : tstep E this h (.link a) =
                    .ok (h3.set a { pool := o3.pool, next := some n, free := o3.free, capacity := o3.capacity }, .enter (some n)) := by
                  simp only [tstep, ho, hn, hhead, hnew, ho3]
                rw [iter_step E this m _ _ _ _ h4]
                exact hm

/-- Every result of the sequential function `Allocate` is reached by the atomic
steps of a thread that runs alone. -/
theorem Allocate_iter (E : Env) (this : Nat) (h H : Heap) (r : Option Ptr)
    (hs : Allocate E h this = .ok (H, r)) :
    ∃ n, iter E this n h (.enter (some this)) = .ok (H, .done r) := by
  unfold Allocate at hs
  simp only [bind, Except.bind] at hs
  cases hw : allocateWalk E this (h.count + 2) h (some this) with
  | error e => rw [hw] at hs; cases hs
  | ok q =>
    obtain ⟨h1, cur⟩ := q
    rw [hw] at hs
    simp only [] at hs
    obtain ⟨n, b, hb, hn⟩ := walk_iter E this _ h this h1 cur hw
    subst hb
    simp only [] at hs
    cases ho : h1.objs b with
    | none => rw [ho] at hs; cases hs
    | some o =>
      rw [ho] at hs
      simp only [] at hs
      cases hab : AllocateBlock E o with
      | error e => rw [hab] at hs; cases hs
      | ok q2 =>
        rw [hab] at hs
        simp only [Except.ok.injEq, Prod.mk.injEq] at hs
        refine ⟨n + 1, ?_⟩
        rw [iter_add, hn]
        simp only [Except.bind, iter, tstep, ho, hab]
        rw [hs.1, hs.2]

/-! ## Concurrent calls of `Allocate` -/

/-- C12: three threads call `create` concurrently on a fresh pool of capacity 1
(`sizeof(T) = 12`, head arena at 4096). Thread 0 decrements the counter from 1
to 0 and is admitted. Thread 1 decrements it from 0, which leaves 65535 in the
unsigned 16-bit counter. Before thread 1 adds 1 back, thread 2 decrements: it
observes 65535, which is greater than 0, and is admitted to the head arena as
well. Thread 0 takes the only slot; the slot scan of thread 2 then finds no free
slot and `Allocate` returns a null pointer to it. Thread 1 goes on to a new
arena. At the end the counter of the head arena is 65535 although its capacity
is 1 and none of its slots is free. -/
theorem concurrent_create_admits_to_full_arena :
    (boot demoEnv 1).map (fun S =>
      (S.mp.pool_allocator_, S.mp.heap.count, S.mp.heap.freeOf 4096,
        (arenaAt S.mp.heap 4096).capacity)) = .ok (4096, 1, 1, 1) ∧
    (boot demoEnv 1).bind (fun S =>
      (sched demoEnv 4096 [0, 1, 2] S.mp.heap
        [.enter (some 4096), .enter (some 4096), .enter (some 4096)]).map (fun r =>
          (r.2, r.1.freeOf 4096))) =
      .ok ([.scan 4096, .comp 4096, .scan 4096], 65534) ∧
    (boot demoEnv 1).bind (fun S =>
      (sched demoEnv 4096 [0, 1, 2, 0, 2] S.mp.heap
        [.enter (some 4096), .enter (some 4096), .enter (some 4096)]).map (fun r =>
          (r.2, r.1.freeOf 4096, freeSlots demoEnv (bufOf (arenaAt r.1 4096)).bytes 1))) =
      .ok ([.done (some ⟨4096, 12⟩), .comp 4096, .done none], 65534, 0) ∧
    (boot demoEnv 1).bind (fun S =>
      (sched demoEnv 4096 [0, 1, 2, 0, 2, 1, 1, 1, 1] S.mp.heap
        [.enter (some 4096), .enter (some 4096), .enter (some 4096)]).map (fun r =>
          (r.2, r.1.count, r.1.freeOf 4096, (arenaAt r.1 4096).capacity,
            freeSlots demoEnv (bufOf (arenaAt r.1 4096)).bytes 1, r.1.freeOf 5120))) =
      .ok ([.done (some ⟨4096, 12⟩), .done (some ⟨5120, 12⟩), .done none], 2, 65535, 1, 0, 0) := by
  refine ⟨?_, ?_, ?_, ?_⟩ <;> decide

/-! ## The 16-bit members of the arena objects -/

theorem shorts_set (h : Heap) (a : Nat) (o1 : HeapPool) (hs : Shorts h) (h1 : o1.free < 65536)
    (h2 : o1.capacity < 65536) : Shorts (h.set a o1) := by
  intro x ox hx
  by_cases hxa : x = a
  · subst hxa
    rw [set_objs_same] at hx
    cases hx
    exact ⟨h1, h2⟩
  · rw [set_objs_other _ _ _ _ hxa] at hx
    exact hs x ox hx

theorem new_cap (E : Env) (h hN : Heap) (c n : Nat) (hs : HeapPool.new E h c = .ok (hN, n)) :
    ∃ o1, hN.objs n = some o1 ∧ o1.free = c ∧ o1.capacity = c := by
  unfold HeapPool.new HeapPool.ctor HeapPool.alloc at hs
  simp only [if_true, ↓reduceIte, Nat.add_sub_cancel] at hs
  by_cases hc : c > 0
  · rw [if_pos hc] at hs
    simp only [bind, Except.bind] at hs
    cases hi : init E h.count (E.addr h.count)
        { pool := none, next := none, free := 0, capacity := c } with
    | error e => rw [hi] at hs; cases hs
    | ok o1 =>
      rw [hi] at hs
      simp only [Except.ok.injEq, Prod.mk.injEq] at hs
      obtain ⟨e1, e2⟩ := hs
      subst e1; subst e2
      refine ⟨o1, by simp, ?_, ?_⟩
      · unfold init at hi
        simp only [bind, Except.bind] at hi
        repeat (split at hi <;> try cases hi)
        rfl
      · unfold init at hi
        simp only [bind, Except.bind] at hi
        repeat (split at hi <;> try cases hi)
        rfl
  · rw [if_neg hc] at hs
    cases hs

theorem new_shorts (E : Env) (h hN : Heap) (c n : Nat) (hc : c < 65536) (hsh : Shorts h)
    (hs : HeapPool.new E h c = .ok (hN, n)) : Shorts hN := by
  obtain ⟨_, _, e3, _⟩ := new_frame E h hN c n hs
  obtain ⟨o1, g1, g2, g3⟩ := new_cap E h hN c n hs
  intro x ox hx
  by_cases hxn : x = n
  · subst hxn
    rw [g1] at hx
    cases hx
    omega
  · rw [e3 x hxn] at hx
    exact hsh x ox hx

theorem walk_shorts (E : Env) (this : Nat) :
    ∀ (fuel : Nat) (h : Heap) (cur : Option Nat) (H : Heap) (r : Option Nat),
    Shorts h → allocateWalk E this fuel h cur = .ok (H, r) → Shorts H := by
  intro fuel
  induction fuel with
  | zero =>
    intro h cur H r _ hs
    unfold allocateWalk at hs
    cases hs
  | succ fuel ih =>
    intro h cur H r hsh hs
    cases cur with
    | none =>
      unfold allocateWalk at hs
      simp only [Except.ok.injEq, Prod.mk.injEq] at hs
      rw [← hs.1]
      exact hsh
    | some a =>
      cases ho : h.objs a with
      | none =>
        unfold allocateWalk at hs
        simp only [ho] at hs
        cases hs
      | some o =>
        by_cases hfree : 0 < o.free
        · rw [walk_break E this fuel h a o ho hfree] at hs
          simp only [Except.ok.injEq, Prod.mk.injEq] at hs
          rw [← hs.1]
          exact shorts_set h a _ hsh (Nat.mod_lt _ (by omega)) (hsh a o ho).2
        · have hz : o.free = 0 := by omega
          cases hn : o.next with
          | some n =>
            rw [walk_pass E this fuel h a n o ho hz hn] at hs
            exact ih h (some n) H r hsh hs
          | none =>
            rw [walk_grow_unfold E this fuel h a o ho hz hn] at hs
            cases hhead : h.objs this with
            | none => rw [hhead] at hs; cases hs
            | some head =>
              rw [hhead] at hs
              simp only [] at hs
              cases hnew : HeapPool.new E h head.capacity with
              | error e => rw [hnew] at hs; cases hs
              | ok q =>
                obtain ⟨h3, n⟩ := q
                rw [hnew] at hs
                simp only [] at hs
                have hsh3 := new_shorts E h h3 _ n (hsh this head hhead).2 hsh hnew
                cases ho3 : h3.objs a with
                | none => rw [ho3] at hs; cases hs
                | some o3 =>
                  rw [ho3] at hs
                  simp only [] at hs
                  exact ih _ (some n) H r
                    (shorts_set h3 a { pool := o3.pool, next := some n, free := o3.free, capacity := o3.capacity } hsh3 (hsh3 a o3 ho3).1 (hsh3 a o3 ho3).2) hs

theorem Allocate_shorts (E : Env) (this : Nat) (h H : Heap) (r : Option Ptr) (hsh : Shorts h)
    (hs : Allocate E h this = .ok (H, r)) : Shorts H := by
  unfold Allocate at hs
  simp only [bind, Except.bind] at hs
  cases hw : allocateWalk E this (h.count + 2) h (some this) with
  | error e => rw [hw] at hs; cases hs
  | ok q =>
    obtain ⟨h1, cur⟩ := q
    rw [hw] at hs
    simp only [] at hs
    have f1 := walk_shorts E this _ h _ h1 cur hsh hw
    cases cur with
    | none => cases hs
    | some a =>
      simp only [] at hs
      cases ho : h1.objs a with
      | none => rw [ho] at hs; cases hs
      | some o =>
        rw [ho] at hs
        simp only [] at hs
        cases hab : AllocateBlock E o with
        | error e => rw [hab] at hs; cases hs
        | ok q2 =>
          obtain ⟨o1, off⟩ := q2
          rw [hab] at hs
          simp only [Except.ok.injEq, Prod.mk.injEq] at hs
          rw [← hs.1]
          obtain ⟨g1, g2⟩ := AllocateBlock_free E o o1 off hab
          exact shorts_set h1 a o1 f1 (by rw [g1]; exact (f1 a o ho).1)
            (by rw [g2]; exact (f1 a o ho).2)

theorem store_shorts (h H : Heap) (p : Ptr) (d : Int) (v : Nat) (hsh : Shorts h)
    (hs : h.store p d v = .ok H) : Shorts H := by
  unfold Heap.store at hs
  cases ho : h.objs p.base with
  | none => rw [ho] at hs; cases hs
  | some o =>
    rw [ho] at hs
    simp only [] at hs
    cases hp : o.pool with
    | none => rw [hp] at hs; cases hs
    | some b =>
      rw [hp] at hs
      simp only [bind, Except.bind] at hs
      cases hw : b.write (p.off + d) v with
      | error e => rw [hw] at hs; cases hs
      | ok b1 =>
        rw [hw] at hs
        simp only [Except.ok.injEq] at hs
        rw [← hs]
        exact shorts_set h p.base _ hsh (hsh _ o ho).1 (hsh _ o ho).2

theorem Free_shorts (E : Env) (h H : Heap) (block : Ptr) (hsh : Shorts h)
    (hs : Free E h block = .ok H) : Shorts H := by
  unfold Free at hs
  simp only [bind, Except.bind] at hs
  cases hg : GetBlockPool E h block with
  | error e => rw [hg] at hs; cases hs
  | ok a =>
    rw [hg] at hs
    unfold FreeBlock at hs
    simp only [bind, Except.bind] at hs
    cases hst : h.store block (0 - (block_header_size : Int)) 0 with
    | error e => rw [hst] at hs; cases hs
    | ok h1 =>
      rw [hst] at hs
      simp only [] at hs
      have f1 := store_shorts h h1 _ _ _ hsh hst
      cases ho : h1.objs a with
      | none => rw [ho] at hs; cases hs
      | some o =>
        rw [ho] at hs
        simp only [Except.ok.injEq] at hs
        rw [← hs]
        exact shorts_set h1 a _ f1 (Nat.mod_lt _ (by omega)) (f1 a o ho).2

theorem step_shorts (E : Env) (S S1 : Sys) (op : Op) (hsh : Shorts S.mp.heap)
    (hs : step E S op = .ok S1) : Shorts S1.mp.heap := by
  cases op with
  | create =>
    unfold step MemoryPool.Create at hs
    simp only [bind, Except.bind] at hs
    cases ha : Allocate E S.mp.heap S.mp.pool_allocator_ with
    | error e => rw [ha] at hs; cases hs
    | ok q =>
      obtain ⟨H, r⟩ := q
      rw [ha] at hs
      simp only [] at hs
      cases r with
      | none => cases hs
      | some p =>
        simp only [Except.ok.injEq] at hs
        rw [← hs]
        exact Allocate_shorts E _ _ H _ hsh ha
  | destroy p =>
    unfold step MemoryPool.Destroy at hs
    simp only [bind, Except.bind] at hs
    cases hf : Free E S.mp.heap p with
    | error e => rw [hf] at hs; cases hs
    | ok H =>
      rw [hf] at hs
      simp only [Except.ok.injEq] at hs
      rw [← hs]
      exact Free_shorts E _ H p hsh hf
  | poke p j v =>
    unfold step at hs
    simp only [bind, Except.bind] at hs
    cases hst : S.mp.heap.store p j v with
    | error e => rw [hst] at hs; cases hs
    | ok H =>
      rw [hst] at hs
      simp only [Except.ok.injEq] at hs
      rw [← hs]
      exact store_shorts _ H p _ v hsh hst

theorem run_shorts (E : Env) : ∀ (ops : List Op) (S S1 : Sys), Shorts S.mp.heap →
    run E S ops = .ok S1 → Shorts S1.mp.heap := by
  intro ops
  induction ops with
  | nil =>
    intro S S1 hsh hs
    simp only [run, Except.ok.injEq] at hs
    rw [← hs]
    exact hsh
  | cons op ops ih =>
    intro S S1 hsh hs
    unfold run at hs
    split at hs
    · cases hst : step E S op with
      | error e => rw [hst] at hs; cases hs
      | ok S2 =>
        rw [hst] at hs
        exact ih S2 S1 (step_shorts E S S2 op hsh hst) hs
    · cases hs

theorem exec_shorts (E : Env) (c : Nat) (ops : List Op) (S : Sys) (hc : c < 65536)
    (hadr : AddrOK E (ops.length + 1)) (hs : exec E c ops = .ok S) :
    Shorts S.mp.heap ∧ Tidy E S.mp.heap ∧ S.mp.heap.count ≤ ops.length + 1 := by
  unfold exec at hs
  cases hb : boot E c with
  | error e => rw [hb] at hs; cases hs
  | ok S0 =>
    rw [hb] at hs
    simp only [] at hs
    obtain ⟨t0, c0⟩ := boot_tidy E c S0 hb
    obtain ⟨t1, c1⟩ := run_count E ops S0 S t0
      (by rw [c0]; exact addrOK_mono E (by omega) hadr) hs
    refine ⟨run_shorts E ops S0 S ?_ hs, t1, by omega⟩
    unfold boot MemoryPool.ctor at hb
    simp only [bind, Except.bind] at hb
    cases hnew : HeapPool.new E Heap.empty c with
    | error e => rw [hnew] at hb; cases hb
    | ok q =>
      rw [hnew] at hb
      simp only [Except.ok.injEq] at hb
      rw [← hb]
      exact new_shorts E Heap.empty q.1 c q.2 hc (fun a o ho => by cases ho) hnew

/-! ## The counters across a call of `Allocate` -/

theorem dec_short (x : Nat) (h0 : 0 < x) (h1 : x < 65536) : (x + 65535) % 65536 + 1 = x := by
  omega

/-- Whenever the walk of `Allocate` produces a result, it stops on one arena,
whose counter it has reduced by 1 from a positive value, and every other arena
has the counter it had before. -/
theorem walk_counters (E : Env) (this : Nat) :
    ∀ (fuel : Nat) (h : Heap) (cur : Option Nat) (H : Heap) (r : Option Nat),
    Tidy E h → AddrOK E (h.count + 1) → Shorts h → allocateWalk E this fuel h cur = .ok (H, r) →
    (∀ a o, h.objs a = some o → r ≠ some a → H.freeOf a = o.free) ∧
    (∀ b, r = some b →
      (∀ o, h.objs b = some o → 0 < o.free ∧ H.freeOf b + 1 = o.free) ∧
      (h.objs b = none →
        0 < (arenaAt h this).capacity ∧ H.freeOf b + 1 = (arenaAt h this).capacity)) := by
  intro fuel
  induction fuel with
  | zero =>
    intro h cur H r _ _ _ hs
    unfold allocateWalk at hs
    cases hs
  | succ fuel ih =>
    intro h cur H r ht hadr hsh hs
    cases cur with
    | none =>
      unfold allocateWalk at hs
      simp only [Except.ok.injEq, Prod.mk.injEq] at hs
      rw [← hs.1, ← hs.2]
      exact ⟨fun a o ho _ => freeOf_eq h a o ho, fun b hb => by cases hb⟩
    | some a =>
      cases ho : h.objs a with
      | none =>
        unfold allocateWalk at hs
        simp only [ho] at hs
        cases hs
      | some o =>
        by_cases hfree : 0 < o.free
        · rw [walk_break E this fuel h a o ho hfree] at hs
          simp only [Except.ok.injEq, Prod.mk.injEq] at hs
          rw [← hs.1, ← hs.2]
          refine ⟨fun x ox hx hne => ?_, fun b hb => ?_⟩
          · have hxa : x ≠ a := fun e => hne (by rw [e])
            rw [freeOf_set_other _ _ _ _ hxa]
            exact freeOf_eq h x ox hx
          · simp only [Option.some.injEq] at hb
            subst hb
            refine ⟨fun o1 ho1 => ?_, fun hnone => by rw [ho] at hnone; cases hnone⟩
            rw [ho] at ho1
            cases ho1
            rw [freeOf_eq _ _ _ (set_objs_same _ _ _)]
            exact ⟨hfree, dec_short _ hfree (hsh a o ho).1⟩
        · have hz : o.free = 0 := by omega
          cases hn : o.next with
          | some n =>
            rw [walk_pass E this fuel h a n o ho hz hn] at hs
            exact ih h (some n) H r ht hadr hsh hs
          | none =>
            rw [walk_grow_unfold E this fuel h a o ho hz hn] at hs
            cases hhead : h.objs this with
            | none => rw [hhead] at hs; cases hs
            | some head =>
              rw [hhead] at hs
              simp only [] at hs
              cases hnew : HeapPool.new E h head.capacity with
              | error e => rw [hnew] at hs; cases hs
              | ok q =>
                obtain ⟨h3, n⟩ := q
                rw [hnew] at hs
                simp only [] at hs
                obtain ⟨e1, e2, e3, onew, e4, e5, e6, e7⟩ := new_frame E h h3 _ n hnew
                have hane : a ≠ n := by rw [e1]; exact tidy_fresh E h ht hadr a o ho
                rw [e3 a hane, ho] at hs
                simp only [] at hs
                cases fuel with
                | zero => unfold allocateWalk at hs; cases hs
                | succ fuel =>
                  rw [walk_break E this fuel _ n onew
                    (by rw [set_objs_other _ _ _ _ hane.symm]; exact e4) (by omega)] at hs
                  simp only [Except.ok.injEq, Prod.mk.injEq] at hs
                  rw [← hs.1, ← hs.2]
                  refine ⟨fun x ox hx hne => ?_, fun b hb => ?_⟩
                  · have hxn : x ≠ n := fun e => hne (by rw [e])
                    rw [freeOf_set_other _ _ _ _ hxn]
                    by_cases hxa : x = a
                    · subst hxa
                      rw [ho] at hx
                      cases hx
                      rw [freeOf_eq _ _ _ (set_objs_same _ _ _)]
                    · rw [freeOf_set_other _ _ _ _ hxa]
                      exact freeOf_eq h3 x ox (by rw [e3 x hxn]; exact hx)
                  · simp only [Option.some.injEq] at hb
                    subst hb
                    refine ⟨fun o1 ho1 => ?_, fun _ => ?_⟩
                    · exact absurd e1 (tidy_fresh E h ht hadr n o1 ho1)
                    · rw [freeOf_eq _ _ _ (set_objs_same _ _ _)]
                      have hcap : (arenaAt h this).capacity = head.capacity := by
                        unfold arenaAt; rw [hhead]
                      rw [hcap]
                      show 0 < head.capacity ∧ (onew.free + 65535) % 65536 + 1 = head.capacity
                      rw [e6]
                      exact ⟨e7, dec_short _ e7 (hsh this head hhead).2⟩

/-- Whenever `Allocate` produces a result, the block belongs to one arena, whose
counter is smaller by 1 than before, and every other arena has the counter it
had before. -/
theorem Allocate_counters (E : Env) (this : Nat) (h H : Heap) (r : Option Ptr) (ht : Tidy E h)
    (hadr : AddrOK E (h.count + 1)) (hsh : Shorts h) (hs : Allocate E h this = .ok (H, r)) :
    ∃ b, (∀ p, r = some p → p.base = b) ∧
      (∀ a o, h.objs a = some o → a ≠ b → H.freeOf a = o.free) ∧
      (∀ o, h.objs b = some o → 0 < o.free ∧ H.freeOf b + 1 = o.free) ∧
      (h.objs b = none →
        0 < (arenaAt h this).capacity ∧ H.freeOf b + 1 = (arenaAt h this).capacity) := by
  unfold Allocate at hs
  simp only [bind, Except.bind] at hs
  cases hw : allocateWalk E this (h.count + 2) h (some this) with
  | error e => rw [hw] at hs; cases hs
  | ok q =>
    obtain ⟨h1, cur⟩ := q
    rw [hw] at hs
    simp only [] at hs
    obtain ⟨f1, f2⟩ := walk_counters E this _ h _ h1 cur ht hadr hsh hw
    cases cur with
    | none => cases hs
    | some b =>
      simp only [] at hs
      cases ho : h1.objs b with
      | none => rw [ho] at hs; cases hs
      | some o =>
        rw [ho] at hs
        simp only [] at hs
        cases hab : AllocateBlock E o with
        | error e => rw [hab] at hs; cases hs
        | ok q2 =>
          obtain ⟨o1, off⟩ := q2
          rw [hab] at hs
          simp only [Except.ok.injEq, Prod.mk.injEq] at hs
          obtain ⟨g1, _⟩ := AllocateBlock_free E o o1 off hab
          have hfb : H.freeOf b = h1.freeOf b := by
            rw [← hs.1, freeOf_eq _ _ _ (set_objs_same _ _ _), freeOf_eq h1 b o ho, g1]
          refine ⟨b, ?_, ?_, ?_, ?_⟩
          · intro p hp
            rw [← hs.2] at hp
            cases off with
            | none => cases hp
            | some x =>
              simp only [Option.map, Option.some.injEq] at hp
              rw [← hp]
          · intro a oa hoa hab2
            rw [← hs.1, freeOf_set_other _ _ _ _ hab2]
            exact f1 a oa hoa (fun e => hab2 (Option.some.inj e).symm)
          · intro ob hob
            rw [hfb]
            exact (f2 b rfl).1 ob hob
          · intro hnone
            rw [hfb]
            exact (f2 b rfl).2 hnone

theorem counter_protocol (E : Env) (this : Nat) (h : Heap) (ht : Tidy E h)
    (hadr : AddrOK E (h.count + 1)) (hsh : Shorts h) : CounterProtocol E this h := by
  refine ⟨fun a o ho => ⟨?_, ?_, ?_, ?_⟩, fun H r hs =>
    ⟨Allocate_iter E this h H r hs, Allocate_counters E this h H r ht hadr hsh hs⟩⟩
  · simp only [tstep, ho]
  · rw [freeOf_eq _ _ _ (set_objs_same _ _ _)]
    exact Nat.mod_lt _ (by omega)
  · exact fun hpos => dec_short _ hpos (hsh a o ho).1
  · intro hz
    refine ⟨by rw [hz], ?_⟩
    simp only [tstep, set_objs_same]
    rw [set_set]
    have : ((65535 + 1) % 65536) = o.free := by rw [hz]
    rw [this]
    exact congrArg (fun x => Except.ok (x, TState.link a)) (set_self h a _ ho)

/-- C16: the free counter is an unsigned 16-bit value (in every reached state
the members `free` and `capacity` are below `2^16`) and `Allocate` admits an
arena exactly when the value observed before the decrement is greater than 0;
for an arena whose counter is 0 the decrement yields 65535 and the compensating
increment restores 0; after a completed sequential `Allocate` every arena other
than the one that served the request, so every arena that was passed over, has
the same counter value as before the call, and the arena that served the request
has its counter reduced by exactly 1. This holds in every state that a history
reaches, for every object size. -/
theorem allocate_counter_protocol (E : Env) (c : Nat) (ops : List Op) (S : Sys)
    (hc : c < 65536) (hadr : AddrOK E (ops.length + 2)) (hs : exec E c ops = .ok S) :
    Shorts S.mp.heap ∧ CounterProtocol E S.mp.pool_allocator_ S.mp.heap := by
  obtain ⟨h1, h2, h3⟩ := exec_shorts E c ops S hc (addrOK_mono E (by omega) hadr) hs
  exact ⟨h1, counter_protocol E _ _ h2 (addrOK_mono E (by omega) hadr) h1⟩

/-- Witness for `allocate_counter_protocol`: ten creates fill the head arena, so
that the next `Allocate` passes it over. -/
theorem allocate_counter_protocol_witness :
    (10 < 65536 ∧ AddrOK demoEnv ((creates 10).length + 2) ∧
      exec demoEnv 10 (creates 10) = .ok (stateOf (exec demoEnv 10 (creates 10)))) ∧
    Shorts (stateOf (exec demoEnv 10 (creates 10))).mp.heap ∧
    CounterProtocol demoEnv (stateOf (exec demoEnv 10 (creates 10))).mp.pool_allocator_
      (stateOf (exec demoEnv 10 (creates 10))).mp.heap :=
  ⟨⟨by decide, by decide, rfl⟩,
    allocate_counter_protocol demoEnv 10 (creates 10) _ (by decide) (by decide) rfl⟩

/-! ## The counters at the atomic steps of `Allocate` -/

/-- The invariant is kept when one arena object is replaced by one with the same
capacity and link, and the thread moves to a state other than `enter`. -/
theorem tinv_set (E : Env) (c L : Nat) (h : Heap) (st st1 : TState) (hi : TInv E c L h st)
    (hadr : AddrOK E (L + 1)) (k0 : Nat) (hk0 : k0 < h.count) (o o1 : HeapPool)
    (ho : h.objs (E.addr k0) = some o) (hcap : o1.capacity = o.capacity)
    (hnext : o1.next = o.next)
    (hcnt : h.count = L ∨ (h.count = L + 1 ∧ ((∃ a, st1 = .scan a) ∨ ∃ r, st1 = .done r)))
    (hf1 : st1 = .comp (E.addr k0) → o1.free = 65535)
    (hf2 : st1 ≠ .comp (E.addr k0) → o1.free ≤ c)
    (hold : ∀ k, k ≠ k0 → k < h.count → st ≠ .comp (E.addr k))
    (hnew : ∀ k, k ≠ k0 → k < h.count → st1 ≠ .comp (E.addr k))
    (hloc : ∀ a, (st1 = .enter (some a) ∨ st1 = .comp a ∨ st1 = .link a ∨ st1 = .scan a) →
      a = E.addr k0) :
    TInv E c L (h.set (E.addr k0) o1) st1 := by
  have hle : h.count ≤ L + 1 := by rcases hi.cnt with e | ⟨e, _⟩ <;> omega
  refine ⟨keeps_tidy E (keeps_set h _ o o1 ho hnext) hi.tidy, hi.pos, ?_, ?_, ?_⟩
  · rw [set_count]
    rcases hcnt with e | ⟨e, g⟩
    · exact Or.inl e
    · exact Or.inr ⟨e, Or.inr g⟩
  · intro k hk
    rw [set_count] at hk
    by_cases hkk : k = k0
    · subst hkk
      obtain ⟨o2, ho2, g1, g2, _, _⟩ := hi.arenas k hk
      rw [ho] at ho2
      cases ho2
      refine ⟨o1, set_objs_same _ _ _, by rw [hcap]; exact g1, ?_, hf1, hf2⟩
      intro n hn
      rw [hnext] at hn
      simpa [set_count] using g2 n hn
    · obtain ⟨o2, ho2, g1, g2, _, g4⟩ := hi.arenas k hk
      have hne : E.addr k ≠ E.addr k0 := addr_ne E _ hadr (by omega) (by omega) hkk
      refine ⟨o2, by rw [set_objs_other _ _ _ _ hne]; exact ho2, g1, ?_, ?_, ?_⟩
      · intro n hn
        simpa [set_count] using g2 n hn
      · intro e
        exact absurd e (hnew k hkk hk)
      · intro _
        exact g4 (hold k hkk hk)
  · intro a ha
    exact ⟨k0, by rw [set_count]; exact hk0, hloc a ha⟩

/-- The invariant is kept when the free store stays as it is and the thread moves
between states other than `comp`. -/
theorem tinv_same (E : Env) (c L : Nat) (h : Heap) (st st1 : TState) (hi : TInv E c L h st)
    (hold : ∀ a, st ≠ .comp a) (hnew : ∀ a, st1 ≠ .comp a)
    (hcnt : h.count = L ∨ (h.count = L + 1 ∧ ((∃ a, st1 = .scan a) ∨ ∃ r, st1 = .done r)))
    (hloc : ∀ a, (st1 = .enter (some a) ∨ st1 = .comp a ∨ st1 = .link a ∨ st1 = .scan a) →
      ∃ k, k < h.count ∧ a = E.addr k) :
    TInv E c L h st1 := by
  refine ⟨hi.tidy, hi.pos, ?_, ?_, hloc⟩
  · rcases hcnt with e | ⟨e, g⟩
    · exact Or.inl e
    · exact Or.inr ⟨e, Or.inr g⟩
  · intro k hk
    obtain ⟨o2, ho2, g1, g2, _, g4⟩ := hi.arenas k hk
    exact ⟨o2, ho2, g1, g2, fun e => absurd e (hnew _), fun _ => g4 (hold _)⟩

/-- Every atomic step of `Allocate` keeps the invariant `TInv`. -/
theorem tinv_step (E : Env) (c L : Nat) (hc : c < 65536) (hadr : AddrOK E (L + 1)) (h h1 : Heap)
    (st st1 : TState) (hi : TInv E c L h st) (hs : tstep E (E.addr 0) h st = .ok (h1, st1)) :
    TInv E c L h1 st1 := by
  have hle : h.count ≤ L + 1 := by rcases hi.cnt with e | ⟨e, _⟩ <;> omega
  have hpos := hi.pos
  cases st with
  | enter cur =>
    cases cur with
    | none => simp only [tstep] at hs; cases hs
    | some a =>
      obtain ⟨k0, hk0, rfl⟩ := hi.loc a (Or.inl rfl)
      obtain ⟨o, ho, g1, g2, g3, g4⟩ := hi.arenas k0 hk0
      have hfree : o.free ≤ c := g4 (fun e => by cases e)
      simp only [tstep, ho, Except.ok.injEq, Prod.mk.injEq] at hs
      obtain ⟨e1, e2⟩ := hs
      subst e1
      by_cases hp : 0 < o.free
      · rw [if_pos hp] at e2
        subst e2
        refine tinv_set E c L h _ _ hi hadr k0 hk0 o _ ho rfl rfl ?_ (fun e => by cases e)
          (fun _ => by show (o.free + 65535) % 65536 ≤ c; omega) (fun k _ _ e => by cases e)
          (fun k _ _ e => by cases e) ?_
        · rcases hi.cnt with e | ⟨e, _⟩
          · exact Or.inl e
          · exact Or.inr ⟨e, Or.inl ⟨_, rfl⟩⟩
        · rintro a (e | e | e | e) <;> cases e
          rfl
      · rw [if_neg hp] at e2
        subst e2
        have hz : o.free = 0 := by omega
        refine tinv_set E c L h _ _ hi hadr k0 hk0 o _ ho rfl rfl ?_
          (fun _ => by show (o.free + 65535) % 65536 = 65535; rw [hz])
          (fun e => absurd rfl e) (fun k _ _ e => by cases e) ?_ ?_
        · rcases hi.cnt with e | ⟨e, g⟩
          · exact Or.inl e
          · exfalso
            rcases g with ⟨g5, g6⟩ | ⟨a, g5⟩ | ⟨r, g5⟩
            · simp only [TState.enter.injEq, Option.some.injEq] at g5
              rw [← g5, freeOf_eq h _ o ho] at g6
              omega
            · cases g5
            · cases g5
        · intro k hkk hk e
          simp only [TState.comp.injEq] at e
          exact addr_ne E _ hadr (by omega) (by omega) hkk e.symm
        · rintro a (e | e | e | e) <;> cases e
          rfl
  | comp a =>
    obtain ⟨k0, hk0, rfl⟩ := hi.loc a (Or.inr (Or.inl rfl))
    obtain ⟨o, ho, g1, g2, g3, g4⟩ := hi.arenas k0 hk0
    simp only [tstep, ho, Except.ok.injEq, Prod.mk.injEq] at hs
    obtain ⟨e1, e2⟩ := hs
    subst e1; subst e2
    have h65 : o.free = 65535 := g3 rfl
    refine tinv_set E c L h _ _ hi hadr k0 hk0 o _ ho rfl rfl ?_ (fun e => by cases e)
      (fun _ => by show (o.free + 1) % 65536 ≤ c; rw [h65]; omega) ?_
      (fun k _ _ e => by cases e) ?_
    · rcases hi.cnt with e | ⟨e, g⟩
      · exact Or.inl e
      · exfalso
        rcases g with ⟨g5, _⟩ | ⟨a, g5⟩ | ⟨r, g5⟩ <;> cases g5
    · intro k hkk hk e
      simp only [TState.comp.injEq] at e
      exact addr_ne E _ hadr (by omega) (by omega) hkk e.symm
    · rintro a (e | e | e | e) <;> cases e
      rfl
  | link a =>
    obtain ⟨k0, hk0, rfl⟩ := hi.loc a (Or.inr (Or.inr (Or.inl rfl)))
    obtain ⟨o, ho, g1, g2, g3, g4⟩ := hi.arenas k0 hk0
    have hcntL : h.count = L := by
      rcases hi.cnt with e | ⟨e, g⟩
      · exact e
      · exfalso
        rcases g with ⟨g5, _⟩ | ⟨a, g5⟩ | ⟨r, g5⟩ <;> cases g5
    cases hn : o.next with
    | some n =>
      simp only [tstep, ho, hn, Except.ok.injEq, Prod.mk.injEq] at hs
      obtain ⟨e1, e2⟩ := hs
      subst e1; subst e2
      refine tinv_same E c L h _ _ hi (fun a e => by cases e) (fun a e => by cases e)
        (Or.inl hcntL) ?_
      rintro a (e | e | e | e) <;> cases e
      exact g2 n hn
    | none =>
      obtain ⟨head, hhead, c1, _, _, _⟩ := hi.arenas 0 (by omega)
      simp only [tstep, ho, hn, hhead] at hs
      cases hnew : HeapPool.new E h head.capacity with
      | error e => rw [hnew] at hs; cases hs
      | ok q =>
        obtain ⟨h3, n⟩ := q
        rw [hnew] at hs
        simp only [] at hs
        obtain ⟨e1, e2, e3, onew, e4, e5, e6, e7⟩ := new_frame E h h3 _ n hnew
        obtain ⟨onew2, f1, _, f3⟩ := new_cap E h h3 _ n hnew
        rw [e4] at f1
        cases f1
        have hadr2 : AddrOK E (h.count + 1) := by rw [hcntL]; exact hadr
        have hane : E.addr k0 ≠ n := by rw [e1]; exact tidy_fresh E h hi.tidy hadr2 _ o ho
        rw [e3 _ hane, ho] at hs
        simp only [Except.ok.injEq, Prod.mk.injEq] at hs
        obtain ⟨e8, e9⟩ := hs
        subst e8; subst e9
        have hnL : n = E.addr L := by rw [e1, hcntL]
        refine ⟨?_, hpos, ?_, ?_, ?_⟩
        · intro x ox hx
          simp only [set_count, e2]
          by_cases hxa : x = E.addr k0
          · exact ⟨k0, by omega, hxa⟩
          · rw [set_objs_other _ _ _ _ hxa] at hx
            by_cases hxn : x = n
            · exact ⟨h.count, by omega, by rw [hxn, e1]⟩
            · rw [e3 x hxn] at hx
              obtain ⟨k, hk, he⟩ := hi.tidy x ox hx
              exact ⟨k, by omega, he⟩
        · right
          refine ⟨by simp only [set_count, e2, hcntL], Or.inl ⟨by rw [hnL], ?_⟩⟩
          rw [← hnL, freeOf_set_other _ _ _ _ hane.symm, freeOf_eq h3 n onew e4, e6, c1]
          rw [c1] at e7
          exact e7
        · intro k hk
          simp only [set_count, e2] at hk
          by_cases hkk : k = k0
          · subst hkk
            refine ⟨_, set_objs_same _ _ _, g1, ?_, (fun e => by cases e), fun _ => g4 (fun e => by cases e)⟩
            intro m hm
            simp only [Option.some.injEq] at hm
            exact ⟨h.count, by simp only [set_count, e2]; omega, by rw [← hm, e1]⟩
          · have hne : E.addr k ≠ E.addr k0 := addr_ne E _ hadr (by omega) (by omega) hkk
            rw [set_objs_other _ _ _ _ hne]
            by_cases hkL : k = h.count
            · subst hkL
              rw [← e1, e4]
              refine ⟨onew, rfl, by rw [f3, c1], ?_, (fun e => by cases e), fun _ => by rw [e6, c1]⟩
              intro m hm
              rw [e5] at hm
              cases hm
            · have hklt : k < h.count := by omega
              obtain ⟨o2, ho2, p1, p2, _, p4⟩ := hi.arenas k hklt
              have hkn : E.addr k ≠ n := by
                rw [e1]; exact tidy_fresh E h hi.tidy hadr2 _ o2 ho2
              rw [e3 _ hkn]
              refine ⟨o2, ho2, p1, ?_, (fun e => by cases e), fun _ => p4 (fun e => by cases e)⟩
              intro m hm
              obtain ⟨k1, hk1, he1⟩ := p2 m hm
              exact ⟨k1, by simp only [set_count, e2]; omega, he1⟩
        · rintro a (e | e | e | e) <;> cases e
          exact ⟨h.count, by simp only [set_count, e2]; omega, e1⟩
  | scan a =>
    obtain ⟨k0, hk0, rfl⟩ := hi.loc a (Or.inr (Or.inr (Or.inr rfl)))
    obtain ⟨o, ho, g1, g2, g3, g4⟩ := hi.arenas k0 hk0
    simp only [tstep, ho] at hs
    cases hab : AllocateBlock E o with
    | error e => rw [hab] at hs; cases hs
    | ok q =>
      obtain ⟨o1, off⟩ := q
      rw [hab] at hs
      simp only [Except.ok.injEq, Prod.mk.injEq] at hs
      obtain ⟨e1, e2⟩ := hs
      subst e1; subst e2
      obtain ⟨f1, f2⟩ := AllocateBlock_free E o o1 off hab
      refine tinv_set E c L h _ _ hi hadr k0 hk0 o o1 ho f2 (AllocateBlock_next E o o1 off hab) ?_
        (fun e => by cases e) (fun _ => by rw [f1]; exact g4 (fun e => by cases e))
        (fun k _ _ e => by cases e) (fun k _ _ e => by cases e) ?_
      · rcases hi.cnt with e | ⟨e, _⟩
        · exact Or.inl e
        · exact Or.inr ⟨e, Or.inr ⟨_, rfl⟩⟩
      · rintro a (e | e | e | e) <;> cases e
  | done r =>
    simp only [tstep, Except.ok.injEq, Prod.mk.injEq] at hs
    obtain ⟨e1, e2⟩ := hs
    subst e1; subst e2
    refine tinv_same E c L h _ _ hi (fun a e => by cases e) (fun a e => by cases e) ?_ ?_
    · rcases hi.cnt with e | ⟨e, _⟩
      · exact Or.inl e
      · exact Or.inr ⟨e, Or.inr ⟨_, rfl⟩⟩
    · rintro a (e | e | e | e) <;> cases e

theorem iter_inv (E : Env) (c L : Nat) (hc : c < 65536) (hadr : AddrOK E (L + 1)) :
    ∀ (n : Nat) (h h1 : Heap) (st st1 : TState), TInv E c L h st →
    iter E (E.addr 0) n h st = .ok (h1, st1) → TInv E c L h1 st1 := by
  intro n
  induction n with
  | zero =>
    intro h h1 st st1 hi hs
    simp only [iter, Except.ok.injEq, Prod.mk.injEq] at hs
    rw [← hs.1, ← hs.2]
    exact hi
  | succ n ih =>
    intro h h1 st st1 hi hs
    simp only [iter] at hs
    cases hst : tstep E (E.addr 0) h st with
    | error e => rw [hst] at hs; cases hs
    | ok r =>
      rw [hst] at hs
      exact ih r.1 h1 r.2 st1 (tinv_step E c L hc hadr h r.1 st r.2 hi hst) hs

theorem inv_tinv (E : Env) (c : Nat) (S : Sys) (hinv : Inv E c S) (ht : Tidy E S.mp.heap) :
    TInv E c S.mp.heap.count S.mp.heap (.enter (some (E.addr 0))) := by
  refine ⟨ht, hinv.chain.pos, Or.inl rfl, ?_, ?_⟩
  · intro k hk
    obtain ⟨o, b, ho, hok, hnext⟩ := hinv.chain.arenas k hk
    refine ⟨o, ho, hok.cap_eq, ?_, (fun e => by cases e), fun _ => arena_free_le E c _ o b hok⟩
    intro n hn
    rw [hnext] at hn
    by_cases hk1 : k + 1 < S.mp.heap.count
    · rw [if_pos hk1] at hn
      exact ⟨k + 1, hk1, (Option.some.inj hn).symm⟩
    · rw [if_neg hk1] at hn
      cases hn
  · rintro a (e | e | e | e) <;> cases e
    exact ⟨0, hinv.chain.pos, rfl⟩

theorem inv_counterRange (E : Env) (c : Nat) (S : Sys) (hinv : Inv E c S)
    (ht : Tidy E S.mp.heap) (hc0 : 0 < c) (hc : c < 65536) (hfit : Fits E c)
    (hadr : AddrOK E (S.mp.heap.count + 1)) : CounterRange E c S := by
  have hquiet : ∀ S1 : Sys, Inv E c S1 → ∀ k, k < S1.mp.heap.count →
      (arenaAt S1.mp.heap (E.addr k)).capacity = c ∧ S1.mp.heap.freeOf (E.addr k) ≤ c := by
    intro S1 hinv1 k hk
    obtain ⟨o, b, ho, hok, _⟩ := hinv1.chain.arenas k hk
    rw [freeOf_eq _ _ o ho]
    unfold arenaAt
    rw [ho]
    exact ⟨hok.cap_eq, arena_free_le E c _ o b hok⟩
  refine ⟨hquiet S hinv, ?_, ?_, ?_⟩
  · intro n h st hs
    rw [hinv.head] at hs
    have hi := iter_inv E c _ hc hadr n _ h _ st (inv_tinv E c S hinv ht) hs
    intro k hk
    obtain ⟨o, ho, g1, _, g3, g4⟩ := hi.arenas k hk
    rw [freeOf_eq _ _ o ho]
    unfold arenaAt
    rw [ho]
    refine ⟨g1, ?_⟩
    by_cases hst : st = .comp (E.addr k)
    · exact Or.inr ⟨hst, g3 hst⟩
    · exact Or.inl (g4 hst)
  · obtain ⟨k0, i0, H, hal, _, _⟩ := Allocate_spec E c S.mp.heap hinv.chain hc0 hc hfit hadr
    rw [hinv.head]
    obtain ⟨n, hn⟩ := Allocate_iter E _ _ H _ hal
    exact ⟨n, H, _, hn⟩
  · intro p hp
    obtain ⟨S1, k, i, h1, h2, _, _⟩ := step_destroy E c S hinv hc (fits_size E c hfit)
      (addrOK_mono E (by omega) hadr) p hp
    exact ⟨S1, h1, fun k hk => (hquiet S1 h2 k hk).2⟩

/-- C17 (amended): in every valid sequential history on a pool of capacity
`1 ≤ c ≤ 65535` whose arena buffer size `8 + c * (sizeof(T) + 4)` does not exceed
`2^31 - 1`, every arena's free counter is within `0..capacity` in every state
between calls (so after the store in `init` and after the `fetch_add` in
`FreeBlock`) and in every state reached by the atomic steps of `Allocate`, with
one exception: between the `fetch_sub` on an arena whose counter is 0 and the
compensating `fetch_add`, the counter of that arena is 65535. -/
theorem counters_stay_in_range (E : Env) (c : Nat) (ops : List Op) (hc0 : 0 < c)
    (hc : c < 65536) (hfit : Fits E c) (hadr : AddrOK E (ops.length + 2))
    (hv : Valid E c ops) : ∃ S, exec E c ops = .ok S ∧ CounterRange E c S := by
  obtain ⟨S, h1, h2, _, h4⟩ := exec_inv E c ops hc0 hc hfit (addrOK_mono E (by omega) hadr) hv
  obtain ⟨_, g2, _⟩ := exec_shorts E c ops S hc (addrOK_mono E (by omega) hadr) h1
  exact ⟨S, h1, inv_counterRange E c S h2 g2 hc0 hc hfit (addrOK_mono E (by omega) hadr)⟩

/-- Witness for `counters_stay_in_range` on `demoHistory`. -/
theorem counters_stay_in_range_witness :
    (0 < 10 ∧ 10 < 65536 ∧ Fits demoEnv 10 ∧ AddrOK demoEnv (demoHistory.length + 2) ∧
      Valid demoEnv 10 demoHistory) ∧
    ∃ S, exec demoEnv 10 demoHistory = .ok S ∧ CounterRange demoEnv 10 S :=
  ⟨by decide, counters_stay_in_range demoEnv 10 demoHistory (by decide) (by decide)
    (by decide) (by decide) (by decide)⟩

/-- C17 fails as stated: on a pool of capacity 1 (`sizeof(T) = 12`) on which one
`create` has taken the only slot, the first atomic step of the next `create`,
the `fetch_sub` on the head arena, decrements the unsigned 16-bit counter from 0
and leaves 65535, which is outside `0..capacity`, until the compensating
`fetch_add` of the following step restores 0. -/
theorem counter_overdrawn_counterexample :
    Valid demoEnv 1 [.create, .create] ∧
    (exec demoEnv 1 [.create]).map (fun S =>
      (S.mp.pool_allocator_, S.mp.heap.freeOf 4096, (arenaAt S.mp.heap 4096).capacity)) =
      .ok (4096, 0, 1) ∧
    (exec demoEnv 1 [.create]).bind (fun S =>
      (iter demoEnv 4096 1 S.mp.heap (.enter (some 4096))).map (fun r =>
        (r.2, r.1.freeOf 4096, (arenaAt r.1 4096).capacity,
          decide (r.1.freeOf 4096 ≤ (arenaAt r.1 4096).capacity)))) =
      .ok (.comp 4096, 65535, 1, false) ∧
    (exec demoEnv 1 [.create]).bind (fun S =>
      (iter demoEnv 4096 2 S.mp.heap (.enter (some 4096))).map (fun r =>
        (r.2, r.1.freeOf 4096))) = .ok (.link 4096, 0) := by
  refine ⟨?_, ?_, ?_, ?_⟩ <;> decide

/-- Beyond the `int` range the counter bound fails between calls as well. With
`sizeof(T) = 2^32 + 4` and capacity 2 the scan position wraps from 8 to 16, so
the second `create` returns a block inside the first object; the bytes that
`GetBlockPool` decodes for this block are the record header of slot 0 followed
by the first four bytes of the first object, and after a store into the first
object they are the address of the second arena. The `destroy` of the block then
increments the counter of the second arena, which becomes 3 with capacity 2. -/
theorem counter_exceeds_capacity_beyond_int_range :
    Valid aliasEnv 2 aliasHistory ∧ AddrOK aliasEnv (aliasHistory.length + 2) ∧
    FitsSize aliasEnv 2 ∧ ¬ Fits aliasEnv 2 ∧
    (exec aliasEnv 2 aliasHistory).map (fun S =>
      (S.live, S.mp.heap.count, S.mp.heap.freeOf (2 ^ 56 + 5120),
        (arenaAt S.mp.heap (2 ^ 56 + 5120)).capacity)) = .ok ([⟨4096, 12⟩], 2, 3, 2) := by
  refine ⟨?_, ?_, ?_, ?_, ?_⟩ <;> decide

/-! ## The arenas visited by `Allocate` -/

/-- Without its records `visitWalk` is the walk of `Allocate`. -/
theorem visit_erase (E : Env) (this : Nat) : ∀ (fuel : Nat) (h : Heap) (cur : Option Nat),
    (visitWalk E this fuel h cur).map (fun r => (r.1, r.2.1)) = allocateWalk E this fuel h cur := by
  intro fuel
  induction fuel with
  | zero => intro h cur; rfl
  | succ fuel ih =>
    intro h cur
    cases cur with
    | none => rfl
    | some a =>
      unfold visitWalk allocateWalk
      cases ho : h.objs a with
      | none => rfl
      | some o =>
        simp only []
        split
        · rfl
        · split
          · rename_i n hn
            rw [← ih]
            cases visitWalk E this fuel _ (some n) <;> rfl
          · split
            · rfl
            · split
              · rfl
              · rename_i h3 n hnew
                split
                · rfl
                · rw [← ih]
                  cases visitWalk E this fuel _ (some n) <;> rfl

theorem visit_break (E : Env) (this fuel : Nat) (h : Heap) (a : Nat) (o : HeapPool)
    (ho : h.objs a = some o) (hfree : 0 < o.free) :
    visitWalk E this (fuel + 1) h (some a) =
      .ok (h.set a { pool := o.pool, next := o.next, free := (o.free + 65535) % 65536,
                     capacity := o.capacity }, some a, [a], []) := by
  unfold visitWalk
  simp only [ho]
  rw [if_pos hfree]

theorem visit_pass (E : Env) (this fuel : Nat) (h : Heap) (a n : Nat) (o : HeapPool)
    (ho : h.objs a = some o) (hfree : o.free = 0) (hn : o.next = some n) :
    visitWalk E this (fuel + 1) h (some a) =
      (visitWalk E this fuel h (some n)).map (fun r => (r.1, r.2.1, a :: r.2.2.1, r.2.2.2)) := by
  have hself : ∀ o1 : HeapPool, (h.set a o1).set a
      { pool := o.pool, next := o.next, free := ((o.free + 65535) % 65536 + 1) % 65536, capacity := o.capacity } = h := by
    intro o1
    rw [set_set, counter_restore _ hfree]
    exact set_self h a _ ho
  conv_lhs => unfold visitWalk
  simp only [ho]
  rw [if_neg (by omega), hself]
  simp only [hn]

theorem visit_grow (E : Env) (this fuel : Nat) (h hN : Heap) (a n : Nat) (o head : HeapPool)
    (ho : h.objs a = some o) (hfree : o.free = 0) (hn : o.next = none)
    (hhead : h.objs this = some head) (hnew : HeapPool.new E h head.capacity = .ok (hN, n))
    (hkeep : hN.objs a = some o) :
    visitWalk E this (fuel + 1) h (some a) =
      (visitWalk E this fuel
        (hN.set a { pool := o.pool, next := some n, free := o.free, capacity := o.capacity })
        (some n)).map (fun r => (r.1, r.2.1, a :: r.2.2.1, n :: r.2.2.2)) := by
  have hself : ∀ o1 : HeapPool, (h.set a o1).set a
      { pool := o.pool, next := o.next, free := ((o.free + 65535) % 65536 + 1) % 65536, capacity := o.capacity } = h := by
    intro o1
    rw [set_set, counter_restore _ hfree]
    exact set_self h a _ ho
  conv_lhs => unfold visitWalk
  simp only [ho]
  rw [if_neg (by omega), hself]
  simp only [hn, hhead, hnew, hkeep]

/-- The walk passes over a run of exhausted arenas and records each of them. -/
theorem visit_skip (E : Env) (c : Nat) (this : Nat) (h : Heap) (hch : ChainOK E c h) (fuel : Nat) :
    ∀ (d k : Nat), k + d < h.count →
    (∀ k1, k ≤ k1 → k1 < k + d → ∀ o1, h.objs (E.addr k1) = some o1 → o1.free = 0) →
    visitWalk E this (fuel + d) h (some (E.addr k)) =
      (visitWalk E this fuel h (some (E.addr (k + d)))).map (fun r =>
        (r.1, r.2.1, (List.range' k d).map E.addr ++ r.2.2.1, r.2.2.2)) := by
  intro d
  induction d with
  | zero =>
    intro k _ _
    simp only [Nat.add_zero, List.range'_zero, List.map_nil, List.nil_append]
    cases visitWalk E this fuel h (some (E.addr k)) <;> rfl
  | succ d ih =>
    intro k hk hz
    obtain ⟨o, b, ho, _, hnext⟩ := hch.arenas k (by omega)
    rw [if_pos (by omega)] at hnext
    rw [show fuel + (d + 1) = (fuel + d) + 1 by omega,
      visit_pass E this (fuel + d) h (E.addr k) (E.addr (k + 1)) o ho
        (hz k (Nat.le_refl k) (by omega) o ho) hnext,
      ih (k + 1) (by omega) (fun k1 h1 h2 => hz k1 (by omega) (by omega)),
      show k + 1 + d = k + (d + 1) by omega]
    cases visitWalk E this fuel h (some (E.addr (k + (d + 1)))) with
    | error e => rfl
    | ok r =>
      simp only [Except.map, List.range'_succ, List.map_cons, List.cons_append]

theorem range_map_snoc (f : Nat → Nat) (n : Nat) :
    (List.range' 0 n).map f ++ [f n] = (List.range (n + 1)).map f := by
  rw [← List.range_eq_range', List.range_succ, List.map_append]
  rfl

theorem range_map_snoc2 (f : Nat → Nat) (n : Nat) :
    (List.range' 0 n).map f ++ [f n, f (n + 1)] = (List.range (n + 1 + 1)).map f := by
  rw [← range_map_snoc f (n + 1), ← List.range_eq_range', ← List.range_eq_range',
    List.range_succ, List.map_append, List.append_assoc]
  rfl

theorem visited_nodup (E : Env) (n k0 : Nat) (hadr : AddrOK E n) (hk0 : k0 < n) :
    ((List.range (k0 + 1)).map E.addr).Nodup := by
  refine List.Nodup.map_on ?_ (List.nodup_range _)
  intro x hx y hy hxy
  rw [List.mem_range] at hx hy
  exact hadr.2 x (by omega) y (by omega) hxy

/-- When some arena has a positive counter, the loop body runs on the arenas up
to the first such arena and no arena is linked. -/
theorem visit_reuse (E : Env) (c : Nat) (h : Heap) (hch : ChainOK E c h) (k0 : Nat)
    (hk0 : k0 < h.count) (hpos : 0 < h.freeOf (E.addr k0))
    (hz : ∀ k, k < k0 → h.freeOf (E.addr k) = 0) :
    ∃ H, visitWalk E (E.addr 0) (h.count + 2) h (some (E.addr 0)) =
      .ok (H, some (E.addr k0), (List.range (k0 + 1)).map E.addr, []) := by
  obtain ⟨o, b, ho, hok, hnext⟩ := hch.arenas k0 hk0
  rw [freeOf_eq h _ o ho] at hpos
  refine ⟨h.set (E.addr k0) { pool := o.pool, next := o.next, free := (o.free + 65535) % 65536, capacity := o.capacity }, ?_⟩
  rw [show h.count + 2 = (h.count + 1 - k0 + 1) + k0 by omega,
    visit_skip E c (E.addr 0) h hch (h.count + 1 - k0 + 1) k0 0 (by omega)
      (fun k1 _ h2 o1 ho1 => by
        have := hz k1 (by omega)
        rwa [freeOf_eq h _ o1 ho1] at this),
    Nat.zero_add, visit_break E (E.addr 0) _ h (E.addr k0) o ho hpos]
  simp only [Except.map, range_map_snoc]

/-- When every arena is exhausted, the loop body runs on every arena of the chain
and on the one new arena that is linked. -/
theorem visit_growth (E : Env) (c : Nat) (h : Heap) (hch : ChainOK E c h) (hc0 : 0 < c)
    (hc : c < 65536) (hfit : FitsSize E c) (hadr : AddrOK E (h.count + 1))
    (hz : ∀ k, k < h.count → h.freeOf (E.addr k) = 0) :
    ∃ H, visitWalk E (E.addr 0) (h.count + 2) h (some (E.addr 0)) =
      .ok (H, some (E.addr h.count), (List.range (h.count + 1)).map E.addr, [E.addr h.count]) := by
  have hL := hch.pos
  obtain ⟨o, b, ho, hok, hnext⟩ := hch.arenas (h.count - 1) (by omega)
  rw [if_neg (by omega)] at hnext
  obtain ⟨head, bh, hhead, hokh, _⟩ := hch.arenas 0 hL
  obtain ⟨hN, o1, bN, hnew, hNc, hNo, hNf, hokN, hN1, hN2, hN3, _⟩ :=
    new_spec E c h hc0 hc hfit (hadr.1 h.count (by omega))
  have hne : E.addr (h.count - 1) ≠ E.addr h.count :=
    addr_ne E _ hadr (by omega) (by omega) (by omega)
  have hofree : o.free = 0 := by
    have := hz (h.count - 1) (by omega)
    rwa [freeOf_eq h _ o ho] at this
  refine ⟨(hN.set (E.addr (h.count - 1)) { pool := o.pool, next := some (E.addr h.count), free := o.free, capacity := o.capacity }).set (E.addr h.count) { pool := o1.pool, next := o1.next, free := (o1.free + 65535) % 65536, capacity := o1.capacity }, ?_⟩
  rw [show h.count + 2 = (1 + 1 + 1) + (h.count - 1) by omega,
    visit_skip E c (E.addr 0) h hch (1 + 1 + 1) (h.count - 1) 0 (by omega)
      (fun k1 _ h2 o2 ho2 => by
        have := hz k1 (by omega)
        rwa [freeOf_eq h _ o2 ho2] at this),
    Nat.zero_add,
    visit_grow E (E.addr 0) (1 + 1) h hN (E.addr (h.count - 1)) (E.addr h.count) o head ho hofree
      hnext hhead (by rw [hokh.cap_eq]; exact hnew) (by rw [hNf _ hne]; exact ho),
    visit_break E (E.addr 0) 1 _ (E.addr h.count) o1
      (by rw [set_objs_other _ _ _ _ hne.symm]; exact hNo) (by omega)]
  simp only [Except.map, List.cons_append, List.nil_append]
  have hlist := range_map_snoc2 E.addr (h.count - 1)
  rw [show h.count - 1 + 1 = h.count by omega] at hlist
  rw [hlist]

theorem inv_walkBound (E : Env) (c : Nat) (S : Sys) (hinv : Inv E c S) (hc0 : 0 < c)
    (hc : c < 65536) (hfit : Fits E c) (hadr : AddrOK E (S.mp.heap.count + 1)) :
    WalkBound E c S := by
  obtain ⟨k0, i0, H1, hal, hchH, hp⟩ := Allocate_spec E c S.mp.heap hinv.chain hc0 hc hfit hadr
  have hcap : ∀ k, k < S.mp.heap.count → (arenaAt S.mp.heap (E.addr k)).capacity = c := by
    intro k hk
    obtain ⟨o, b, ho, hok, _⟩ := hinv.chain.arenas k hk
    unfold arenaAt
    rw [ho]
    exact hok.cap_eq
  have hle := hp.arena_le
  refine ⟨hcap, ?_⟩
  rw [hinv.head]
  by_cases hk : k0 < S.mp.heap.count
  · obtain ⟨H, hv⟩ := visit_reuse E c S.mp.heap hinv.chain k0 hk (hp.reuse_pos hk)
      hp.earlier_zero
    refine ⟨H, [], H1, handle E k0 i0, k0, hv, hal, rfl, hle,
      visited_nodup E _ k0 hadr (by omega), ?_, ?_⟩
    · intro hz
      have := hp.reuse_pos hk
      rw [hz k0 hk] at this
      omega
    · intro _
      exact ⟨rfl, hk, (hp.reuse hk).2⟩
  · have hk0 : k0 = S.mp.heap.count := by omega
    subst hk0
    obtain ⟨H, hv⟩ := visit_growth E c S.mp.heap hinv.chain hc0 hc (fits_size E c hfit) hadr
      hp.earlier_zero
    obtain ⟨g1, _⟩ := hp.grow rfl
    refine ⟨H, [E.addr S.mp.heap.count], H1, handle E S.mp.heap.count i0, S.mp.heap.count, hv,
      hal, rfl, hle, visited_nodup E _ _ hadr (by omega), ?_, ?_⟩
    · intro _
      refine ⟨rfl, rfl, g1, ?_, ?_⟩
      · obtain ⟨o, b, ho, hok, _⟩ := hchH.arenas S.mp.heap.count (by omega)
        unfold arenaAt
        rw [ho]
        exact hok.cap_eq
      · obtain ⟨o, b, ho, _, hnext⟩ := hchH.arenas (S.mp.heap.count - 1) (by omega)
        have hpos := hinv.chain.pos
        unfold arenaAt
        rw [ho, hnext, if_pos (by omega), show S.mp.heap.count - 1 + 1 = S.mp.heap.count by omega]
    · rintro ⟨k, hk1, hk2⟩
      rw [hp.earlier_zero k hk1] at hk2
      omega

/-- Within the `int` range the property holds: in every state that a valid sequential history reaches on a
pool of capacity `1 ≤ c ≤ 65535` whose arena buffer size `8 + c * (sizeof(T) + 4)`
does not exceed `2^31 - 1`, with a chain of `L` arenas, a single `Allocate` call
returns after its loop body has run on at most `L + 1` arenas, each once and in
chain order from the head; it links at most one new arena, and one exactly when
the counter of every existing arena is 0; the new arena has the same capacity
and the call goes on to it. -/
theorem allocate_walk_is_bounded (E : Env) (c : Nat) (ops : List Op) (hc0 : 0 < c)
    (hc : c < 65536) (hfit : Fits E c) (hadr : AddrOK E (ops.length + 2))
    (hv : Valid E c ops) : ∃ S, exec E c ops = .ok S ∧ WalkBound E c S := by
  obtain ⟨S, h1, h2, _, h4⟩ := exec_inv E c ops hc0 hc hfit (addrOK_mono E (by omega) hadr) hv
  exact ⟨S, h1, inv_walkBound E c S h2 hc0 hc hfit (addrOK_mono E (by omega) hadr)⟩

/-- Witness for `allocate_walk_is_bounded`: after ten creates on a pool of
capacity 10 the head arena is exhausted. -/
theorem allocate_walk_is_bounded_witness :
    (0 < 10 ∧ 10 < 65536 ∧ Fits demoEnv 10 ∧ AddrOK demoEnv ((creates 10).length + 2) ∧
      Valid demoEnv 10 (creates 10)) ∧
    ∃ S, exec demoEnv 10 (creates 10) = .ok S ∧ WalkBound demoEnv 10 S :=
  ⟨by decide, allocate_walk_is_bounded demoEnv 10 (creates 10) (by decide) (by decide)
    (by decide) (by decide) (by decide)⟩

/-- C15 states that a single `Allocate` call terminates after visiting at most `L + 1`
arenas, in chain order, and links at most one new arena.
The code breaks this property, because `AllocateBlock` keeps its scan
position in an `int` whereas `init` lays the same records out with a `size_t`
offset. With `sizeof(T) = 2^31 - 4` and capacity 2, after one
`create` the walk of the next `Allocate` stops on the head arena, whose counter
is 1, but the call does not return: in the slot scan the position
`8 + 2^31` converted to `int` is `8 - 2^31`, and the flag of slot 1 is read at
this negative index, outside the buffer. -/
theorem allocate_faults_counterexample :
    Valid edgeEnv 2 [.create] ∧ ¬ Fits edgeEnv 2 ∧
    (exec edgeEnv 2 [.create]).map (fun S => (S.live, S.mp.heap.count, S.mp.heap.freeOf 4096)) =
      .ok ([⟨4096, 12⟩], 1, 1) ∧
    (exec edgeEnv 2 [.create]).bind (fun S =>
      (visitWalk edgeEnv S.mp.pool_allocator_ (S.mp.heap.count + 2) S.mp.heap
        (some S.mp.pool_allocator_)).map (fun r => r.2)) = .ok (some 4096, [4096], []) ∧
    nextPos edgeEnv 8 = 8 - 2 ^ 31 ∧
    (exec edgeEnv 2 [.create]).bind (fun S =>
      (Allocate edgeEnv S.mp.heap S.mp.pool_allocator_).map (fun r => r.2)) =
      .error .outOfBounds ∧
    ¬ ∃ S, exec edgeEnv 2 [.create] = .ok S ∧ WalkBound edgeEnv 2 S := by
  have hobs : (exec edgeEnv 2 [.create]).bind (fun S =>
      (Allocate edgeEnv S.mp.heap S.mp.pool_allocator_).map (fun r => r.2)) =
      .error .outOfBounds := by decide
  refine ⟨by decide, by decide, by decide, by decide, by decide, hobs, ?_⟩
  rintro ⟨S, hS, _, H, lnk, H1, p, k0, _, hal, _⟩
  rw [hS] at hobs
  simp only [Except.bind, hal, Except.map] at hobs
  cases hobs

end memory_pool
